import Mathlib

/-!
# Reverse Typist: the game-state engine of `game.go`

A shallow embedding of the token (`Enemy`) and game (`Game`) logic of `game.go`
together with theorems about it.

Conventions of the embedding.

* Go `float64` values are elements of a type `F` carrying the operations the
  program uses (`GoFloat F`).  No law is assumed about these operations, so
  every theorem stated for all `F` holds for IEEE arithmetic as well as for
  exact arithmetic.  `F64` is IEEE 754 binary64 arithmetic on finite values
  (round to nearest, ties to even); the theorems about speeds and positions as
  numbers are stated for it.  `Frac` and `ℚ` are exact arithmetic without
  rounding: `Frac` is used to evaluate states in which no rounding matters,
  `ℚ` for the scenario of tokens of speed 0.5, whose positions `40 + 0.5 n`
  are binary64 numbers, so that no sum is rounded.
* Go `int` values are integers; the results of `+ 1`, `- 1`, `/` and `*` are
  reduced to the 64-bit range by `wrapInt64`.
* A run-time failure (index out of range, integer division by zero) is `none`.
* The package-level random source is the explicit state `Rand`.
* Every `Enemy` of `g.enemies` has `e.game == g` (only `AddEnemy` creates
  enemies), so `Enemy.Update` takes the owning game as an argument and returns
  it with the updated `waveCount`.
-/

namespace ReverseTypist

/-! ## Numbers -/

/-- The `float64` operations used by `game.go`. `dec m k` is the constant
written `m / 10^k` in decimal (`dec 40 0` is `40`, `dec 5 1` is `0.5`), `ge` is
`>=` and `toInt` is the conversion `int(x)`. -/
class GoFloat (F : Type) where
  dec : Int → Nat → F
  add : F → F → F
  sub : F → F → F
  mul : F → F → F
  ge : F → F → Bool
  toInt : F → Int

/-- Exact fractions `num / den`, not normalised; `den` is positive in every
value built from `dec` by the operations. -/
structure Frac where
  num : Int
  den : Nat
deriving DecidableEq, Repr

instance : GoFloat Frac where
  dec m k := ⟨m, 10 ^ k⟩
  add a b := ⟨a.num * b.den + b.num * a.den, a.den * b.den⟩
  sub a b := ⟨a.num * b.den - b.num * a.den, a.den * b.den⟩
  mul a b := ⟨a.num * b.num, a.den * b.den⟩
  ge a b := decide (b.num * a.den ≤ a.num * b.den)
  toInt a := Int.tdiv a.num a.den

/-- Reduction of an integer to the range of a 64-bit Go `int`. -/
def wrapInt64 (x : Int) : Int :=
  (x + 2 ^ 63) % 2 ^ 64 - 2 ^ 63

/-- Go integer division `a / b`: truncated, `none` when `b = 0`. -/
def goDiv (a b : Int) : Option Int :=
  if b = 0 then none else some (wrapInt64 (Int.tdiv a b))

/-! ## Data model -/

/-- The struct `Level`. -/
structure Level (F : Type) where
  minSpeed : F
  maxSpeed : F
  textLength : Int
  waveLength : Int

/-- The type `ebiten.Key` (an integer). -/
abbrev Key := Int

/-- The struct `Enemy`, without the back pointer `game`. -/
structure Enemy (F : Type) where
  text : String
  xPos : F
  yPos : F
  discreteY : Int
  jumpHeight : Int
  speed : F
  killed : Bool
  textArray : List String
  partialText : String

/-- The struct `Game`. `keyMap` is the Go map as a partial function. -/
structure Game (F : Type) where
  enemies : List (Enemy F)
  waveCount : Int
  currentLevel : Int
  levels : List (Level F)
  redlineY : F
  gameOver : Bool
  gameWon : Bool
  started : Bool
  gameOverText : String
  winText : String
  keys : List Key
  keyMap : Key → Option String

/-- The state of the random source: the raw outcome of the `n`-th call, read as
an integer by `Intn` and as a float by `Float64`, and the number of calls made
so far. -/
structure Rand (F : Type) where
  ints : Nat → Nat
  floats : Nat → F
  calls : Nat

/-- What one `Game.Update` call reads from the keyboard:
`ebiten.IsKeyPressed(ebiten.KeyEnter)` and the result of
`inpututil.AppendPressedKeys`. -/
structure Input where
  enter : Bool
  pressed : List Key

/-! ## Random source and text generation -/

/-- The call `rand.Intn(n)` for `n > 0`: a value in `[0, n)`. -/
def Rand.Intn {F : Type} (r : Rand F) (n : Nat) : Nat × Rand F :=
  (r.ints r.calls % n, { r with calls := r.calls + 1 })

/-- The call `rand.Float64()`. -/
def Rand.Float64 {F : Type} (r : Rand F) : F × Rand F :=
  (r.floats r.calls, { r with calls := r.calls + 1 })

/-- The package variable `letters`. -/
def letters : String := "abcdefghijklmnopqrstuvwxyz"

/-- The loop of `generateText`, `n` iterations left. -/
def generateTextLoop {F : Type} : Nat → String → Rand F → String × Rand F
  | 0, result, r => (result, r)
  | n + 1, result, r =>
    let (idx, r1) := r.Intn (letters.length - 1)
    generateTextLoop n (result ++ String.singleton (letters.data.getD idx 'a')) r1

/-- The function `generateText`. -/
def generateText {F : Type} (l : Int) (r : Rand F) : String × Rand F :=
  generateTextLoop l.toNat "" r

/-! ## Tokens -/

/-- The assignment `r[i], r[j] = r[j], r[i]`. -/
def swap (r : List String) (i j : Nat) : List String :=
  (r.set i (r.getD j "")).set j (r.getD i "")

/-- The loop `for i, j := 0, len(r)-1; i < j; i, j = i+1, j-1` of `reverse`,
with a bound on the number of iterations. -/
def reverseLoop : Nat → List String → Int → Int → List String
  | 0, r, _, _ => r
  | fuel + 1, r, i, j =>
    if i < j then reverseLoop fuel (swap r i.toNat j.toNat) (i + 1) (j - 1) else r

/-- The function `reverse`: a copy of `s`, reversed in place. -/
def reverse (s : List String) : List String :=
  reverseLoop s.length s 0 ((s.length : Int) - 1)

/-- The call `strings.Split(text, "")`: one string per character. -/
def splitChars (text : String) : List String :=
  text.data.map String.singleton

/-- The method `Enemy.Reset`. -/
def Enemy.Reset {F : Type} [GoFloat F] (e : Enemy F) (text : String) (speed : F)
    (jumpHeight : Int) : Enemy F :=
  { e with
    text := text
    yPos := GoFloat.dec 40 0
    discreteY := 40
    jumpHeight := jumpHeight
    speed := speed
    killed := false
    textArray := reverse (splitChars text) }

/-- The method `Enemy.checkDamage`. -/
def Enemy.checkDamage {F : Type} (e : Enemy F) (l : String) : Enemy F :=
  match e.textArray with
  | [] => { e with killed := true }
  | c :: rest => if c = l then { e with textArray := rest } else e

/-- The method `Enemy.CheckGameOver`. -/
def Enemy.CheckGameOver {F : Type} [GoFloat F] (e : Enemy F) (lineY : F) : Bool :=
  GoFloat.ge e.yPos lineY

/-- The statements `e.checkDamage(l)` guarded by the key test at the start of
`Enemy.Update`: the first pressed key, if it is in the key map. -/
def Enemy.applyInput {F : Type} (e : Enemy F) (g : Game F) : Enemy F :=
  match g.keys with
  | [] => e
  | k :: _ =>
    match g.keyMap k with
    | some l => e.checkDamage l
    | none => e

/-- The indexing `levels[i]`: `none` when `i` is out of range. -/
def levelAt {F : Type} (levels : List (Level F)) (i : Int) : Option (Level F) :=
  if i < 0 then none else levels[i.toNat]?

/-- The constant `defaultJumpHeight`. -/
def defaultJumpHeight : Int := 40

/-- The speed drawn at a spawn: `rand.Float64()*(max-min)+min`. -/
def spawnSpeed {F : Type} [GoFloat F] (u : F) (lv : Level F) : F :=
  GoFloat.add (GoFloat.mul u (GoFloat.sub lv.maxSpeed lv.minSpeed)) lv.minSpeed

/-- The block `if e.killed { ... }` of `Enemy.Update`. -/
def Enemy.respawn {F : Type} [GoFloat F] (e : Enemy F) (g : Game F) (r : Rand F) :
    Option (Enemy F × Game F × Rand F) :=
  if e.killed then
    match levelAt g.levels g.currentLevel with
    | none => none
    | some lv =>
      let g1 := { g with waveCount := wrapInt64 (g.waveCount - 1) }
      if g1.waveCount > 0 then
        let (txt, r1) := generateText lv.textLength r
        let (u, r2) := r1.Float64
        some (e.Reset txt (spawnSpeed u lv) defaultJumpHeight, g1, r2)
      else
        some (e, g1, r)
  else
    some (e, g, r)

/-- The last three statements of `Enemy.Update`: `partialText`, `yPos` and
`discreteY`. -/
def Enemy.move {F : Type} [GoFloat F] (e : Enemy F) : Option (Enemy F) :=
  let e1 := { e with partialText := String.join (reverse e.textArray) }
  let e2 := { e1 with yPos := GoFloat.add e1.yPos e1.speed }
  match goDiv (GoFloat.toInt e2.yPos) e2.jumpHeight with
  | none => none
  | some q => some { e2 with discreteY := wrapInt64 (q * e2.jumpHeight) }

/-- The method `Enemy.Update`, on the token and its owning game. -/
def Enemy.Update {F : Type} [GoFloat F] (e : Enemy F) (g : Game F) (r : Rand F) :
    Option (Enemy F × Game F × Rand F) :=
  match (e.applyInput g).respawn g r with
  | none => none
  | some (e1, g1, r1) =>
    match e1.move with
    | none => none
    | some e2 => some (e2, g1, r1)

/-- The loop `for _, e := range g.enemies` of `Game.AddEnemy`. -/
def Game.resetAll {F : Type} [GoFloat F] (g : Game F) :
    List (Enemy F) → Rand F → Option (List (Enemy F) × Rand F)
  | [], r => some ([], r)
  | e :: es, r =>
    match levelAt g.levels g.currentLevel with
    | none => none
    | some lv =>
      let (txt, r1) := generateText lv.textLength r
      let (u, r2) := r1.Float64
      match Game.resetAll g es r2 with
      | none => none
      | some (es1, r3) => some (e.Reset txt (spawnSpeed u lv) defaultJumpHeight :: es1, r3)

/-- The token allocated by `Game.AddEnemy`: every field but `xPos` has the zero
value of its type. -/
def newEnemy {F : Type} [GoFloat F] (xPos : F) : Enemy F :=
  { text := ""
    xPos := xPos
    yPos := GoFloat.dec 0 0
    discreteY := 0
    jumpHeight := 0
    speed := GoFloat.dec 0 0
    killed := false
    textArray := []
    partialText := "" }

/-- The method `Game.AddEnemy`. -/
def Game.AddEnemy {F : Type} [GoFloat F] (g : Game F) (xPos : F) (r : Rand F) :
    Option (Game F × Rand F) :=
  let g1 := { g with enemies := g.enemies ++ [newEnemy xPos] }
  match g1.resetAll g1.enemies r with
  | none => none
  | some (es, r1) => some ({ g1 with enemies := es }, r1)

/-! ## The game -/

/-- The block `if g.waveCount < 0 { ... }` of `Game.Update`. -/
def Game.advanceLevel {F : Type} (g : Game F) : Option (Game F) :=
  if g.waveCount < 0 then
    let g1 := { g with currentLevel := wrapInt64 (g.currentLevel + 1) }
    if g1.currentLevel ≥ g1.levels.length then
      some { g1 with gameOver := true, gameWon := true }
    else
      match levelAt g1.levels g1.currentLevel with
      | none => none
      | some lv => some { g1 with waveCount := lv.waveLength }
  else
    some g

/-- The loop `for _, e := range g.enemies` of `Game.Update`, on the tokens
still to visit: the tokens as they are after the loop, the game and the random
source. -/
def Game.updateEnemies {F : Type} [GoFloat F] :
    Game F → Rand F → List (Enemy F) → Option (List (Enemy F) × Game F × Rand F)
  | g, r, [] => some ([], g, r)
  | g, r, e :: es =>
    if e.CheckGameOver g.redlineY then
      some (e :: es, { g with gameOver := true }, r)
    else
      match e.Update g r with
      | none => none
      | some (e1, g1, r1) =>
        match Game.updateEnemies g1 r1 es with
        | none => none
        | some (es1, g2, r2) => some (e1 :: es1, g2, r2)

/-- The branch `else { ... }` of `Game.Update`, taken when `gameOver` is set. -/
def Game.restart {F : Type} [GoFloat F] (g : Game F) (inp : Input) (r : Rand F) :
    Option (Game F × Rand F) :=
  let g1 := { g with currentLevel := 0 }
  match levelAt g1.levels g1.currentLevel with
  | none => none
  | some lv =>
    let g2 := { g1 with waveCount := lv.waveLength }
    if inp.enter then
      let g3 := { g2 with gameOver := false, enemies := [] }
      match g3.AddEnemy (GoFloat.dec 60 0) r with
      | none => none
      | some (g4, r1) => g4.AddEnemy (GoFloat.dec 300 0) r1
    else
      some (g2, r)

/-- The statement `g.keys = inpututil.AppendPressedKeys(g.keys[:0])`. -/
def Game.readKeys {F : Type} (g : Game F) (inp : Input) : Game F :=
  { g with keys := inp.pressed }

/-- The method `Game.Update`. -/
def Game.Update {F : Type} [GoFloat F] (g : Game F) (inp : Input) (r : Rand F) :
    Option (Game F × Rand F) :=
  if !g.gameOver then
    if !g.started then
      if inp.enter then some ({ g with started := true }, r) else some (g, r)
    else
      match g.advanceLevel with
      | none => none
      | some g1 =>
        if !g1.gameOver then
          let g2 := g1.readKeys inp
          match Game.updateEnemies g2 r g2.enemies with
          | none => none
          | some (es, g3, r1) => some ({ g3 with enemies := es }, r1)
        else
          some (g1, r)
  else
    g.restart inp r

/-- The text that `Game.Draw` shows when `gameOver` is set. -/
def Game.bannerText {F : Type} (g : Game F) : String :=
  if g.gameWon then g.winText else g.gameOverText

/-- The phase of the game. -/
inductive Phase where
  | notStarted
  | playing
  | over
  | won
deriving DecidableEq, Repr

/-- The phase that `Game.Draw` shows, from its tests of `gameOver`, `gameWon`
and `started`. -/
def Game.phase {F : Type} (g : Game F) : Phase :=
  if g.gameOver then
    if g.gameWon then Phase.won else Phase.over
  else
    if g.started then Phase.playing else Phase.notStarted

/-! ## Start-up -/

/-- The constant `maxLevels`. -/
def maxLevels : Nat := 5

/-- The level that `main` stores at index `i` of the level table. -/
def mainLevel {F : Type} [GoFloat F] (i : Nat) : Level F :=
  { minSpeed := GoFloat.dec 5 1
    maxSpeed := GoFloat.add (GoFloat.dec 8 1) (GoFloat.mul (GoFloat.dec i 0) (GoFloat.dec 1 1))
    textLength := 3 + i
    waveLength := 10 + i * 5 }

/-- The level table built by `main`. -/
def mainLevels {F : Type} [GoFloat F] : List (Level F) :=
  (List.range maxLevels).map mainLevel

/-- The key map built by `main`: key `i` is the `i`-th letter. -/
def mainKeyMap (k : Key) : Option String :=
  if 0 ≤ k ∧ k < letters.length then
    some (String.singleton (letters.data.getD k.toNat 'a'))
  else
    none

/-- The struct literal `&Game{...}` of `main`: no token yet, every field that
is not listed has the zero value of its type. -/
def newGame {F : Type} [GoFloat F] (waveCount : Int) : Game F :=
  { enemies := []
    waveCount := waveCount
    currentLevel := 0
    levels := mainLevels
    redlineY := GoFloat.dec 700 0
    gameOver := false
    gameWon := false
    started := false
    gameOverText := "game over"
    winText := "you won"
    keys := []
    keyMap := mainKeyMap }

/-- The game that `main` hands to `ebiten.RunGame`. -/
def mainGame {F : Type} [GoFloat F] (r : Rand F) : Option (Game F × Rand F) :=
  match levelAt (mainLevels : List (Level F)) 0 with
  | none => none
  | some lv =>
    match (newGame lv.waveLength).AddEnemy (GoFloat.dec 60 0) r with
    | none => none
    | some (g1, r1) => g1.AddEnemy (GoFloat.dec 300 0) r1

/-! ## Typing a word -/

/-- The calls `e.checkDamage(l)` for the letters `ls`, in order. -/
def checkDamageAll {F : Type} (e : Enemy F) (ls : List String) : Enemy F :=
  ls.foldl Enemy.checkDamage e

/-- The characters of `text` from its end towards its start, last character
first: what the player has to type. -/
def reverseTyping (text : String) : List String :=
  text.data.reverse.map String.singleton

/-- A token spawned with the text "cat" at speed 0.5. -/
def catEnemy : Enemy Frac :=
  (newEnemy (GoFloat.dec 60 0)).Reset "cat" (GoFloat.dec 5 1) defaultJumpHeight

/-! ## What a frame does to the tokens, in terms of the state before it -/

/-- The tokens that the loop of `Game.Update` visits with `e.Update()`: those
before the first one that is past the boundary. -/
def visited {F : Type} [GoFloat F] (g : Game F) (es : List (Enemy F)) : List (Enemy F) :=
  es.takeWhile fun e => !e.CheckGameOver g.redlineY

/-- The tokens that the loop of `Game.Update` does not reach: the first one
that is past the boundary and all after it. -/
def unvisited {F : Type} [GoFloat F] (g : Game F) (es : List (Enemy F)) : List (Enemy F) :=
  es.dropWhile fun e => !e.CheckGameOver g.redlineY

/-- The number of visited tokens whose `killed` flag is set once the input of
the frame is applied. -/
def killCount {F : Type} [GoFloat F] (g : Game F) (es : List (Enemy F)) : Nat :=
  ((visited g es).filter fun e => (e.applyInput g).killed).length

/-- The value of `waveCount` after `n` executions of `e.game.waveCount -= 1`. -/
def lowerBy : Nat → Int → Int
  | 0, w => w
  | n + 1, w => lowerBy n (wrapInt64 (w - 1))

/-- The level index is inside the level table, whose length is a Go `int`. -/
def Game.LevelInRange {F : Type} (g : Game F) : Prop :=
  0 ≤ g.currentLevel ∧ g.currentLevel < g.levels.length ∧ (g.levels.length : Int) < 2 ^ 63

/-- The game is usable by `Enemy.Update`: the level index is in range and no
token has `jumpHeight` zero. -/
def Game.Ready {F : Type} (g : Game F) : Prop :=
  g.LevelInRange ∧ ∀ e ∈ g.enemies, e.jumpHeight ≠ 0

/-! ## Concrete states -/

/-- A random source: the `n`-th raw outcome is `7 n + 3` and `0.5`. -/
def demoRand : Rand Frac :=
  { ints := fun n => 7 * n + 3, floats := fun _ => GoFloat.dec 5 1, calls := 0 }

/-- A token of text "cat" whose three letters have been typed: `textArray` is
empty and `killed` is still false. -/
def typedOut : Enemy Frac :=
  checkDamageAll catEnemy (reverseTyping "cat")

/-- A token of text "dog" at `x = 300` that has reached the boundary
`y = 700`. -/
def crossing : Enemy Frac :=
  { (newEnemy (GoFloat.dec 300 0)).Reset "dog" (GoFloat.dec 5 1) defaultJumpHeight with
    yPos := GoFloat.dec 700 0
    discreteY := 680 }

/-- A token of text "dog" at `x = 300`, just spawned. -/
def dogEnemy : Enemy Frac :=
  (newEnemy (GoFloat.dec 300 0)).Reset "dog" (GoFloat.dec 5 1) defaultJumpHeight

/-- A started game in play with the level table, boundary and key map of
`main`, the given tokens, wave counter and level. -/
def playing (es : List (Enemy Frac)) (waveCount currentLevel : Int) : Game Frac :=
  { enemies := es
    waveCount := waveCount
    currentLevel := currentLevel
    levels := mainLevels
    redlineY := GoFloat.dec 700 0
    gameOver := false
    gameWon := false
    started := true
    gameOverText := "game over"
    winText := "you won"
    keys := []
    keyMap := mainKeyMap }

/-- No key is pressed. -/
def noKey : Input := { enter := false, pressed := [] }

/-- The key of the letter 'a' (key 0) is pressed. -/
def keyA : Input := { enter := false, pressed := [0] }

/-- The Enter key is pressed. -/
def keyEnter : Input := { enter := true, pressed := [] }

/-- The call `g.Update()` on the outcome of an earlier call. -/
def thenUpdate {F : Type} [GoFloat F] (s : Option (Game F × Rand F)) (inp : Input) :
    Option (Game F × Rand F) :=
  match s with
  | none => none
  | some (g, r) => g.Update inp r

/-- What a frame shows of a token. -/
structure TokenView (F : Type) where
  text : String
  textArray : List String
  killed : Bool
  yPos : F
deriving DecidableEq, Repr

/-- What a frame shows of the game. -/
structure Snapshot (F : Type) where
  gameOver : Bool
  gameWon : Bool
  waveCount : Int
  currentLevel : Int
  tokens : List (TokenView F)
deriving DecidableEq, Repr

/-- The fields of a token that the examples compare. -/
def Enemy.view {F : Type} (e : Enemy F) : TokenView F :=
  { text := e.text, textArray := e.textArray, killed := e.killed, yPos := e.yPos }

/-- The fields of the game that the examples compare. -/
def Game.view {F : Type} (g : Game F) : Snapshot F :=
  { gameOver := g.gameOver
    gameWon := g.gameWon
    waveCount := g.waveCount
    currentLevel := g.currentLevel
    tokens := g.enemies.map Enemy.view }

/-- The snapshot after a call of `Game.Update`, `none` if it failed. -/
def outcome {F : Type} (s : Option (Game F × Rand F)) : Option (Snapshot F) :=
  s.map fun p => p.1.view

instance {F : Type} (g : Game F) : Decidable g.LevelInRange := by
  unfold Game.LevelInRange
  infer_instance

instance {F : Type} (g : Game F) : Decidable g.Ready := by
  unfold Game.Ready
  infer_instance

/-- The number of visited tokens whose `killed` flag is clear at the start of
the frame and set by the input of the frame. -/
def newlyKilled {F : Type} [GoFloat F] (g : Game F) (es : List (Enemy F)) : Nat :=
  ((visited g es).filter fun e => !e.killed && (e.applyInput g).killed).length

/-- The number of visited tokens whose `killed` flag is already set at the
start of the frame. -/
def stillKilled {F : Type} [GoFloat F] (g : Game F) (es : List (Enemy F)) : Nat :=
  ((visited g es).filter fun e => e.killed).length

/-- A token of text "cat", typed out and killed by one more key, in a frame
that did not respawn it. -/
def killedCat : Enemy Frac :=
  typedOut.checkDamage "a"

/-- A lost game: level 2, seven strings left, a token at the boundary. -/
def lostGame : Game Frac :=
  { playing [crossing, dogEnemy] 7 2 with gameOver := true }

/-- The state after the frame that killed the last token of a wave: `waveCount`
is 0 and the killed token was not respawned. -/
def afterKill : Game Frac :=
  playing [killedCat, dogEnemy] 0 0

/-- A token allocated at `xPos` and reset with a text and a speed drawn for the
level `lv`, and the random source after the two draws. -/
def freshToken {F : Type} [GoFloat F] (xPos : F) (lv : Level F) (r : Rand F) :
    Enemy F × Rand F :=
  let t := generateText lv.textLength r
  let u := t.2.Float64
  ((newEnemy xPos).Reset t.1 (spawnSpeed u.1 lv) defaultJumpHeight, u.2)

/-- The last level of `main` with the wave exhausted: the next frame wins. -/
def lastWave : Game Frac :=
  playing [killedCat, dogEnemy] (-1) 4

/-- The game with every token moved to the height `y`. -/
def Game.tokensAt {F : Type} (g : Game F) (y : F) : Game F :=
  { g with enemies := g.enemies.map fun e => { e with yPos := y } }

/-- The flags and the banner of `Game.Draw` after a call of `Game.Update`. -/
structure Banner where
  gameOver : Bool
  gameWon : Bool
  phase : Phase
  text : String
deriving DecidableEq, Repr

/-- The banner of a game. -/
def Game.banner {F : Type} (g : Game F) : Banner :=
  { gameOver := g.gameOver, gameWon := g.gameWon, phase := g.phase, text := g.bannerText }

/-- The outcome of a call with every token moved to the height `y`. -/
def atHeight {F : Type} (s : Option (Game F × Rand F)) (y : F) : Option (Game F × Rand F) :=
  s.map fun p => (p.1.tokensAt y, p.2)

/-- The banner after a call of `Game.Update`, `none` if it failed. -/
def bannerOf {F : Type} (s : Option (Game F × Rand F)) : Option Banner :=
  s.map fun p => p.1.banner

/-- The calls `g.Update()` of consecutive frames, one for each input. -/
def runInputs {F : Type} [GoFloat F] :
    List Input → Option (Game F × Rand F) → Option (Game F × Rand F)
  | [], s => s
  | inp :: inps, s => runInputs inps (thenUpdate s inp)

/-! ## The typed letter -/

/-- The letter of the first key of the list that has an entry in the key
table, if there is one. -/
def firstMapped (keyMap : Key → Option String) (keys : List Key) : Option String :=
  keys.findSome? keyMap

/-- The letter that `Enemy.Update` passes to `checkDamage`: the entry of
`keys[0]` in the key table, if there is a pressed key and it has an entry. -/
def appliedLetter {F : Type} (g : Game F) : Option String :=
  match g.keys with
  | [] => none
  | k :: _ => g.keyMap k

/-- A token spawned with the text "dna": the next letter to type is 'a'. -/
def dnaEnemy : Enemy Frac :=
  (newEnemy (GoFloat.dec 60 0)).Reset "dna" (GoFloat.dec 5 1) defaultJumpHeight

/-- The keys 0 (the letter 'a') and 30 (not a letter) are pressed, in this
order. -/
def keyAThenOther : Input := { enter := false, pressed := [0, 30] }

/-! ## The life of a token -/

/-- The states of a token after `Reset` and any sequence of `checkDamage` and
`Enemy.Update` calls. -/
inductive Enemy.Reached {F : Type} [GoFloat F] : Enemy F → Prop
  | reset (e : Enemy F) (text : String) (speed : F) (jumpHeight : Int) :
      Enemy.Reached (e.Reset text speed jumpHeight)
  | damage (e : Enemy F) (l : String) : Enemy.Reached e → Enemy.Reached (e.checkDamage l)
  | update (e e1 : Enemy F) (g g1 : Game F) (r r1 : Rand F) :
      Enemy.Reached e → e.Update g r = some (e1, g1, r1) → Enemy.Reached e1

/-- The first `n` characters of `text`. -/
def textHead (text : String) (n : Nat) : String :=
  String.mk (text.data.take n)

/-! ## Safety of the level index -/

/-- The invariant of the run: the level table is not empty and its length is a
Go `int`, the level index is inside it whenever `gameOver` is clear, and no
token has `jumpHeight` zero. -/
def Game.Safe {F : Type} (g : Game F) : Prop :=
  g.levels ≠ [] ∧ (g.levels.length : Int) < 2 ^ 63 ∧
    (g.gameOver = false → 0 ≤ g.currentLevel ∧ g.currentLevel < g.levels.length) ∧
    ∀ e ∈ g.enemies, e.jumpHeight ≠ 0

/-! ## Falling -/

/-- Exact arithmetic on the rationals: the operations of `float64` without
rounding. `toInt` truncates towards zero, like the conversion `int(x)`. It is
used for the scenario of tokens of speed 0.5 only, in which every position
`40 + 0.5 n` is a binary64 number. -/
instance : GoFloat ℚ where
  dec m k := (m : ℚ) / (10 : ℚ) ^ k
  add a b := a + b
  sub a b := a - b
  mul a b := a * b
  ge a b := decide (b ≤ a)
  toInt a := if 0 ≤ a then ⌊a⌋ else ⌈a⌉

/-- The token after the last three statements of `Enemy.Update`, for a
`jumpHeight` other than zero. -/
def Enemy.fall {F : Type} [GoFloat F] (e : Enemy F) : Enemy F :=
  { e with
    partialText := String.join (reverse e.textArray)
    yPos := GoFloat.add e.yPos e.speed
    discreteY :=
      wrapInt64
        (wrapInt64 (Int.tdiv (GoFloat.toInt (GoFloat.add e.yPos e.speed)) e.jumpHeight) *
          e.jumpHeight) }

/-- The token after `n` frames in which it only falls. -/
def Enemy.fallN {F : Type} [GoFloat F] : Nat → Enemy F → Enemy F
  | 0, e => e
  | n + 1, e => Enemy.fallN n e.fall

/-- The relation "`k` calls of `Enemy.Update`, in none of which the token is
killed, lead from the first token to the second". -/
inductive Falls {F : Type} [GoFloat F] : Nat → Enemy F → Enemy F → Prop
  | zero (e : Enemy F) : Falls 0 e e
  | step (k : Nat) (e e1 e2 : Enemy F) (g g1 : Game F) (r r1 : Rand F) :
      Falls k e e1 → (e1.applyInput g).killed = false →
      e1.Update g r = some (e2, g1, r1) → Falls (k + 1) e e2

/-- A random source of exact arithmetic: the `n`-th raw outcome is `7 n + 3`
and `0.5`. -/
def demoRandQ : Rand ℚ :=
  { ints := fun n => 7 * n + 3, floats := fun _ => GoFloat.dec 5 1, calls := 0 }

/-! ## The scenario of one level and two tokens of speed 0.5 -/

/-- The level table of the scenario: one level with speeds 0.5 to 0.8, text
length 3 and wave quota 10. -/
def scenarioLevels : List (Level ℚ) :=
  [{ minSpeed := GoFloat.dec 5 1, maxSpeed := GoFloat.dec 8 1, textLength := 3,
     waveLength := 10 }]

/-- The started game of the scenario: two tokens with the given texts, spawned
by `Reset` with speed 0.5 and jump height 40, boundary 700. -/
def scenario (t1 t2 : String) : Game ℚ :=
  { (newGame 10 : Game ℚ) with
    levels := scenarioLevels
    started := true
    enemies := [
      (newEnemy (GoFloat.dec 60 0)).Reset t1 (GoFloat.dec 5 1) defaultJumpHeight,
      (newEnemy (GoFloat.dec 300 0)).Reset t2 (GoFloat.dec 5 1) defaultJumpHeight] }

/-- The scenario after `n` calls of `Game.Update` with no key pressed. -/
def scenarioAfter (t1 t2 : String) (r : Rand ℚ) (n : Nat) : Option (Game ℚ × Rand ℚ) :=
  runInputs (List.replicate n noKey) (some (scenario t1 t2, r))

/-- The scenario with every token fallen `n` times. -/
def scenarioFallen (t1 t2 : String) (n : Nat) : Game ℚ :=
  { scenario t1 t2 with enemies := (scenario t1 t2).enemies.map (Enemy.fallN n) }

/-! ## The binary64 instance -/

/-- Binary search for the number of binary digits of `n`, for `n < 2 ^ 2 ^ k`. -/
def bitLenAux : Nat → Nat → Nat
  | 0, n => if n = 0 then 0 else 1
  | k + 1, n =>
    if 1 <<< (1 <<< k) ≤ n then 1 <<< k + bitLenAux k (n >>> (1 <<< k)) else bitLenAux k n

/-- The least `j ≥ k` with `n < 2 ^ 2 ^ j`, searched upwards from `k` in at
most `fuel` steps. -/
def bitLevel : Nat → Nat → Nat → Nat
  | 0, k, _ => k
  | fuel + 1, k, n => if n < 1 <<< (1 <<< k) then k else bitLevel fuel (k + 1) n

/-- The number of binary digits of `n`. -/
def bitLen (n : Nat) : Nat := bitLenAux (bitLevel n 0 n) n

/-- The integer nearest to `num / d`, the even one of the two when `num / d`
lies halfway between them. -/
def roundHalfEven (num d : Nat) : Nat :=
  if d < 2 * (num % d) ∨ (2 * (num % d) = d ∧ num / d % 2 = 1) then num / d + 1 else num / d

/-- Rounding of the non-negative fraction `num / den` to 53 significant binary
digits: with `b` the number of binary digits of its integer part and
`s = b - 53` (zero if `b ≤ 53`), the nearest multiple of `2 ^ s`, ties to
even. -/
def roundNearestEven (num den : Nat) : Nat :=
  roundHalfEven num (den <<< (bitLen (num / den) - 53)) <<< (bitLen (num / den) - 53)

/-- A finite `float64` value: the number `units * 2 ^ (-1074)`. Every finite
binary64 number, normal or subnormal, is such a multiple of the least
subnormal number, with at most 53 significant binary digits. Infinities and
NaN are not represented: a result above the largest finite binary64 number
stays finite. -/
structure F64 where
  units : Int
deriving DecidableEq, Repr

/-- The number 1 in units of `2 ^ (-1074)`. -/
def F64.one : Nat := 1 <<< 1074

/-- The fraction `num / den`, in units of `2 ^ (-1074)`, rounded to binary64:
round to nearest, ties to even, the sign kept. -/
def F64.round (num : Int) (den : Nat) : F64 :=
  if 0 ≤ num then ⟨(roundNearestEven num.toNat den : Nat)⟩
  else ⟨-(roundNearestEven (-num).toNat den : Nat)⟩

/-- IEEE 754 binary64 arithmetic on finite values, as Go specifies for
`float64`: a decimal constant and each result of `+`, `-` and `*` is the exact
value rounded to nearest, ties to even (every operation is rounded on its own,
none is fused with another); `int(x)` truncates towards zero. -/
instance : GoFloat F64 where
  dec m k := F64.round (m * F64.one) (10 ^ k)
  add a b := F64.round (a.units + b.units) 1
  sub a b := F64.round (a.units - b.units) 1
  mul a b := F64.round (a.units * b.units) F64.one
  ge a b := decide (b.units ≤ a.units)
  toInt a := Int.tdiv a.units F64.one

/-- The rational number that a binary64 value stands for:
`units * 2 ^ (-1074)`. -/
def F64.toRat (x : F64) : ℚ := (x.units : ℚ) / ((F64.one : Nat) : ℚ)

/-- A token of binary64 arithmetic reset with the text "cat", the given speed
and the given jump height. -/
def catF (speed : F64) (jumpHeight : Int) : Enemy F64 :=
  (newEnemy (GoFloat.dec 60 0)).Reset "cat" speed jumpHeight

/-- The largest outcome of `rand.Float64`: `(2 ^ 53 - 1) / 2 ^ 53`. -/
def topDraw : F64 := ⟨(F64.one : Int) - ((1 <<< 1021 : Nat) : Int)⟩

/-- A random source of binary64 arithmetic: the `n`-th raw outcome is
`7 n + 3` and the given float. -/
def randF (u : F64) : Rand F64 :=
  { ints := fun n => 7 * n + 3, floats := fun _ => u, calls := 0 }

/-- The token "cat" of binary64 arithmetic with its three letters typed. -/
def typedOutF : Enemy F64 :=
  checkDamageAll (catF (GoFloat.dec 5 1) defaultJumpHeight) (reverseTyping "cat")

/-- A frame of binary64 arithmetic on level 0 of `main` with the typed-out
token, ten strings left and the key 'a' pressed. -/
def killFrameF : Game F64 :=
  { (newGame 10 : Game F64) with enemies := [typedOutF], started := true }.readKeys keyA

/-- The position after `k` additions of the speed `s` to the position `y`:
`((y + s) + s) + ... + s`, each sum rounded as the float operations do. -/
def sumSteps {F : Type} [GoFloat F] : Nat → F → F → F
  | 0, _, y => y
  | k + 1, s, y => GoFloat.add (sumSteps k s y) s

/-! ## Facts about `reverse` -/

theorem length_swap (r : List String) (i j : Nat) : (swap r i j).length = r.length := by
  simp [swap]

theorem length_reverseLoop (fuel : Nat) (r : List String) (i j : Int) :
    (reverseLoop fuel r i j).length = r.length := by
  induction fuel generalizing r i j with
  | zero => rfl
  | succ n ih =>
    unfold reverseLoop
    split
    · rw [ih, length_swap]
    · rfl

theorem getElem?_swap (r : List String) (i j k : Nat) (hi : i < r.length) (hj : j < r.length) :
    (swap r i j)[k]? = if k = j then r[i]? else if k = i then r[j]? else r[k]? := by
  unfold swap
  rw [List.getElem?_set, List.getElem?_set, List.length_set]
  simp only [List.getD_eq_getElem?_getD, List.getElem?_eq_getElem hi,
    List.getElem?_eq_getElem hj, Option.getD_some, hi, hj, if_true]
  by_cases h1 : j = k
  · subst h1; simp
  · by_cases h2 : i = k
    · subst h2
      have h1' : ¬ i = j := fun h => h1 h.symm
      simp [h1, h1']
    · have h1' : ¬ k = j := fun h => h1 h.symm
      have h2' : ¬ k = i := fun h => h2 h.symm
      simp [h1, h2, h1', h2']

/-- The loop invariant of `reverse`: the entries between `i` and `j` end up
mirrored, the others stay. -/
theorem getElem?_reverseLoop (fuel : Nat) (r : List String) (i j : Int) (k : Nat)
    (hi : 0 ≤ i) (hj : j < r.length) (hfuel : j - i < 2 * fuel) :
    (reverseLoop fuel r i j)[k]? =
      if i ≤ k ∧ (k : Int) ≤ j then r[(i + j - k).toNat]? else r[k]? := by
  induction fuel generalizing r i j with
  | zero =>
    have hk : ¬ (i ≤ k ∧ (k : Int) ≤ j) := by omega
    simp [reverseLoop, hk]
  | succ n ih =>
    unfold reverseLoop
    by_cases hij : i < j
    · rw [if_pos hij, ih _ _ _ (by omega) (by rw [length_swap]; omega) (by omega)]
      have hit : i.toNat < r.length := by omega
      have hjt : j.toNat < r.length := by omega
      rw [getElem?_swap r _ _ _ hit hjt, getElem?_swap r _ _ _ hit hjt]
      by_cases hk1 : (k : Int) = i
      · have e1 : k = i.toNat := by omega
        have e2 : ¬ k = j.toNat := by omega
        have e3 : ¬ (i + 1 ≤ (k : Int) ∧ (k : Int) ≤ j - 1) := by omega
        have e4 : (i ≤ (k : Int) ∧ (k : Int) ≤ j) := by omega
        have e5 : (i + j - (k : Int)).toNat = j.toNat := by omega
        rw [if_neg e3, if_neg e2, if_pos e1, if_pos e4, e5]
      · by_cases hk2 : (k : Int) = j
        · have e1 : k = j.toNat := by omega
          have e3 : ¬ (i + 1 ≤ (k : Int) ∧ (k : Int) ≤ j - 1) := by omega
          have e4 : (i ≤ (k : Int) ∧ (k : Int) ≤ j) := by omega
          have e5 : (i + j - (k : Int)).toNat = i.toNat := by omega
          rw [if_neg e3, if_pos e1, if_pos e4, e5]
        · by_cases hk3 : i + 1 ≤ (k : Int) ∧ (k : Int) ≤ j - 1
          · have e4 : (i ≤ (k : Int) ∧ (k : Int) ≤ j) := by omega
            have e6 : ¬ (i + 1 + (j - 1) - (k : Int)).toNat = j.toNat := by omega
            have e7 : ¬ (i + 1 + (j - 1) - (k : Int)).toNat = i.toNat := by omega
            have e8 : (i + 1 + (j - 1) - (k : Int)).toNat = (i + j - (k : Int)).toNat := by
              omega
            rw [if_pos hk3, if_neg e6, if_neg e7, if_pos e4, e8]
          · have e4 : ¬ (i ≤ (k : Int) ∧ (k : Int) ≤ j) := by omega
            have e1 : ¬ k = j.toNat := by omega
            have e2 : ¬ k = i.toNat := by omega
            rw [if_neg hk3, if_neg e1, if_neg e2, if_neg e4]
    · rw [if_neg hij]
      by_cases hk : i ≤ (k : Int) ∧ (k : Int) ≤ j
      · have e : (i + j - (k : Int)).toNat = k := by omega
        rw [if_pos hk, e]
      · rw [if_neg hk]

/-- The swap loop computes the reversed list. -/
theorem reverse_eq (s : List String) : reverse s = s.reverse := by
  apply List.ext_getElem?
  intro k
  unfold reverse
  rw [getElem?_reverseLoop _ _ _ _ _ (le_refl 0) (by omega) (by omega)]
  by_cases hk : k < s.length
  · have h1 : (0 : Int) ≤ k ∧ (k : Int) ≤ (s.length : Int) - 1 := by omega
    have h2 : ((0 : Int) + ((s.length : Int) - 1) - (k : Int)).toNat = s.length - 1 - k := by
      omega
    rw [if_pos h1, h2, List.getElem?_reverse hk]
  · have h1 : ¬ ((0 : Int) ≤ k ∧ (k : Int) ≤ (s.length : Int) - 1) := by omega
    rw [if_neg h1, List.getElem?_eq_none (by omega), List.getElem?_eq_none (by simp; omega)]

/-! ## Tokens: `Reset` and `checkDamage` -/

theorem textArray_reset {F : Type} [GoFloat F] (e : Enemy F) (text : String) (speed : F)
    (jumpHeight : Int) : (e.Reset text speed jumpHeight).textArray = reverseTyping text := by
  simp [Enemy.Reset, reverse_eq, splitChars, reverseTyping, List.map_reverse]

/-- Typing a prefix of the remaining characters removes exactly that prefix and
changes nothing else. -/
theorem checkDamageAll_front {F : Type} (xs ys : List String) (e : Enemy F)
    (h : e.textArray = xs ++ ys) : checkDamageAll e xs = { e with textArray := ys } := by
  induction xs generalizing e with
  | nil =>
    simp only [List.nil_append] at h
    simp [checkDamageAll, ← h]
  | cons x xs ih =>
    have h1 : e.checkDamage x = { e with textArray := xs ++ ys } := by
      simp [Enemy.checkDamage, h]
    have h2 := ih { e with textArray := xs ++ ys } rfl
    simp only [checkDamageAll, List.foldl_cons] at h2 ⊢
    rw [h1, h2]

/-- C1 (counterexample): after `Reset("cat", ...)` the three correct inputs
't', 'a', 'c' empty `textArray` but leave `killed = false`. -/
theorem cat_alive_after_three_letters :
    reverseTyping "cat" = ["t", "a", "c"] ∧
    (checkDamageAll catEnemy (reverseTyping "cat")).textArray = [] ∧
    (checkDamageAll catEnemy (reverseTyping "cat")).killed = false := by
  decide

/-- C1 (amended): after `Reset(text, ...)`, typing the characters of `text` from
its end towards its start takes `len(text)` inputs, never sets `killed` on the
way, and ends with `textArray` empty and `killed` still false; the next
`checkDamage` call, with any letter, sets `killed`. -/
theorem kill_needs_one_more_call {F : Type} [GoFloat F] (e : Enemy F) (text : String)
    (speed : F) (jumpHeight : Int) :
    (reverseTyping text).length = text.length ∧
    (∀ n : Nat, (checkDamageAll (e.Reset text speed jumpHeight)
        ((reverseTyping text).take n)).killed = false) ∧
    (checkDamageAll (e.Reset text speed jumpHeight) (reverseTyping text)).textArray = [] ∧
    (checkDamageAll (e.Reset text speed jumpHeight) (reverseTyping text)).killed = false ∧
    (∀ l : String, ((checkDamageAll (e.Reset text speed jumpHeight)
        (reverseTyping text)).checkDamage l).killed = true) := by
  have hfull := checkDamageAll_front (reverseTyping text) [] (e.Reset text speed jumpHeight)
    (by rw [textArray_reset]; simp)
  have hlen : (reverseTyping text).length = text.length := by
    show (text.data.reverse.map String.singleton).length = text.data.length
    simp
  refine ⟨hlen, ?_, ?_, ?_, ?_⟩
  · intro n
    rw [checkDamageAll_front ((reverseTyping text).take n) ((reverseTyping text).drop n) _
      (by rw [textArray_reset, List.take_append_drop])]
    rfl
  · rw [hfull]
  · rw [hfull]; rfl
  · intro l
    rw [hfull]; rfl

/-- C2: after `Reset(text, speed, jumpHeight)` the token's `textArray` is the
characters of `text` in reverse order ("cat" gives t, a, c), `killed` is false,
`yPos` and `discreteY` are 40, `text`, `speed` and `jumpHeight` are the
arguments, and `xPos` is unchanged. -/
theorem reset_spec {F : Type} [GoFloat F] (e : Enemy F) (text : String) (speed : F)
    (jumpHeight : Int) :
    (e.Reset text speed jumpHeight).textArray = text.data.reverse.map String.singleton ∧
    (e.Reset "cat" speed jumpHeight).textArray = ["t", "a", "c"] ∧
    (e.Reset text speed jumpHeight).killed = false ∧
    (e.Reset text speed jumpHeight).yPos = GoFloat.dec 40 0 ∧
    (e.Reset text speed jumpHeight).discreteY = 40 ∧
    (e.Reset text speed jumpHeight).text = text ∧
    (e.Reset text speed jumpHeight).speed = speed ∧
    (e.Reset text speed jumpHeight).jumpHeight = jumpHeight ∧
    (e.Reset text speed jumpHeight).xPos = e.xPos := by
  refine ⟨textArray_reset e text speed jumpHeight, ?_, rfl, rfl, rfl, rfl, rfl, rfl, rfl⟩
  rw [textArray_reset]; decide

/-- C3: on a token whose `textArray` is `c :: rest`, `checkDamage(l)` with
`l ≠ c` leaves the whole token unchanged, and with `l = c` removes exactly the
front character and changes no other field. -/
theorem checkDamage_frame {F : Type} (e : Enemy F) (l c : String) (rest : List String)
    (h : e.textArray = c :: rest) :
    (l ≠ c → e.checkDamage l = e) ∧
    (l = c → e.checkDamage l = { e with textArray := rest }) := by
  constructor
  · intro hl
    have : ¬ c = l := fun h => hl h.symm
    simp [Enemy.checkDamage, h, this]
  · intro hl
    simp [Enemy.checkDamage, h, hl]

/-- C3 (witness): after `Reset("cat")` the front character is 't', so applying
'c' first changes nothing. -/
theorem checkDamage_frame_witness :
    catEnemy.textArray = "t" :: ["a", "c"] ∧
    (("c" ≠ "t" → catEnemy.checkDamage "c" = catEnemy) ∧
      ("c" = "t" → catEnemy.checkDamage "c" = { catEnemy with textArray := ["a", "c"] })) ∧
    catEnemy.checkDamage "c" = catEnemy :=
  ⟨by decide, checkDamage_frame catEnemy "c" "t" ["a", "c"] (by decide),
    (checkDamage_frame catEnemy "c" "t" ["a", "c"] (by decide)).1 (by decide)⟩

/-! ## One token update and the token loop -/

theorem wrapInt64_eq (x : Int) (h1 : -2 ^ 63 ≤ x) (h2 : x < 2 ^ 63) : wrapInt64 x = x := by
  unfold wrapInt64; omega

theorem levelAt_isSome {F : Type} (levels : List (Level F)) (i : Int) (h0 : 0 ≤ i)
    (h1 : i < levels.length) : ∃ lv, levelAt levels i = some lv := by
  have h : i.toNat < levels.length := by omega
  exact ⟨levels[i.toNat], by simp [levelAt, not_lt.mpr h0, List.getElem?_eq_getElem h]⟩

/-- The kill block changes nothing of the game but `waveCount`, which it lowers
by one exactly when the token's `killed` flag is set. -/
theorem respawn_game {F : Type} [GoFloat F] (e e1 : Enemy F) (g g1 : Game F) (r r1 : Rand F)
    (h : e.respawn g r = some (e1, g1, r1)) :
    g1 = { g with waveCount := if e.killed then wrapInt64 (g.waveCount - 1) else g.waveCount } := by
  unfold Enemy.respawn at h
  by_cases hk : e.killed = true
  · rw [if_pos hk] at h
    rw [if_pos hk]
    cases hl : levelAt g.levels g.currentLevel with
    | none => rw [hl] at h; simp at h
    | some lv =>
      rw [hl] at h
      simp only at h
      split at h
      · simp only [Option.some.injEq, Prod.mk.injEq] at h
        exact h.2.1.symm
      · simp only [Option.some.injEq, Prod.mk.injEq] at h
        exact h.2.1.symm
  · rw [if_neg hk] at h
    rw [if_neg hk]
    simp only [Option.some.injEq, Prod.mk.injEq] at h
    exact h.2.1.symm

theorem update_game {F : Type} [GoFloat F] (e e1 : Enemy F) (g g1 : Game F) (r r1 : Rand F)
    (h : e.Update g r = some (e1, g1, r1)) :
    g1 = { g with waveCount :=
      if (e.applyInput g).killed then wrapInt64 (g.waveCount - 1) else g.waveCount } := by
  unfold Enemy.Update at h
  cases hr : (e.applyInput g).respawn g r with
  | none => rw [hr] at h; simp at h
  | some p =>
    obtain ⟨e2, g2, r2⟩ := p
    rw [hr] at h
    simp only at h
    cases hm : e2.move with
    | none => rw [hm] at h; simp at h
    | some e3 =>
      rw [hm] at h
      simp only [Option.some.injEq, Prod.mk.injEq] at h
      rw [← h.2.1]
      exact respawn_game _ _ _ _ _ _ hr

theorem jumpHeight_checkDamage {F : Type} (e : Enemy F) (l : String) :
    (e.checkDamage l).jumpHeight = e.jumpHeight := by
  unfold Enemy.checkDamage
  split
  · rfl
  · split <;> rfl

theorem jumpHeight_applyInput {F : Type} (e : Enemy F) (g : Game F) :
    (e.applyInput g).jumpHeight = e.jumpHeight := by
  unfold Enemy.applyInput
  split
  · rfl
  · split
    · exact jumpHeight_checkDamage _ _
    · rfl

theorem respawn_isSome {F : Type} [GoFloat F] (e : Enemy F) (g : Game F) (r : Rand F)
    (h0 : 0 ≤ g.currentLevel) (h1 : g.currentLevel < g.levels.length)
    (hj : e.jumpHeight ≠ 0) :
    ∃ e1 g1 r1, e.respawn g r = some (e1, g1, r1) ∧ e1.jumpHeight ≠ 0 := by
  obtain ⟨lv, hlv⟩ := levelAt_isSome g.levels g.currentLevel h0 h1
  unfold Enemy.respawn
  rw [hlv]
  by_cases hk : e.killed = true
  · rw [if_pos hk]
    simp only
    split
    · exact ⟨_, _, _, rfl, by simp [Enemy.Reset, defaultJumpHeight]⟩
    · exact ⟨_, _, _, rfl, hj⟩
  · rw [if_neg hk]
    exact ⟨_, _, _, rfl, hj⟩

theorem move_isSome {F : Type} [GoFloat F] (e : Enemy F) (hj : e.jumpHeight ≠ 0) :
    ∃ e1, e.move = some e1 ∧ e1.jumpHeight = e.jumpHeight := by
  unfold Enemy.move goDiv
  simp only [if_neg hj]
  exact ⟨_, rfl, rfl⟩

theorem update_isSome {F : Type} [GoFloat F] (e : Enemy F) (g : Game F) (r : Rand F)
    (h0 : 0 ≤ g.currentLevel) (h1 : g.currentLevel < g.levels.length)
    (hj : e.jumpHeight ≠ 0) :
    ∃ e1 g1 r1, e.Update g r = some (e1, g1, r1) ∧ e1.jumpHeight ≠ 0 := by
  obtain ⟨e1, g1, r1, hr, hj1⟩ := respawn_isSome (e.applyInput g) g r h0 h1
    (by rw [jumpHeight_applyInput]; exact hj)
  obtain ⟨e2, hm, hj2⟩ := move_isSome e1 hj1
  refine ⟨e2, g1, r1, ?_, by rw [hj2]; exact hj1⟩
  unfold Enemy.Update
  rw [hr]
  simp only [hm]

theorem lowerBy_eq (n : Nat) (w : Int) (h1 : -2 ^ 63 + (n : Int) ≤ w) (h2 : w < 2 ^ 63) :
    lowerBy n w = w - n := by
  induction n generalizing w with
  | zero => simp [lowerBy]
  | succ n ih =>
    unfold lowerBy
    push_cast at h1 ⊢
    rw [wrapInt64_eq _ (by omega) (by omega), ih _ (by omega) (by omega)]
    omega

theorem killCount_cons {F : Type} [GoFloat F] (g : Game F) (e : Enemy F) (es : List (Enemy F))
    (hp : ¬ e.CheckGameOver g.redlineY = true) :
    killCount g (e :: es) = killCount g es + (if (e.applyInput g).killed then 1 else 0) := by
  simp only [killCount, visited, List.takeWhile_cons, hp, Bool.not_false, if_true,
    List.filter_cons]
  split <;> simp

/-- The token loop of a frame: it ends normally, leaves the tokens from the
first one past the boundary on untouched, sets `gameOver` if there is such a
token, executes `waveCount -= 1` once for every visited token whose `killed`
flag is set after the input, and changes no other field of the game. -/
theorem updateEnemies_spec {F : Type} [GoFloat F] (es : List (Enemy F)) (g : Game F)
    (r : Rand F) (h0 : 0 ≤ g.currentLevel) (h1 : g.currentLevel < g.levels.length)
    (hj : ∀ e ∈ es, e.jumpHeight ≠ 0) :
    ∃ front g1 r1, Game.updateEnemies g r es = some (front ++ unvisited g es, g1, r1) ∧
      front.length = (visited g es).length ∧
      (∀ e ∈ front, e.jumpHeight ≠ 0) ∧
      g1 = { g with
        waveCount := lowerBy (killCount g es) g.waveCount
        gameOver := g.gameOver || es.any fun e => e.CheckGameOver g.redlineY } := by
  induction es generalizing g r with
  | nil =>
    refine ⟨[], g, r, rfl, rfl, by simp, ?_⟩
    simp [killCount, visited, lowerBy]
  | cons e es ih =>
    by_cases hp : e.CheckGameOver g.redlineY = true
    · refine ⟨[], { g with gameOver := true }, r, ?_, ?_, by simp, ?_⟩
      · simp [Game.updateEnemies, hp, unvisited]
      · simp [visited, hp]
      · simp [killCount, visited, hp, lowerBy]
    · obtain ⟨e1, g1, r1, hu, hj1⟩ := update_isSome e g r h0 h1 (hj e (by simp))
      have hg1 := update_game e e1 g g1 r r1 hu
      obtain ⟨front, g2, r2, hl, hfl, hfj, hg2⟩ := ih g1 r1 (by rw [hg1]; exact h0)
        (by rw [hg1]; exact h1) (fun x hx => hj x (by simp [hx]))
      have hred : g1.redlineY = g.redlineY := by rw [hg1]
      have hunv : unvisited g1 es = unvisited g es := by simp [unvisited, hred]
      have hvis : visited g1 es = visited g es := by simp [visited, hred]
      have hkc : killCount g1 es = killCount g es := by
        unfold killCount
        rw [hvis, hg1]
        rfl
      refine ⟨e1 :: front, g2, r2, ?_, ?_, ?_, ?_⟩
      · have hunv2 : unvisited g (e :: es) = unvisited g es := by simp [unvisited, hp]
        rw [hunv2, ← hunv]
        simp [Game.updateEnemies, hp, hu, hl]
      · have hvis2 : visited g (e :: es) = e :: visited g es := by simp [visited, hp]
        rw [hvis2, ← hvis]
        simp [hfl]
      · intro x hx
        rcases List.mem_cons.mp hx with rfl | hx
        · exact hj1
        · exact hfj x hx
      · rw [hg2, hkc, hred, killCount_cons g e es hp, hg1]
        simp only [List.any_cons, hp, Bool.false_or]
        by_cases hk : (e.applyInput g).killed = true
        · simp only [hk, if_true, lowerBy]
        · simp only [hk, if_false]
          rfl

/-! ## The level step -/

theorem advanceLevel_nonneg {F : Type} (g : Game F) (h : 0 ≤ g.waveCount) :
    g.advanceLevel = some g := by
  simp [Game.advanceLevel, not_lt.mpr h]

theorem advanceLevel_last {F : Type} (g : Game F) (hw : g.waveCount < 0)
    (hlast : g.currentLevel = (g.levels.length : Int) - 1)
    (hlen : (g.levels.length : Int) < 2 ^ 63) :
    g.advanceLevel =
      some { g with currentLevel := g.currentLevel + 1, gameOver := true, gameWon := true } := by
  have hwrap : wrapInt64 (g.currentLevel + 1) = g.currentLevel + 1 :=
    wrapInt64_eq _ (by omega) (by omega)
  have hge : g.currentLevel + 1 ≥ (g.levels.length : Int) := by omega
  simp [Game.advanceLevel, hw, hwrap, hge]

theorem advanceLevel_next {F : Type} (g : Game F) (hw : g.waveCount < 0)
    (h0 : 0 ≤ g.currentLevel) (h1 : g.currentLevel + 1 < g.levels.length)
    (hlen : (g.levels.length : Int) < 2 ^ 63) :
    ∃ lv, levelAt g.levels (g.currentLevel + 1) = some lv ∧
      g.advanceLevel =
        some { g with currentLevel := g.currentLevel + 1, waveCount := lv.waveLength } := by
  have hwrap : wrapInt64 (g.currentLevel + 1) = g.currentLevel + 1 :=
    wrapInt64_eq _ (by omega) (by omega)
  obtain ⟨lv, hlv⟩ := levelAt_isSome g.levels (g.currentLevel + 1) (by omega) h1
  refine ⟨lv, hlv, ?_⟩
  have hge : ¬ g.currentLevel + 1 ≥ (g.levels.length : Int) := by omega
  simp [Game.advanceLevel, hw, hwrap, hge, hlv]

/-- A frame of play after the level step: the token loop runs on the game with
the keys of the frame. -/
theorem update_frame {F : Type} [GoFloat F] (g g1 : Game F) (inp : Input) (r : Rand F)
    (hs : g.started = true) (hno : g.gameOver = false)
    (hadv : g.advanceLevel = some g1) (hplay : g1.gameOver = false) (hready : g1.Ready) :
    ∃ front r1,
      g.Update inp r = some ({ g1 with
        keys := inp.pressed
        enemies := front ++ unvisited g1 g1.enemies
        waveCount := lowerBy (killCount (g1.readKeys inp) g1.enemies) g1.waveCount
        gameOver := g1.enemies.any fun e => e.CheckGameOver g1.redlineY }, r1) ∧
      front.length = (visited g1 g1.enemies).length ∧
      ∀ e ∈ front, e.jumpHeight ≠ 0 := by
  obtain ⟨⟨h0, h1, _⟩, hj⟩ := hready
  obtain ⟨front, g2, r1, hl, hfl, hfj, hg2⟩ :=
    updateEnemies_spec g1.enemies (g1.readKeys inp) r h0 h1 hj
  refine ⟨front, r1, ?_, hfl, hfj⟩
  unfold Game.Update
  simp only [hno, hs, hadv, hplay, Bool.not_false, Bool.not_true, if_true]
  have he : (g1.readKeys inp).enemies = g1.enemies := rfl
  rw [he, hl]
  simp only [Bool.false_eq_true, if_false]
  rw [hg2]
  simp [Game.readKeys, hplay]
  rfl

/-! ## A frame of play -/

/-- A frame of play is the level step, then, unless the game was won in that
step, the token loop on the keys of the frame. -/
theorem update_playing_eq {F : Type} [GoFloat F] (g g1 : Game F) (inp : Input) (r : Rand F)
    (hs : g.started = true) (hno : g.gameOver = false) (hadv : g.advanceLevel = some g1) :
    g.Update inp r =
      if g1.gameOver = true then some (g1, r)
      else
        match Game.updateEnemies (g1.readKeys inp) r g1.enemies with
        | none => none
        | some (es, g3, r1) => some ({ g3 with enemies := es }, r1) := by
  unfold Game.Update
  simp only [hno, hs, hadv, Bool.not_false, Bool.not_true, if_true, Bool.false_eq_true,
    if_false]
  by_cases h : g1.gameOver = true
  · simp [h]
  · simp only [h, Bool.not_false, if_true, if_false]
    rfl

/-- C4 (counterexample): with B (typed out, so that the pressed key kills it)
before A (at the boundary) in the token list, the frame ends with `gameOver`
set but B's kill applied: `waveCount` went from 10 to 9 and B was respawned
with a new text. -/
theorem kill_applied_when_victim_first :
    crossing.CheckGameOver (playing [typedOut, crossing] 10 0).redlineY = true ∧
    (typedOut.applyInput ((playing [typedOut, crossing] 10 0).readKeys keyA)).killed = true ∧
    outcome ((playing [typedOut, crossing] 10 0).Update keyA demoRand) =
      some { gameOver := true, gameWon := false, waveCount := 9, currentLevel := 0,
             tokens := [
               { text := "dkr", textArray := ["r", "k", "d"], killed := false,
                 yPos := ⟨4065000, 100000⟩ },
               { text := "dog", textArray := ["g", "o", "d"], killed := false,
                 yPos := ⟨700, 1⟩ }] } := by
  decide

/-- C4 (amended): in a started, not-over state with the level index in range
whose first token A is past the boundary, `Game.Update` ends the frame with
`gameOver` set and every token unchanged, whatever the pending input would do
to a token B behind A; `waveCount` is not decremented: it is unchanged when it
was not negative (and then the frame ends in Over if `gameWon` was clear),
otherwise unchanged or reloaded from the level table. -/
theorem boundary_before_kill {F : Type} [GoFloat F] (g : Game F) (inp : Input) (r : Rand F)
    (A : Enemy F) (rest : List (Enemy F))
    (hs : g.started = true) (hno : g.gameOver = false) (hr : g.LevelInRange)
    (hes : g.enemies = A :: rest) (hA : A.CheckGameOver g.redlineY = true) :
    ∃ g1, g.Update inp r = some (g1, r) ∧ g1.gameOver = true ∧ g1.enemies = g.enemies ∧
      (0 ≤ g.waveCount → g1 = { g with keys := inp.pressed, gameOver := true }) ∧
      (0 ≤ g.waveCount → g.gameWon = false → g1.phase = Phase.over) ∧
      (g1.waveCount = g.waveCount ∨ ∃ lv ∈ g.levels, g1.waveCount = lv.waveLength) := by
  obtain ⟨h0, h1, hlen⟩ := hr
  have loop : ∀ g2 : Game F, g2.enemies = g.enemies → g2.redlineY = g.redlineY →
      Game.updateEnemies (g2.readKeys inp) r g2.enemies =
        some (g.enemies, { g2.readKeys inp with gameOver := true }, r) := by
    intro g2 he hred
    have hA2 : A.CheckGameOver (g2.readKeys inp).redlineY = true := by
      rw [← hA, ← hred]; rfl
    rw [he, hes]
    simp [Game.updateEnemies, hA2]
  by_cases hw : 0 ≤ g.waveCount
  · have hadv := advanceLevel_nonneg g hw
    have hu : g.Update inp r = some ({ g with keys := inp.pressed, gameOver := true }, r) := by
      rw [update_playing_eq g g inp r hs hno hadv, loop g rfl rfl]
      simp only [hno, Bool.false_eq_true, if_false]
      rfl
    refine ⟨_, hu, rfl, rfl, fun _ => rfl, ?_, Or.inl rfl⟩
    intro _ hwon
    simp [Game.phase, hwon]
  · have hw' : g.waveCount < 0 := by omega
    by_cases hl : g.currentLevel + 1 < g.levels.length
    · obtain ⟨lv, hlv, hadv⟩ := advanceLevel_next g hw' h0 hl hlen
      have hu : g.Update inp r = some ({ g with
          currentLevel := g.currentLevel + 1, waveCount := lv.waveLength,
          keys := inp.pressed, gameOver := true }, r) := by
        rw [update_playing_eq g _ inp r hs hno hadv,
          loop { g with currentLevel := g.currentLevel + 1, waveCount := lv.waveLength } rfl rfl]
        simp only [hno, Bool.false_eq_true, if_false]
        rfl
      have hmem : lv ∈ g.levels := by
        unfold levelAt at hlv
        split at hlv
        · simp at hlv
        · exact List.getElem?_mem hlv
      exact ⟨_, hu, rfl, rfl, fun h => absurd h hw, fun h => absurd h hw,
        Or.inr ⟨lv, hmem, rfl⟩⟩
    · have hadv := advanceLevel_last g hw' (by omega) hlen
      have hu : g.Update inp r = some ({ g with
          currentLevel := g.currentLevel + 1, gameOver := true, gameWon := true }, r) := by
        rw [update_playing_eq g _ inp r hs hno hadv]
        simp
      exact ⟨_, hu, rfl, rfl, fun h => absurd h hw, fun h => absurd h hw, Or.inl rfl⟩

/-- C4 (witness): the state with A first, B (typed out) second and the key 'a'
pressed. -/
theorem boundary_before_kill_witness :
    (playing [crossing, typedOut] 10 0).started = true ∧
    (playing [crossing, typedOut] 10 0).gameOver = false ∧
    (playing [crossing, typedOut] 10 0).LevelInRange ∧
    (playing [crossing, typedOut] 10 0).enemies = crossing :: [typedOut] ∧
    crossing.CheckGameOver (playing [crossing, typedOut] 10 0).redlineY = true ∧
    ∃ g1, (playing [crossing, typedOut] 10 0).Update keyA demoRand = some (g1, demoRand) ∧
      g1.gameOver = true ∧ g1.enemies = (playing [crossing, typedOut] 10 0).enemies ∧
      (0 ≤ (playing [crossing, typedOut] 10 0).waveCount →
        g1 = { playing [crossing, typedOut] 10 0 with keys := keyA.pressed, gameOver := true }) ∧
      (0 ≤ (playing [crossing, typedOut] 10 0).waveCount →
        (playing [crossing, typedOut] 10 0).gameWon = false → g1.phase = Phase.over) ∧
      (g1.waveCount = (playing [crossing, typedOut] 10 0).waveCount ∨
        ∃ lv ∈ (playing [crossing, typedOut] 10 0).levels, g1.waveCount = lv.waveLength) :=
  ⟨rfl, rfl, by decide, rfl, by decide,
    boundary_before_kill (playing [crossing, typedOut] 10 0) keyA demoRand crossing [typedOut]
      rfl rfl (by decide) rfl (by decide)⟩

/-- The frame that wins the game: entered on the last level with `waveCount`
negative. -/
theorem update_on_last_level {F : Type} [GoFloat F] (g : Game F) (inp : Input) (r : Rand F)
    (hs : g.started = true) (hno : g.gameOver = false) (hw : g.waveCount < 0)
    (hlast : g.currentLevel = (g.levels.length : Int) - 1)
    (hlen : (g.levels.length : Int) < 2 ^ 63) :
    g.Update inp r =
      some ({ g with currentLevel := g.levels.length, gameOver := true, gameWon := true },
        r) := by
  have hadv := advanceLevel_last g hw hlast hlen
  have hcur : g.currentLevel + 1 = (g.levels.length : Int) := by omega
  rw [update_playing_eq g _ inp r hs hno hadv, hcur]
  simp

/-- C7: in a started, not-over state whose `currentLevel` is the last index of
the level table and whose `waveCount` is negative, `Game.Update` sets
`gameOver` and `gameWon` and does nothing else but increment `currentLevel`:
`waveCount` is not reloaded, no key is read, no token is checked or updated and
the random source is not used. -/
theorem last_level_won {F : Type} [GoFloat F] (g : Game F) (inp : Input) (r : Rand F)
    (hs : g.started = true) (hno : g.gameOver = false) (hw : g.waveCount < 0)
    (hlast : g.currentLevel = (g.levels.length : Int) - 1)
    (hlen : (g.levels.length : Int) < 2 ^ 63) :
    g.Update inp r =
      some ({ g with currentLevel := g.levels.length, gameOver := true, gameWon := true }, r) ∧
    ∀ g1 r1, g.Update inp r = some (g1, r1) →
      g1.phase = Phase.won ∧ g1.gameOver = true ∧ g1.gameWon = true ∧
      g1.waveCount = g.waveCount ∧ g1.enemies = g.enemies ∧ g1.keys = g.keys ∧ r1 = r := by
  have hu := update_on_last_level g inp r hs hno hw hlast hlen
  refine ⟨hu, ?_⟩
  intro g1 r1 h
  rw [hu] at h
  simp only [Option.some.injEq, Prod.mk.injEq] at h
  obtain ⟨hg, hr⟩ := h
  subst hg hr
  exact ⟨by simp [Game.phase], rfl, rfl, rfl, rfl, rfl, rfl⟩

/-- C7 (witness): level 4 of the table of `main` with `waveCount = -1`. -/
theorem last_level_won_witness :
    (playing [typedOut, dogEnemy] (-1) 4).started = true ∧
    (playing [typedOut, dogEnemy] (-1) 4).gameOver = false ∧
    (playing [typedOut, dogEnemy] (-1) 4).waveCount < 0 ∧
    (playing [typedOut, dogEnemy] (-1) 4).currentLevel =
      ((playing [typedOut, dogEnemy] (-1) 4).levels.length : Int) - 1 ∧
    (((playing [typedOut, dogEnemy] (-1) 4).levels.length : Int) < 2 ^ 63) ∧
    ((playing [typedOut, dogEnemy] (-1) 4).Update keyA demoRand =
      some ({ playing [typedOut, dogEnemy] (-1) 4 with
        currentLevel := (playing [typedOut, dogEnemy] (-1) 4).levels.length,
        gameOver := true, gameWon := true }, demoRand) ∧
    ∀ g1 r1, (playing [typedOut, dogEnemy] (-1) 4).Update keyA demoRand = some (g1, r1) →
      g1.phase = Phase.won ∧ g1.gameOver = true ∧ g1.gameWon = true ∧
      g1.waveCount = (playing [typedOut, dogEnemy] (-1) 4).waveCount ∧
      g1.enemies = (playing [typedOut, dogEnemy] (-1) 4).enemies ∧
      g1.keys = (playing [typedOut, dogEnemy] (-1) 4).keys ∧ r1 = demoRand) :=
  ⟨rfl, rfl, by decide, by decide, by decide,
    last_level_won (playing [typedOut, dogEnemy] (-1) 4) keyA demoRand rfl rfl (by decide)
      (by decide) (by decide)⟩

/-- C5 (counterexample): level 0 of `main`, `waveCount = 1`, a typed-out token
and the key 'a'. The first call kills the token and brings `waveCount` to 0;
the immediately following call leaves `currentLevel = 0` and only lowers
`waveCount` to -1; the level changes in the call after that. -/
theorem level_change_two_calls_later :
    outcome ((playing [typedOut, dogEnemy] 1 0).Update keyA demoRand) =
      some { gameOver := false, gameWon := false, waveCount := 0, currentLevel := 0,
             tokens := [
               { text := "cat", textArray := [], killed := true, yPos := ⟨405, 10⟩ },
               { text := "dog", textArray := ["g", "o", "d"], killed := false,
                 yPos := ⟨405, 10⟩ }] } ∧
    outcome (thenUpdate ((playing [typedOut, dogEnemy] 1 0).Update keyA demoRand) noKey) =
      some { gameOver := false, gameWon := false, waveCount := -1, currentLevel := 0,
             tokens := [
               { text := "cat", textArray := [], killed := true, yPos := ⟨4100, 100⟩ },
               { text := "dog", textArray := ["g", "o", "d"], killed := false,
                 yPos := ⟨4100, 100⟩ }] } ∧
    outcome (thenUpdate (thenUpdate
        ((playing [typedOut, dogEnemy] 1 0).Update keyA demoRand) noKey) noKey) =
      some { gameOver := false, gameWon := false, waveCount := 14, currentLevel := 1,
             tokens := [
               { text := "dkry", textArray := ["y", "r", "k", "d"], killed := false,
                 yPos := ⟨4070000, 100000⟩ },
               { text := "dog", textArray := ["g", "o", "d"], killed := false,
                 yPos := ⟨41500, 1000⟩ }] } := by
  decide

/-- C5 (amended): in a started, not-over, ready state, a `Game.Update` call
entered with `waveCount ≥ 0` (in particular the call whose kill brings
`waveCount` to 0, and the call after it, entered with 0) leaves `currentLevel`
and `gameWon` unchanged and only runs the token loop; a call entered with
`waveCount < 0` performs the level transition: `currentLevel` advances by one
and the game is Won with `waveCount` kept when the level was the last one,
otherwise `waveCount` is reloaded from the new level's quota before the token
loop runs. -/
theorem level_step_lag {F : Type} [GoFloat F] (g : Game F) (inp : Input) (r : Rand F)
    (hs : g.started = true) (hno : g.gameOver = false) (hready : g.Ready) :
    ∃ g1 r1, g.Update inp r = some (g1, r1) ∧
      (0 ≤ g.waveCount →
        g1.currentLevel = g.currentLevel ∧ g1.gameWon = g.gameWon ∧
        g1.waveCount = lowerBy (killCount (g.readKeys inp) g.enemies) g.waveCount) ∧
      (g.waveCount < 0 →
        g1.currentLevel = g.currentLevel + 1 ∧
        (g.currentLevel + 1 = g.levels.length →
          g1.gameOver = true ∧ g1.gameWon = true ∧ g1.waveCount = g.waveCount) ∧
        (g.currentLevel + 1 < g.levels.length →
          ∃ lv, levelAt g.levels (g.currentLevel + 1) = some lv ∧ g1.gameWon = g.gameWon ∧
            g1.waveCount = lowerBy (killCount (g.readKeys inp) g.enemies) lv.waveLength)) := by
  obtain ⟨⟨h0, h1, hlen⟩, hj⟩ := hready
  by_cases hw : 0 ≤ g.waveCount
  · obtain ⟨front, r1, hu, _, _⟩ := update_frame g g inp r hs hno (advanceLevel_nonneg g hw) hno
      ⟨⟨h0, h1, hlen⟩, hj⟩
    exact ⟨_, r1, hu, fun _ => ⟨rfl, rfl, rfl⟩, fun h => absurd h (by omega)⟩
  · have hw' : g.waveCount < 0 := by omega
    by_cases hl : g.currentLevel + 1 < g.levels.length
    · obtain ⟨lv, hlv, hadv⟩ := advanceLevel_next g hw' h0 hl hlen
      obtain ⟨front, r1, hu, _, _⟩ := update_frame g _ inp r hs hno hadv hno
        ⟨⟨by show 0 ≤ g.currentLevel + 1; omega, hl, hlen⟩, hj⟩
      refine ⟨_, r1, hu, fun h => absurd h hw, fun _ => ⟨rfl, fun h => ?_, fun _ => ?_⟩⟩
      · omega
      · exact ⟨lv, hlv, rfl, rfl⟩
    · have hlast : g.currentLevel = (g.levels.length : Int) - 1 := by omega
      have hu := update_on_last_level g inp r hs hno hw' hlast hlen
      refine ⟨_, r, hu, fun h => absurd h hw, fun _ => ⟨?_, fun _ => ⟨rfl, rfl, rfl⟩, fun h => ?_⟩⟩
      · show (g.levels.length : Int) = g.currentLevel + 1
        omega
      · omega

/-- C5 (witness): the state after the kill that brought `waveCount` to 0. -/
theorem level_step_lag_witness :
    afterKill.started = true ∧ afterKill.gameOver = false ∧ afterKill.Ready ∧
    ∃ g1 r1, afterKill.Update noKey demoRand = some (g1, r1) ∧
      (0 ≤ afterKill.waveCount →
        g1.currentLevel = afterKill.currentLevel ∧ g1.gameWon = afterKill.gameWon ∧
        g1.waveCount =
          lowerBy (killCount (afterKill.readKeys noKey) afterKill.enemies) afterKill.waveCount) ∧
      (afterKill.waveCount < 0 →
        g1.currentLevel = afterKill.currentLevel + 1 ∧
        (afterKill.currentLevel + 1 = afterKill.levels.length →
          g1.gameOver = true ∧ g1.gameWon = true ∧ g1.waveCount = afterKill.waveCount) ∧
        (afterKill.currentLevel + 1 < afterKill.levels.length →
          ∃ lv, levelAt afterKill.levels (afterKill.currentLevel + 1) = some lv ∧
            g1.gameWon = afterKill.gameWon ∧
            g1.waveCount =
              lowerBy (killCount (afterKill.readKeys noKey) afterKill.enemies) lv.waveLength)) :=
  ⟨rfl, rfl, by decide, level_step_lag afterKill noKey demoRand rfl rfl (by decide)⟩

/-! ## The wave counter -/

theorem killed_checkDamage {F : Type} (e : Enemy F) (l : String) (h : e.killed = true) :
    (e.checkDamage l).killed = true := by
  unfold Enemy.checkDamage
  split
  · rfl
  · split
    · exact h
    · exact h

theorem killed_applyInput {F : Type} (e : Enemy F) (g : Game F) (h : e.killed = true) :
    (e.applyInput g).killed = true := by
  unfold Enemy.applyInput
  split
  · exact h
  · split
    · exact killed_checkDamage _ _ h
    · exact h

/-- The tokens with the flag set after the input are those on which the input
set it and those on which it was set before. -/
theorem killCount_split {F : Type} [GoFloat F] (g : Game F) (es : List (Enemy F)) :
    killCount g es = newlyKilled g es + stillKilled g es := by
  unfold killCount newlyKilled stillKilled
  induction visited g es with
  | nil => rfl
  | cons e l ih =>
    simp only [List.filter_cons]
    by_cases hk : e.killed = true
    · simp only [hk, killed_applyInput e g hk, Bool.not_true, Bool.false_and, if_true,
        Bool.false_eq_true, if_false, List.length_cons]
      omega
    · have hk' : e.killed = false := by simpa using hk
      by_cases ha : (e.applyInput g).killed = true
      · simp only [hk', ha, Bool.not_false, Bool.true_and, if_true, Bool.false_eq_true,
          if_false, List.length_cons]
        omega
      · have ha' : (e.applyInput g).killed = false := by simpa using ha
        simp only [hk', ha', Bool.not_false, Bool.true_and, Bool.false_eq_true, if_false]
        exact ih

/-- C6 (counterexample): in the frame after the kill that brought `waveCount`
to 0 no key is pressed and no token is newly killed, yet the token loop lowers
`waveCount` from 0 to -1, because the killed token was not respawned. -/
theorem stale_kill_lowers_waveCount :
    afterKill.waveCount = 0 ∧
    newlyKilled (afterKill.readKeys noKey) afterKill.enemies = 0 ∧
    outcome (afterKill.Update noKey demoRand) =
      some { gameOver := false, gameWon := false, waveCount := -1, currentLevel := 0,
             tokens := [
               { text := "cat", textArray := [], killed := true, yPos := ⟨405, 10⟩ },
               { text := "dog", textArray := ["g", "o", "d"], killed := false,
                 yPos := ⟨405, 10⟩ }] } := by
  decide

/-- C6 (amended): on a ready game whose `waveCount` is at least the number of
tokens above the least Go `int`, the token loop of a frame ends normally and
lowers `waveCount` by the number of visited tokens whose `killed` flag is set
after the input of the frame: the tokens killed by that input and the tokens
still killed from an earlier frame; a started frame entered with
`waveCount ≥ 0` lowers `waveCount` by exactly that number. -/
theorem waveCount_lowered_per_killed_flag {F : Type} [GoFloat F] (g : Game F) (inp : Input)
    (r : Rand F) (hready : g.Ready)
    (hlow : -2 ^ 63 + (g.enemies.length : Int) ≤ g.waveCount) (hhigh : g.waveCount < 2 ^ 63) :
    (∃ es g1 r1, Game.updateEnemies (g.readKeys inp) r g.enemies = some (es, g1, r1) ∧
      g.waveCount - g1.waveCount = killCount (g.readKeys inp) g.enemies) ∧
    killCount (g.readKeys inp) g.enemies =
      newlyKilled (g.readKeys inp) g.enemies + stillKilled (g.readKeys inp) g.enemies ∧
    (g.started = true → g.gameOver = false → 0 ≤ g.waveCount →
      ∃ g2 r2, g.Update inp r = some (g2, r2) ∧
        g.waveCount - g2.waveCount = killCount (g.readKeys inp) g.enemies) := by
  have hkv : ((killCount (g.readKeys inp) g.enemies : Nat) : Int) ≤ g.enemies.length := by
    unfold killCount visited
    exact_mod_cast (List.length_filter_le _ _).trans (List.takeWhile_sublist _).length_le
  have hlb : lowerBy (killCount (g.readKeys inp) g.enemies) g.waveCount =
      g.waveCount - killCount (g.readKeys inp) g.enemies :=
    lowerBy_eq _ _ (by omega) hhigh
  refine ⟨?_, killCount_split _ _, ?_⟩
  · obtain ⟨⟨h0, h1, _⟩, hj⟩ := hready
    obtain ⟨front, g1, r1, hl, _, _, hg1⟩ :=
      updateEnemies_spec g.enemies (g.readKeys inp) r h0 h1 hj
    refine ⟨_, g1, r1, hl, ?_⟩
    rw [hg1]
    show g.waveCount - lowerBy (killCount (g.readKeys inp) g.enemies) g.waveCount = _
    rw [hlb]
    omega
  · intro hs hno hw
    obtain ⟨front, r1, hu, _, _⟩ :=
      update_frame g g inp r hs hno (advanceLevel_nonneg g hw) hno hready
    refine ⟨_, r1, hu, ?_⟩
    show g.waveCount - lowerBy (killCount (g.readKeys inp) g.enemies) g.waveCount = _
    rw [hlb]
    omega

/-- C6 (witness): the state after the kill that brought `waveCount` to 0. -/
theorem waveCount_lowered_per_killed_flag_witness :
    afterKill.Ready ∧ -2 ^ 63 + (afterKill.enemies.length : Int) ≤ afterKill.waveCount ∧
    afterKill.waveCount < 2 ^ 63 ∧
    ((∃ es g1 r1,
        Game.updateEnemies (afterKill.readKeys noKey) demoRand afterKill.enemies =
          some (es, g1, r1) ∧
        afterKill.waveCount - g1.waveCount =
          killCount (afterKill.readKeys noKey) afterKill.enemies) ∧
      killCount (afterKill.readKeys noKey) afterKill.enemies =
        newlyKilled (afterKill.readKeys noKey) afterKill.enemies +
          stillKilled (afterKill.readKeys noKey) afterKill.enemies ∧
      (afterKill.started = true → afterKill.gameOver = false → 0 ≤ afterKill.waveCount →
        ∃ g2 r2, afterKill.Update noKey demoRand = some (g2, r2) ∧
          afterKill.waveCount - g2.waveCount =
            killCount (afterKill.readKeys noKey) afterKill.enemies)) :=
  ⟨by decide, by decide, by decide,
    waveCount_lowered_per_killed_flag afterKill noKey demoRand (by decide) (by decide)
      (by decide)⟩

/-! ## The terminal branch -/

theorem levelAt_zero {F : Type} (lv : Level F) (rest : List (Level F)) :
    levelAt (lv :: rest) 0 = some lv := by
  simp [levelAt]

/-- C10 (counterexample): a game lost on level 2 with seven strings left; a
call without Enter sets `currentLevel` to 0 and `waveCount` to 10. -/
theorem lost_game_counters_reset :
    lostGame.gameOver = true ∧ lostGame.currentLevel = 2 ∧ lostGame.waveCount = 7 ∧
    noKey.enter = false ∧
    outcome (lostGame.Update noKey demoRand) =
      some { gameOver := true, gameWon := false, waveCount := 10, currentLevel := 0,
             tokens := [
               { text := "dog", textArray := ["g", "o", "d"], killed := false,
                 yPos := ⟨700, 1⟩ },
               { text := "dog", textArray := ["g", "o", "d"], killed := false,
                 yPos := ⟨40, 1⟩ }] } := by
  decide

/-- C10 (amended): in a state with `gameOver` set (Over or Won) and a non-empty
level table, a `Game.Update` call without Enter sets `currentLevel` to 0 and
`waveCount` to the quota of level 0 and changes nothing else: the phase flags,
every token, the keys and the random source are as before. -/
theorem terminal_frame_without_enter {F : Type} [GoFloat F] (g : Game F) (inp : Input)
    (r : Rand F) (lv : Level F) (rest : List (Level F))
    (hover : g.gameOver = true) (hkey : inp.enter = false) (hlv : g.levels = lv :: rest) :
    g.Update inp r = some ({ g with currentLevel := 0, waveCount := lv.waveLength }, r) ∧
    ∀ g1 r1, g.Update inp r = some (g1, r1) →
      g1.gameOver = g.gameOver ∧ g1.gameWon = g.gameWon ∧ g1.started = g.started ∧
      g1.phase = g.phase ∧ g1.enemies = g.enemies ∧ g1.keys = g.keys ∧ r1 = r ∧
      g1.currentLevel = 0 ∧ g1.waveCount = lv.waveLength := by
  have hu : g.Update inp r =
      some ({ g with currentLevel := 0, waveCount := lv.waveLength }, r) := by
    unfold Game.Update Game.restart
    simp only [hover, Bool.not_true, Bool.false_eq_true, if_false, hlv, levelAt_zero, hkey]
  refine ⟨hu, ?_⟩
  intro g1 r1 h
  rw [hu] at h
  simp only [Option.some.injEq, Prod.mk.injEq] at h
  obtain ⟨hg, hr⟩ := h
  subst hg hr
  exact ⟨rfl, rfl, rfl, rfl, rfl, rfl, rfl, rfl, rfl⟩

/-- C10 (witness): the lost game, no key pressed. -/
theorem terminal_frame_without_enter_witness :
    lostGame.gameOver = true ∧ noKey.enter = false ∧
    lostGame.levels = mainLevel 0 :: (mainLevels : List (Level Frac)).tail ∧
    (lostGame.Update noKey demoRand =
        some ({ lostGame with
          currentLevel := 0
          waveCount := (mainLevel 0 : Level Frac).waveLength }, demoRand) ∧
      ∀ g1 r1, lostGame.Update noKey demoRand = some (g1, r1) →
        g1.gameOver = lostGame.gameOver ∧ g1.gameWon = lostGame.gameWon ∧
        g1.started = lostGame.started ∧ g1.phase = lostGame.phase ∧
        g1.enemies = lostGame.enemies ∧ g1.keys = lostGame.keys ∧ r1 = demoRand ∧
        g1.currentLevel = 0 ∧
        g1.waveCount = (mainLevel 0 : Level Frac).waveLength) :=
  ⟨rfl, rfl, rfl,
    terminal_frame_without_enter lostGame noKey demoRand _ _ rfl rfl rfl⟩

/-! ## Restart -/

theorem length_generateTextLoop {F : Type} (n : Nat) (acc : String) (r : Rand F) :
    (generateTextLoop n acc r).1.length = acc.length + n := by
  induction n generalizing acc r with
  | zero => rfl
  | succ n ih =>
    unfold generateTextLoop
    simp only [Rand.Intn]
    rw [ih, String.length_append, String.length_singleton]
    omega

theorem length_generateText {F : Type} (l : Int) (r : Rand F) :
    (generateText l r).1.length = l.toNat := by
  unfold generateText
  rw [length_generateTextLoop]
  simp

/-- The restart branch taken with Enter: two fresh tokens, the second
`AddEnemy` resetting the first token once more. -/
theorem update_restart {F : Type} [GoFloat F] (g : Game F) (inp : Input) (r : Rand F)
    (lv : Level F) (rest : List (Level F))
    (hover : g.gameOver = true) (hkey : inp.enter = true) (hlv : g.levels = lv :: rest) :
    g.Update inp r =
      some ({ g with
        currentLevel := 0
        waveCount := lv.waveLength
        gameOver := false
        enemies := [
          (freshToken (GoFloat.dec 60 0) lv (freshToken (GoFloat.dec 60 0) lv r).2).1,
          (freshToken (GoFloat.dec 300 0) lv
            (freshToken (GoFloat.dec 60 0) lv (freshToken (GoFloat.dec 60 0) lv r).2).2).1] },
        (freshToken (GoFloat.dec 300 0) lv
          (freshToken (GoFloat.dec 60 0) lv (freshToken (GoFloat.dec 60 0) lv r).2).2).2) := by
  unfold Game.Update Game.restart
  simp only [hover, Bool.not_true, Bool.false_eq_true, if_false, hlv, levelAt_zero, hkey,
    if_true, Game.AddEnemy, List.nil_append, List.cons_append, Game.resetAll]
  rfl

/-- C8: in a state with `gameOver` set (Over or Won) and a non-empty level
table, a `Game.Update` call with Enter yields `currentLevel = 0`,
`waveCount = levels[0].waveLength`, `gameOver = false` and exactly two tokens,
each with `killed = false`, `yPos = 40`, an untyped text of length
`levels[0].textLength` and, like its speed, drawn from the random source: the
new tokens are built from newly allocated ones and do not depend on the tokens
of the state before. -/
theorem restart_spawns_fresh_tokens {F : Type} [GoFloat F] (g : Game F) (inp : Input)
    (r : Rand F) (lv : Level F) (rest : List (Level F))
    (hover : g.gameOver = true) (hkey : inp.enter = true) (hlv : g.levels = lv :: rest) :
    ∃ g1 r1, g.Update inp r = some (g1, r1) ∧
      g1.currentLevel = 0 ∧ g1.waveCount = lv.waveLength ∧ g1.gameOver = false ∧
      g1.enemies.length = 2 ∧
      (∀ e ∈ g1.enemies, e.killed = false ∧ e.yPos = GoFloat.dec 40 0 ∧
        e.text.length = lv.textLength.toNat ∧
        (0 ≤ lv.textLength → (e.text.length : Int) = lv.textLength) ∧
        e.textArray = reverseTyping e.text) ∧
      g1.enemies = [
        (freshToken (GoFloat.dec 60 0) lv (freshToken (GoFloat.dec 60 0) lv r).2).1,
        (freshToken (GoFloat.dec 300 0) lv
          (freshToken (GoFloat.dec 60 0) lv (freshToken (GoFloat.dec 60 0) lv r).2).2).1] ∧
      ∀ es : List (Enemy F), ∃ g2,
        Game.Update { g with enemies := es } inp r = some (g2, r1) ∧ g2.enemies = g1.enemies := by
  have hfresh : ∀ (x : F) (r0 : Rand F),
      (freshToken x lv r0).1.killed = false ∧ (freshToken x lv r0).1.yPos = GoFloat.dec 40 0 ∧
      (freshToken x lv r0).1.text.length = lv.textLength.toNat ∧
      (0 ≤ lv.textLength → ((freshToken x lv r0).1.text.length : Int) = lv.textLength) ∧
      (freshToken x lv r0).1.textArray = reverseTyping (freshToken x lv r0).1.text := by
    intro x r0
    have hl : (freshToken x lv r0).1.text.length = lv.textLength.toNat :=
      length_generateText lv.textLength r0
    refine ⟨rfl, rfl, hl, ?_, textArray_reset _ _ _ _⟩
    intro h
    rw [hl]
    omega
  refine ⟨_, _, update_restart g inp r lv rest hover hkey hlv, rfl, rfl, rfl, rfl, ?_, rfl, ?_⟩
  · intro e he
    simp only [List.mem_cons, List.mem_singleton, List.not_mem_nil, or_false] at he
    rcases he with rfl | rfl
    · exact hfresh _ _
    · exact hfresh _ _
  · intro es
    exact ⟨_, update_restart { g with enemies := es } inp r lv rest hover hkey hlv, rfl⟩

/-- C8 (witness): the lost game, Enter pressed. -/
theorem restart_spawns_fresh_tokens_witness :
    lostGame.gameOver = true ∧ keyEnter.enter = true ∧
    lostGame.levels = mainLevel 0 :: (mainLevels : List (Level Frac)).tail ∧
    ∃ g1 r1, lostGame.Update keyEnter demoRand = some (g1, r1) ∧
      g1.currentLevel = 0 ∧ g1.waveCount = (mainLevel 0 : Level Frac).waveLength ∧
      g1.gameOver = false ∧ g1.enemies.length = 2 ∧
      (∀ e ∈ g1.enemies, e.killed = false ∧ e.yPos = GoFloat.dec 40 0 ∧
        e.text.length = (mainLevel 0 : Level Frac).textLength.toNat ∧
        (0 ≤ (mainLevel 0 : Level Frac).textLength →
          (e.text.length : Int) = (mainLevel 0 : Level Frac).textLength) ∧
        e.textArray = reverseTyping e.text) ∧
      g1.enemies = [
        (freshToken (GoFloat.dec 60 0) (mainLevel 0)
          (freshToken (GoFloat.dec 60 0) (mainLevel 0) demoRand).2).1,
        (freshToken (GoFloat.dec 300 0) (mainLevel 0)
          (freshToken (GoFloat.dec 60 0) (mainLevel 0)
            (freshToken (GoFloat.dec 60 0) (mainLevel 0) demoRand).2).2).1] ∧
      ∀ es : List (Enemy Frac), ∃ g2,
        Game.Update { lostGame with enemies := es } keyEnter demoRand = some (g2, r1) ∧
          g2.enemies = g1.enemies :=
  ⟨rfl, rfl, rfl,
    restart_spawns_fresh_tokens lostGame keyEnter demoRand _ _ rfl rfl rfl⟩

/-! ## The flag `gameWon` -/

theorem gameWon_updateEnemies {F : Type} [GoFloat F] (es es1 : List (Enemy F)) (g g1 : Game F)
    (r r1 : Rand F) (h : Game.updateEnemies g r es = some (es1, g1, r1)) :
    g1.gameWon = g.gameWon := by
  induction es generalizing g r es1 g1 r1 with
  | nil =>
    simp only [Game.updateEnemies, Option.some.injEq, Prod.mk.injEq] at h
    rw [← h.2.1]
  | cons e es ih =>
    unfold Game.updateEnemies at h
    split at h
    · simp only [Option.some.injEq, Prod.mk.injEq] at h
      rw [← h.2.1]
    · cases hu : e.Update g r with
      | none => rw [hu] at h; simp at h
      | some p =>
        obtain ⟨e2, g2, r2⟩ := p
        rw [hu] at h
        simp only at h
        cases hl : Game.updateEnemies g2 r2 es with
        | none => rw [hl] at h; simp at h
        | some q =>
          obtain ⟨es3, g3, r3⟩ := q
          rw [hl] at h
          simp only [Option.some.injEq, Prod.mk.injEq] at h
          rw [← h.2.1, ih _ _ _ _ _ hl, update_game e e2 g g2 r r2 hu]

theorem gameWon_addEnemy {F : Type} [GoFloat F] (g g1 : Game F) (x : F) (r r1 : Rand F)
    (h : g.AddEnemy x r = some (g1, r1)) : g1.gameWon = g.gameWon := by
  unfold Game.AddEnemy at h
  simp only at h
  split at h
  · simp at h
  · simp only [Option.some.injEq, Prod.mk.injEq] at h
    rw [← h.1]

theorem gameWon_advanceLevel {F : Type} (g g1 : Game F) (h : g.advanceLevel = some g1)
    (hw : g.gameWon = true) : g1.gameWon = true := by
  unfold Game.advanceLevel at h
  split at h
  · simp only at h
    split at h
    · simp only [Option.some.injEq] at h
      rw [← h]
    · split at h
      · simp at h
      · simp only [Option.some.injEq] at h
        rw [← h]
        exact hw
  · simp only [Option.some.injEq] at h
    rw [← h]
    exact hw

/-- No call of `Game.Update` clears `gameWon`: no statement of `game.go`
assigns `false` to it. -/
theorem gameWon_never_cleared {F : Type} [GoFloat F] (g g1 : Game F) (inp : Input)
    (r r1 : Rand F) (h : g.Update inp r = some (g1, r1)) (hw : g.gameWon = true) :
    g1.gameWon = true := by
  unfold Game.Update at h
  split at h
  · split at h
    · split at h
      · simp only [Option.some.injEq, Prod.mk.injEq] at h
        rw [← h.1]; exact hw
      · simp only [Option.some.injEq, Prod.mk.injEq] at h
        rw [← h.1]; exact hw
    · cases ha : g.advanceLevel with
      | none => rw [ha] at h; simp at h
      | some g2 =>
        rw [ha] at h
        simp only at h
        have hw2 := gameWon_advanceLevel g g2 ha hw
        split at h
        · cases hl : Game.updateEnemies (g2.readKeys inp) r (g2.readKeys inp).enemies with
          | none => rw [hl] at h; simp at h
          | some q =>
            obtain ⟨es3, g3, r3⟩ := q
            rw [hl] at h
            simp only [Option.some.injEq, Prod.mk.injEq] at h
            rw [← h.1]
            show g3.gameWon = true
            rw [gameWon_updateEnemies _ _ _ _ _ _ hl]
            exact hw2
        · simp only [Option.some.injEq, Prod.mk.injEq] at h
          rw [← h.1]; exact hw2
  · unfold Game.restart at h
    simp only at h
    split at h
    · simp at h
    · split at h
      · split at h
        · simp at h
        · rename_i g4 r4 h4
          rw [gameWon_addEnemy _ _ _ _ _ h, gameWon_addEnemy _ _ _ _ _ h4]
          exact hw
      · simp only [Option.some.injEq, Prod.mk.injEq] at h
        rw [← h.1]; exact hw

/-- Once `gameWon` is set it stays set over any number of frames, whatever the
inputs; a later frame that ends with `gameOver` set is therefore drawn with
the text of a win. -/
theorem gameWon_stays_set {F : Type} [GoFloat F] (inps : List Input) (g g1 : Game F)
    (r r1 : Rand F) (h : runInputs inps (some (g, r)) = some (g1, r1))
    (hw : g.gameWon = true) :
    g1.gameWon = true ∧ (g1.gameOver = true → g1.phase = Phase.won ∧
      g1.bannerText = g1.winText) := by
  have key : g1.gameWon = true := by
    induction inps generalizing g r with
    | nil =>
      simp only [runInputs, Option.some.injEq, Prod.mk.injEq] at h
      rw [← h.1]; exact hw
    | cons inp inps ih =>
      simp only [runInputs, thenUpdate] at h
      cases hu : g.Update inp r with
      | none =>
        rw [hu] at h
        have hnone : ∀ l : List Input, runInputs l (none : Option (Game F × Rand F)) = none := by
          intro l
          induction l with
          | nil => rfl
          | cons a l ihl => simpa [runInputs, thenUpdate] using ihl
        rw [hnone] at h
        simp at h
      | some p =>
        obtain ⟨g2, r2⟩ := p
        rw [hu] at h
        exact ih g2 r2 h (gameWon_never_cleared g g2 inp r r2 hu hw)
  refine ⟨key, fun hover => ?_⟩
  simp [Game.phase, Game.bannerText, key, hover]

/-- C9 (failing input): the last wave of the last level is exhausted, so the
next call wins the game (Won); the call with Enter restarts it with `gameOver`
cleared and `gameWon` still set; when a token is then at the boundary the
frame ends with `gameOver` and `gameWon` both set, and `Game.Draw` shows the
text "you won". -/
theorem lost_after_won_restart_shows_won :
    bannerOf (lastWave.Update noKey demoRand) =
      some { gameOver := true, gameWon := true, phase := Phase.won, text := "you won" } ∧
    bannerOf (thenUpdate (lastWave.Update noKey demoRand) keyEnter) =
      some { gameOver := false, gameWon := true, phase := Phase.playing, text := "you won" } ∧
    bannerOf (thenUpdate
        (atHeight (thenUpdate (lastWave.Update noKey demoRand) keyEnter) (GoFloat.dec 700 0))
        noKey) =
      some { gameOver := true, gameWon := true, phase := Phase.won, text := "you won" } := by
  decide

/-! ## Text generation -/

/-- The index drawn by `generateText` is inside `letters`, and the letter read
there is one of the first 25. -/
theorem letters_getD_mem (i : Nat) (h : i < 25) :
    letters.data.getD i 'a' ∈ letters.data ∧ letters.data.getD i 'a' ≠ 'z' := by
  revert i
  decide

theorem data_generateTextLoop {F : Type} (n : Nat) (acc : String) (r : Rand F) (c : Char)
    (h : c ∈ (generateTextLoop n acc r).1.data) :
    c ∈ acc.data ∨ (c ∈ letters.data ∧ c ≠ 'z') := by
  induction n generalizing acc r with
  | zero => exact Or.inl h
  | succ n ih =>
    unfold generateTextLoop at h
    simp only [Rand.Intn] at h
    rcases ih _ _ h with h1 | h1
    · simp only [String.data_append, List.mem_append] at h1
      rcases h1 with h1 | h1
      · exact Or.inl h1
      · right
        have hc : c = letters.data.getD (r.ints r.calls % (letters.length - 1)) 'a' := by
          simpa [String.singleton] using h1
        rw [hc]
        exact letters_getD_mem _ (Nat.mod_lt _ (by decide))
    · exact Or.inr h1

/-- C14 (failing input): for every length and every behaviour of the random
source, no character of the generated text is 'z': the index is drawn by
`rand.Intn(len(letters) - 1)`, so the last letter of the alphabet is never
produced. -/
theorem generateText_never_z {F : Type} (l : Int) (r : Rand F) :
    'z' ∈ letters.data ∧ 'z' ∉ (generateText l r).1.data ∧
    ∀ n : Nat, (({ r with calls := n } : Rand F).Intn (letters.length - 1)).1 < 25 := by
  refine ⟨by decide, ?_, ?_⟩
  · intro h
    rcases data_generateTextLoop _ _ _ _ h with h1 | h1
    · simp at h1
    · exact h1.2 rfl
  · intro n
    exact Nat.mod_lt _ (by decide)

/-- C15: for every integer `l` and every behaviour of the random source,
`generateText(l)` returns a string of exactly `max(l, 0)` characters, each a
letter of the alphabet "abcdefghijklmnopqrstuvwxyz"; `l = 0` (and every
negative `l`) yields the empty string, and every index drawn is inside
`letters`. -/
theorem generateText_spec {F : Type} (l : Int) (r : Rand F) :
    ((generateText l r).1.length : Int) = max l 0 ∧
    (∀ c ∈ (generateText l r).1.data, c ∈ letters.data ∧ c.isLower = true) ∧
    (generateText 0 r).1 = "" ∧
    (l ≤ 0 → (generateText l r).1 = "") ∧
    ∀ n : Nat, (({ r with calls := n } : Rand F).Intn (letters.length - 1)).1 < letters.length := by
  refine ⟨?_, ?_, rfl, ?_, ?_⟩
  · rw [length_generateText]
    omega
  · intro c hc
    rcases data_generateTextLoop _ _ _ _ hc with h1 | h1
    · simp at h1
    · refine ⟨h1.1, ?_⟩
      have hall : ∀ x ∈ letters.data, x.isLower = true := by decide
      exact hall c h1.1
  · intro hl
    have h0 : l.toNat = 0 := by omega
    simp [generateText, h0, generateTextLoop]
  · intro n
    have h25 : (({ r with calls := n } : Rand F).Intn (letters.length - 1)).1 < 25 :=
      Nat.mod_lt _ (by decide)
    have h26 : letters.length = 26 := by decide
    omega

/-! ## The typed letter -/

theorem mainKeyMap_eq_none_iff (k : Int) : mainKeyMap k = none ↔ k < 0 ∨ 26 ≤ k := by
  have hlen : (letters.length : Int) = 26 := by decide
  unfold mainKeyMap
  rw [hlen]
  constructor
  · intro h
    by_contra hc
    have hin : (0 : Int) ≤ k ∧ k < 26 := by omega
    rw [if_pos hin] at h
    simp at h
  · intro h
    have hout : ¬ ((0 : Int) ≤ k ∧ k < 26) := by omega
    rw [if_neg hout]

theorem firstMapped_none_of_ge (keys : List Int) (h : ∀ k ∈ keys, (26 : Int) ≤ k) :
    firstMapped mainKeyMap keys = none := by
  unfold firstMapped
  rw [List.findSome?_eq_none_iff]
  intro k hk
  exact (mainKeyMap_eq_none_iff k).mpr (Or.inr (h k hk))

/-- The statement of `Enemy.Update` that reads the keys looks up `keys[0]`
only. -/
theorem applyInput_eq {F : Type} (e : Enemy F) (g : Game F) :
    (e.applyInput g = match appliedLetter g with
      | some l => e.checkDamage l
      | none => e) ∧
    appliedLetter g = g.keys.head?.bind g.keyMap := by
  refine ⟨?_, ?_⟩
  · unfold Enemy.applyInput appliedLetter
    cases hk : g.keys with
    | nil => rfl
    | cons k rest =>
      cases g.keyMap k <;> rfl
  · unfold appliedLetter
    cases g.keys <;> rfl

/-- On a list of valid key codes in ascending order, the entry of the first
key in the table of `main` is the entry of the first key that has one: the
keys with an entry are the codes 0 to 25, so they come before the others. -/
theorem appliedLetter_eq_firstMapped {F : Type} (g : Game F) (hmap : g.keyMap = mainKeyMap)
    (hsorted : g.keys.Pairwise (fun a b => a < b)) (hnonneg : ∀ k ∈ g.keys, 0 ≤ k) :
    appliedLetter g = firstMapped mainKeyMap g.keys := by
  unfold appliedLetter
  rw [hmap]
  cases hk : g.keys with
  | nil => rfl
  | cons k rest =>
    rw [hk] at hsorted hnonneg
    simp only
    cases hm : mainKeyMap k with
    | some l => simp [firstMapped, hm]
    | none =>
      have hk0 : (0 : Int) ≤ k := hnonneg k (by simp)
      have hk26 : (26 : Int) ≤ k := by
        rcases (mainKeyMap_eq_none_iff k).mp hm with h1 | h1
        · omega
        · exact h1
      have hrest : ∀ x ∈ rest, (26 : Int) ≤ x := by
        intro x hx
        have hlt : @LT.lt Int Int.instLTInt k x := (List.pairwise_cons.mp hsorted).1 x hx
        omega
      have hnone := firstMapped_none_of_ge rest hrest
      unfold firstMapped at hnone ⊢
      simp [hm, hnone]

/-- C11: the pressed keys of a frame are the result of
`inpututil.AppendPressedKeys`, valid key codes in ascending order, and the key
table is the one of `main`, with an entry for exactly the 26 keys 0 to 25.
Then the letter applied to a token in the frame is the letter of the first key
of the list that has an entry in the table: the keys before it have none and
are skipped. One letter at most is applied, and none is applied only when no
pressed key has an entry. -/
theorem first_mapped_key_is_applied {F : Type} (e : Enemy F) (g : Game F) (inp : Input)
    (hmap : g.keyMap = mainKeyMap) (hasc : inp.pressed.Pairwise (fun a b => a < b))
    (hcode : ∀ k ∈ inp.pressed, 0 ≤ k) :
    (∀ k : Int, (mainKeyMap k).isSome = true ↔ 0 ≤ k ∧ k < 26) ∧
    (e.applyInput (g.readKeys inp) =
      match firstMapped mainKeyMap inp.pressed with
      | some l => e.checkDamage l
      | none => e) ∧
    (∀ l, firstMapped mainKeyMap inp.pressed = some l ↔
      ∃ front k back, inp.pressed = front ++ k :: back ∧
        (∀ x ∈ front, mainKeyMap x = none) ∧ mainKeyMap k = some l) ∧
    (firstMapped mainKeyMap inp.pressed = none ↔ ∀ k ∈ inp.pressed, mainKeyMap k = none) := by
  refine ⟨?_, ?_, ?_, ?_⟩
  · intro k
    have h := mainKeyMap_eq_none_iff k
    constructor
    · intro hs
      by_contra hc
      have hn : mainKeyMap k = none := h.mpr (by omega)
      rw [hn] at hs
      exact Bool.noConfusion hs
    · intro hs
      cases hm : mainKeyMap k with
      | some l => rfl
      | none =>
        have := h.mp hm
        omega
  · have h1 := (applyInput_eq e (g.readKeys inp)).1
    have h2 := appliedLetter_eq_firstMapped (g.readKeys inp) hmap hasc hcode
    rw [h2] at h1
    exact h1
  · intro l
    unfold firstMapped
    rw [List.findSome?_eq_some_iff]
    constructor
    · rintro ⟨front, k, back, h1, h2, h3⟩
      exact ⟨front, k, back, h1, h3, h2⟩
    · rintro ⟨front, k, back, h1, h2, h3⟩
      exact ⟨front, k, back, h1, h3, h2⟩
  · unfold firstMapped
    rw [List.findSome?_eq_none_iff]

/-- C11 (witness): the keys 0 (the letter 'a') and 30 (no letter) are pressed
and the next letter of the token "dna" is 'a': the letter 'a' is applied. -/
theorem first_mapped_key_is_applied_witness :
    (playing [dnaEnemy] 10 0).keyMap = mainKeyMap ∧
    keyAThenOther.pressed.Pairwise (fun a b => a < b) ∧
    (∀ k ∈ keyAThenOther.pressed, 0 ≤ k) ∧
    firstMapped mainKeyMap keyAThenOther.pressed = some "a" ∧
    (dnaEnemy.applyInput ((playing [dnaEnemy] 10 0).readKeys keyAThenOther)).textArray =
      ["n", "d"] ∧
    ((∀ k : Int, (mainKeyMap k).isSome = true ↔ 0 ≤ k ∧ k < 26) ∧
      (dnaEnemy.applyInput ((playing [dnaEnemy] 10 0).readKeys keyAThenOther) =
        match firstMapped mainKeyMap keyAThenOther.pressed with
        | some l => dnaEnemy.checkDamage l
        | none => dnaEnemy) ∧
      (∀ l, firstMapped mainKeyMap keyAThenOther.pressed = some l ↔
        ∃ front k back, keyAThenOther.pressed = front ++ k :: back ∧
          (∀ x ∈ front, mainKeyMap x = none) ∧ mainKeyMap k = some l) ∧
      (firstMapped mainKeyMap keyAThenOther.pressed = none ↔
        ∀ k ∈ keyAThenOther.pressed, mainKeyMap k = none)) :=
  ⟨rfl, by decide, by decide, by decide, by decide,
    first_mapped_key_is_applied dnaEnemy (playing [dnaEnemy] 10 0) keyAThenOther rfl
      (by decide) (by decide)⟩

/-! ## The first token past the boundary -/

theorem redlineY_update {F : Type} [GoFloat F] (e e1 : Enemy F) (g g1 : Game F) (r r1 : Rand F)
    (h : e.Update g r = some (e1, g1, r1)) : g1.redlineY = g.redlineY := by
  rw [update_game e e1 g g1 r r1 h]

/-- The token loop on a list whose first token past the boundary is `a`: the
loop on the tokens before `a`, then `gameOver`; `a` and the tokens after it are
passed through. -/
theorem updateEnemies_first_offender {F : Type} [GoFloat F] (pre post : List (Enemy F))
    (a : Enemy F) (g : Game F) (r : Rand F)
    (hpre : ∀ e ∈ pre, e.CheckGameOver g.redlineY = false)
    (ha : a.CheckGameOver g.redlineY = true) :
    Game.updateEnemies g r (pre ++ a :: post) =
      match Game.updateEnemies g r pre with
      | none => none
      | some (front, g1, r1) => some (front ++ a :: post, { g1 with gameOver := true }, r1) := by
  induction pre generalizing g r with
  | nil => simp [Game.updateEnemies, ha]
  | cons e pre ih =>
    have he : e.CheckGameOver g.redlineY = false := hpre e (by simp)
    simp only [List.cons_append, Game.updateEnemies, he, Bool.false_eq_true, if_false]
    cases hu : e.Update g r with
    | none => rfl
    | some p =>
      obtain ⟨e1, g1, r1⟩ := p
      have hred := redlineY_update e e1 g g1 r r1 hu
      simp only [List.append_eq]
      rw [ih g1 r1 (by rw [hred]; exact fun x hx => hpre x (by simp [hx])) (by rw [hred]; exact ha)]
      cases Game.updateEnemies g1 r1 pre with
      | none => rfl
      | some q =>
        obtain ⟨front, g2, r2⟩ := q
        rfl

theorem visited_of_none_past {F : Type} [GoFloat F] (g : Game F) (es : List (Enemy F))
    (h : ∀ e ∈ es, e.CheckGameOver g.redlineY = false) :
    visited g es = es ∧ unvisited g es = [] := by
  induction es with
  | nil => exact ⟨rfl, rfl⟩
  | cons e es ih =>
    have he : e.CheckGameOver g.redlineY = false := h e (by simp)
    obtain ⟨h1, h2⟩ := ih (fun x hx => h x (by simp [hx]))
    unfold visited unvisited at *
    simp [he, h1, h2]

/-- The loop on tokens none of which is past the boundary updates all of
them. -/
theorem updateEnemies_none_past {F : Type} [GoFloat F] (es : List (Enemy F)) (g : Game F)
    (r : Rand F) (h0 : 0 ≤ g.currentLevel) (h1 : g.currentLevel < g.levels.length)
    (hj : ∀ e ∈ es, e.jumpHeight ≠ 0)
    (hnone : ∀ e ∈ es, e.CheckGameOver g.redlineY = false) :
    ∃ front g1 r1, Game.updateEnemies g r es = some (front, g1, r1) ∧
      front.length = es.length ∧ (∀ e ∈ front, e.jumpHeight ≠ 0) ∧
      g1 = { g with waveCount := lowerBy (killCount g es) g.waveCount } := by
  obtain ⟨front, g1, r1, hl, hfl, hfj, hg1⟩ := updateEnemies_spec es g r h0 h1 hj
  obtain ⟨hv, hu⟩ := visited_of_none_past g es hnone
  rw [hu, List.append_nil] at hl
  rw [hv] at hfl
  refine ⟨front, g1, r1, hl, hfl, hfj, ?_⟩
  rw [hg1]
  have hany : (es.any fun e => e.CheckGameOver g.redlineY) = false := by
    rw [List.any_eq_false]
    intro x hx
    simp [hnone x hx]
  rw [hany]
  simp

/-- C18 (counterexample): a frame of play on the last level with the wave
exhausted (`waveCount = -1`), a fresh token at index 0 and a token past the
boundary at index 1. The token at index 1 is the first one past the boundary,
but `Game.Update` wins the game in the level step and runs no token loop: the
token at index 0 is not updated (a call of `Enemy.Update` would move it from 40
to 40.5). -/
theorem winning_frame_updates_no_token :
    (playing [dogEnemy, crossing] (-1) 4).phase = Phase.playing ∧
    dogEnemy.CheckGameOver (playing [dogEnemy, crossing] (-1) 4).redlineY = false ∧
    crossing.CheckGameOver (playing [dogEnemy, crossing] (-1) 4).redlineY = true ∧
    (dogEnemy.Update ((playing [dogEnemy, crossing] (-1) 4).readKeys noKey) demoRand).map
      (fun p => p.1.view) =
      some { text := "dog", textArray := ["g", "o", "d"], killed := false,
             yPos := ⟨405, 10⟩ } ∧
    outcome ((playing [dogEnemy, crossing] (-1) 4).Update noKey demoRand) =
      some { gameOver := true, gameWon := true, waveCount := -1, currentLevel := 5,
             tokens := [
               { text := "dog", textArray := ["g", "o", "d"], killed := false,
                 yPos := ⟨40, 1⟩ },
               { text := "dog", textArray := ["g", "o", "d"], killed := false,
                 yPos := ⟨700, 1⟩ }] } := by
  decide

/-- C18 (amended): in a started, not-over, ready frame that reaches the token loop (the
wave is not exhausted, or the level is not the last one) and whose tokens are
`pre ++ a :: post` with `a` the first token past the boundary, `Game.Update`
sets `gameOver`; the tokens before `a` are replaced by what the loop of
`Enemy.Update` calls yields on them alone, `a` and the tokens after it are
unchanged, and `waveCount` and the random source are as that loop on the
tokens before `a` leaves them. -/
theorem first_offender_ends_game {F : Type} [GoFloat F] (g : Game F) (inp : Input)
    (r : Rand F) (pre post : List (Enemy F)) (a : Enemy F)
    (hs : g.started = true) (hno : g.gameOver = false) (hready : g.Ready)
    (hstep : 0 ≤ g.waveCount ∨ g.currentLevel + 1 < g.levels.length)
    (hes : g.enemies = pre ++ a :: post)
    (hpre : ∀ e ∈ pre, e.CheckGameOver g.redlineY = false)
    (ha : a.CheckGameOver g.redlineY = true) :
    ∃ g1 front g2 r2,
      g.advanceLevel = some g1 ∧
      Game.updateEnemies (g1.readKeys inp) r pre = some (front, g2, r2) ∧
      g.Update inp r =
        some ({ g2 with gameOver := true, enemies := front ++ a :: post }, r2) ∧
      front.length = pre.length ∧
      g2.waveCount = lowerBy (killCount (g1.readKeys inp) pre) g1.waveCount := by
  obtain ⟨⟨h0, h1, hlen⟩, hj⟩ := hready
  have hadv : ∃ g1, g.advanceLevel = some g1 ∧ g1.gameOver = false ∧
      g1.enemies = g.enemies ∧ g1.redlineY = g.redlineY ∧ 0 ≤ g1.currentLevel ∧
      g1.currentLevel < g1.levels.length := by
    by_cases hw : 0 ≤ g.waveCount
    · exact ⟨g, advanceLevel_nonneg g hw, hno, rfl, rfl, h0, h1⟩
    · have hl : g.currentLevel + 1 < g.levels.length := by
        rcases hstep with h | h
        · exact absurd h hw
        · exact h
      obtain ⟨lv, _, hadv⟩ := advanceLevel_next g (by omega) h0 hl hlen
      refine ⟨_, hadv, hno, rfl, rfl, ?_, hl⟩
      show 0 ≤ g.currentLevel + 1
      omega
  obtain ⟨g1, hadv, hplay, hen, hred, h0', h1'⟩ := hadv
  have hjpre : ∀ e ∈ pre, e.jumpHeight ≠ 0 := fun e he => hj e (by rw [hes]; simp [he])
  obtain ⟨front, g2, r2, hl, hfl, _, hg2⟩ :=
    updateEnemies_none_past pre (g1.readKeys inp) r h0' h1' hjpre
      (by
        intro e he
        have := hpre e he
        rw [← hred] at this
        exact this)
  refine ⟨g1, front, g2, r2, hadv, hl, ?_, hfl, by rw [hg2]; rfl⟩
  rw [update_playing_eq g g1 inp r hs hno hadv, hen, hes,
    updateEnemies_first_offender pre post a (g1.readKeys inp) r
      (by
        intro e he
        have := hpre e he
        rw [← hred] at this
        exact this)
      (by rw [← hred] at ha; exact ha), hl]
  simp [hplay]

/-- C18 (witness): three tokens, the second at the boundary, the key 'a'
pressed. -/
theorem first_offender_ends_game_witness :
    (playing [typedOut, crossing, dogEnemy] 10 0).started = true ∧
    (playing [typedOut, crossing, dogEnemy] 10 0).gameOver = false ∧
    (playing [typedOut, crossing, dogEnemy] 10 0).Ready ∧
    (0 ≤ (playing [typedOut, crossing, dogEnemy] 10 0).waveCount ∨
      (playing [typedOut, crossing, dogEnemy] 10 0).currentLevel + 1 <
        (playing [typedOut, crossing, dogEnemy] 10 0).levels.length) ∧
    (playing [typedOut, crossing, dogEnemy] 10 0).enemies =
      [typedOut] ++ crossing :: [dogEnemy] ∧
    (∀ e ∈ [typedOut],
      e.CheckGameOver (playing [typedOut, crossing, dogEnemy] 10 0).redlineY = false) ∧
    crossing.CheckGameOver (playing [typedOut, crossing, dogEnemy] 10 0).redlineY = true ∧
    ∃ g1 front g2 r2,
      (playing [typedOut, crossing, dogEnemy] 10 0).advanceLevel = some g1 ∧
      Game.updateEnemies (g1.readKeys keyA) demoRand [typedOut] = some (front, g2, r2) ∧
      (playing [typedOut, crossing, dogEnemy] 10 0).Update keyA demoRand =
        some ({ g2 with gameOver := true, enemies := front ++ crossing :: [dogEnemy] }, r2) ∧
      front.length = [typedOut].length ∧
      g2.waveCount = lowerBy (killCount (g1.readKeys keyA) [typedOut]) g1.waveCount :=
  ⟨rfl, rfl, by decide, by decide, rfl, by decide, by decide,
    first_offender_ends_game (playing [typedOut, crossing, dogEnemy] 10 0) keyA demoRand
      [typedOut] [dogEnemy] crossing rfl rfl (by decide) (by decide) rfl (by decide)
      (by decide)⟩

/-! ## Typed progress -/

theorem foldl_append_singletons (cs : List Char) (acc : String) :
    List.foldl (fun r s => r ++ s) acc (cs.map String.singleton) = acc ++ String.mk cs := by
  induction cs generalizing acc with
  | nil =>
    apply String.ext
    simp
  | cons c cs ih =>
    simp only [List.map_cons, List.foldl_cons]
    rw [ih]
    apply String.ext
    simp [String.singleton]

theorem join_singletons (cs : List Char) : String.join (cs.map String.singleton) = String.mk cs := by
  unfold String.join
  rw [foldl_append_singletons]
  apply String.ext
  simp

/-- The reversal of a suffix of the reversed characters of `text` spells the
head of `text` of the same length. -/
theorem join_reverse_of_suffix (text : String) (ta : List String)
    (h : ta <:+ reverseTyping text) :
    String.join (reverse ta) = textHead text ta.length := by
  obtain ⟨t, ht⟩ := h
  have h1 : text.data.map String.singleton = ta.reverse ++ t.reverse := by
    have := congrArg List.reverse ht
    simpa [reverseTyping, List.map_reverse] using this.symm
  have h2 : ta.reverse = (text.data.take ta.length).map String.singleton := by
    have := congrArg (List.take ta.length) h1
    rw [List.take_left' (by simp)] at this
    rw [← this, List.map_take]
  rw [reverse_eq, h2, join_singletons]
  rfl

theorem suffix_checkDamage {F : Type} (e : Enemy F) (l : String) :
    (e.checkDamage l).text = e.text ∧ (e.checkDamage l).textArray <:+ e.textArray := by
  unfold Enemy.checkDamage
  split
  · rename_i h
    exact ⟨rfl, by simp [h]⟩
  · rename_i c rest h
    split
    · exact ⟨rfl, by rw [h]; exact List.suffix_cons c rest⟩
    · exact ⟨rfl, List.suffix_refl _⟩

theorem suffix_applyInput {F : Type} (e : Enemy F) (g : Game F) :
    (e.applyInput g).text = e.text ∧ (e.applyInput g).textArray <:+ e.textArray := by
  unfold Enemy.applyInput
  split
  · exact ⟨rfl, List.suffix_refl _⟩
  · split
    · exact suffix_checkDamage e _
    · exact ⟨rfl, List.suffix_refl _⟩

/-- What `Enemy.Update` does to the text of a token: either the token was
respawned and its `textArray` is the whole reversed new text, or the text is
kept and `textArray` is what the input left; `partialText` is recomputed from
the result. -/
theorem update_text {F : Type} [GoFloat F] (e e1 : Enemy F) (g g1 : Game F) (r r1 : Rand F)
    (h : e.Update g r = some (e1, g1, r1)) :
    e1.partialText = String.join (reverse e1.textArray) ∧
    (e1.textArray = reverseTyping e1.text ∨
      (e1.text = e.text ∧ e1.textArray = (e.applyInput g).textArray)) := by
  unfold Enemy.Update at h
  cases hr : (e.applyInput g).respawn g r with
  | none => rw [hr] at h; simp at h
  | some p =>
    obtain ⟨e2, g2, r2⟩ := p
    rw [hr] at h
    simp only at h
    have hm : ∀ e3, e2.move = some e3 →
        e3.partialText = String.join (reverse e3.textArray) ∧ e3.text = e2.text ∧
          e3.textArray = e2.textArray := by
      intro e3 he3
      unfold Enemy.move at he3
      simp only at he3
      split at he3
      · simp at he3
      · simp only [Option.some.injEq] at he3
        rw [← he3]
        exact ⟨rfl, rfl, rfl⟩
    cases hmv : e2.move with
    | none => rw [hmv] at h; simp at h
    | some e3 =>
      rw [hmv] at h
      simp only [Option.some.injEq, Prod.mk.injEq] at h
      obtain ⟨hp, ht, hta⟩ := hm e3 hmv
      rw [← h.1]
      refine ⟨hp, ?_⟩
      have he2 : e2.textArray = reverseTyping e2.text ∨
          (e2.text = (e.applyInput g).text ∧ e2.textArray = (e.applyInput g).textArray) := by
        unfold Enemy.respawn at hr
        split at hr
        · split at hr
          · simp at hr
          · simp only at hr
            split at hr
            · simp only [Option.some.injEq, Prod.mk.injEq] at hr
              left
              rw [← hr.1]
              exact textArray_reset _ _ _ _
            · simp only [Option.some.injEq, Prod.mk.injEq] at hr
              right
              rw [← hr.1]
              exact ⟨rfl, rfl⟩
        · simp only [Option.some.injEq, Prod.mk.injEq] at hr
          right
          rw [← hr.1]
          exact ⟨rfl, rfl⟩
      rcases he2 with h2 | ⟨h2, h3⟩
      · left
        rw [hta, ht]
        exact h2
      · right
        rw [ht, hta, h2, h3]
        exact ⟨(suffix_applyInput e g).1, rfl⟩

theorem suffix_of_reached {F : Type} [GoFloat F] (e : Enemy F) (h : Enemy.Reached e) :
    e.textArray <:+ reverseTyping e.text := by
  induction h with
  | reset e text speed jumpHeight =>
    rw [textArray_reset]
    exact List.suffix_refl _
  | damage e l _ ih =>
    obtain ⟨h1, h2⟩ := suffix_checkDamage e l
    rw [h1]
    exact h2.trans ih
  | update e e1 g g1 r r1 _ hu ih =>
    obtain ⟨_, h1 | ⟨h1, h2⟩⟩ := update_text e e1 g g1 r r1 hu
    · exact ⟨[], by rw [h1]; rfl⟩
    · rw [h1, h2]
      exact (suffix_applyInput e g).2.trans ih

/-- C20: in every state of a token reached after `Reset` by `checkDamage` and
`Enemy.Update` calls (respawns included), `textArray` is a suffix of the
reversed characters of the current `text`; `checkDamage` keeps the text and
never lengthens `textArray`; after every `Enemy.Update`, `partialText` is the
head of `text` of length `len(textArray)`, and unless the call respawned the
token (then `textArray` is the whole reversed new text) the text is kept and
`textArray` is not longer than before. -/
theorem typed_progress {F : Type} [GoFloat F] (e : Enemy F) (h : Enemy.Reached e) :
    e.textArray <:+ reverseTyping e.text ∧
    (∀ l : String, (e.checkDamage l).text = e.text ∧
      (e.checkDamage l).textArray.length ≤ e.textArray.length) ∧
    ∀ (g g1 : Game F) (r r1 : Rand F) (e1 : Enemy F), e.Update g r = some (e1, g1, r1) →
      e1.textArray <:+ reverseTyping e1.text ∧
      e1.partialText = textHead e1.text e1.textArray.length ∧
      (e1.textArray = reverseTyping e1.text ∨
        (e1.text = e.text ∧ e1.textArray.length ≤ e.textArray.length)) := by
  refine ⟨suffix_of_reached e h, ?_, ?_⟩
  · intro l
    obtain ⟨h1, h2⟩ := suffix_checkDamage e l
    exact ⟨h1, h2.length_le⟩
  · intro g g1 r r1 e1 hu
    have hs1 := suffix_of_reached e1 (Enemy.Reached.update e e1 g g1 r r1 h hu)
    obtain ⟨hp, hcase⟩ := update_text e e1 g g1 r r1 hu
    refine ⟨hs1, ?_, ?_⟩
    · rw [hp]
      exact join_reverse_of_suffix _ _ hs1
    · rcases hcase with h1 | ⟨h1, h2⟩
      · exact Or.inl h1
      · right
        refine ⟨h1, ?_⟩
        rw [h2]
        exact (suffix_applyInput e g).2.length_le

/-- C20 (witness): the token "cat" after `Reset` and the letter 't'. -/
theorem typed_progress_witness :
    Enemy.Reached (catEnemy.checkDamage "t") ∧
    ((catEnemy.checkDamage "t").textArray <:+ reverseTyping (catEnemy.checkDamage "t").text ∧
      (∀ l : String, ((catEnemy.checkDamage "t").checkDamage l).text =
          (catEnemy.checkDamage "t").text ∧
        ((catEnemy.checkDamage "t").checkDamage l).textArray.length ≤
          (catEnemy.checkDamage "t").textArray.length) ∧
      ∀ (g g1 : Game Frac) (r r1 : Rand Frac) (e1 : Enemy Frac),
        (catEnemy.checkDamage "t").Update g r = some (e1, g1, r1) →
        e1.textArray <:+ reverseTyping e1.text ∧
        e1.partialText = textHead e1.text e1.textArray.length ∧
        (e1.textArray = reverseTyping e1.text ∨
          (e1.text = (catEnemy.checkDamage "t").text ∧
            e1.textArray.length ≤ (catEnemy.checkDamage "t").textArray.length))) :=
  ⟨Enemy.Reached.damage _ "t" (Enemy.Reached.reset _ _ _ _),
    typed_progress (catEnemy.checkDamage "t")
      (Enemy.Reached.damage _ "t" (Enemy.Reached.reset _ _ _ _))⟩

/-! ## Safety of the level index -/

theorem jumpHeight_freshToken {F : Type} [GoFloat F] (x : F) (lv : Level F) (r : Rand F) :
    (freshToken x lv r).1.jumpHeight ≠ 0 := by
  show defaultJumpHeight ≠ 0
  decide

/-- The terminal branch without Enter. -/
theorem update_terminal_idle {F : Type} [GoFloat F] (g : Game F) (inp : Input) (r : Rand F)
    (lv : Level F) (rest : List (Level F))
    (hover : g.gameOver = true) (hkey : inp.enter = false) (hlv : g.levels = lv :: rest) :
    g.Update inp r = some ({ g with currentLevel := 0, waveCount := lv.waveLength }, r) := by
  unfold Game.Update Game.restart
  simp only [hover, Bool.not_true, Bool.false_eq_true, if_false, hlv, levelAt_zero, hkey]

/-- A frame before the start. -/
theorem update_not_started {F : Type} [GoFloat F] (g : Game F) (inp : Input) (r : Rand F)
    (hno : g.gameOver = false) (hs : g.started = false) :
    g.Update inp r = some ({ g with started := inp.enter }, r) := by
  cases g
  simp only at hno hs
  subst hno hs
  unfold Game.Update
  cases he : inp.enter <;> simp

theorem mem_unvisited {F : Type} [GoFloat F] (g : Game F) (es : List (Enemy F)) (e : Enemy F)
    (h : e ∈ unvisited g es) : e ∈ es :=
  (List.dropWhile_sublist _).subset h

/-- One call of `Game.Update` on a safe game does not fail and leaves the game
safe. -/
theorem safe_step {F : Type} [GoFloat F] (g : Game F) (inp : Input) (r : Rand F)
    (h : g.Safe) : ∃ g1 r1, g.Update inp r = some (g1, r1) ∧ g1.Safe := by
  obtain ⟨hne, hlen, hcur, hj⟩ := h
  cases hover : g.gameOver with
  | true =>
    obtain ⟨lv, rest, hlv⟩ := List.exists_cons_of_ne_nil hne
    cases hkey : inp.enter with
    | false =>
      refine ⟨_, _, update_terminal_idle g inp r lv rest hover hkey hlv, hne, hlen, ?_, hj⟩
      intro hno
      rw [hover] at hno
      exact Bool.noConfusion hno
    | true =>
      refine ⟨_, _, update_restart g inp r lv rest hover hkey hlv, hne, hlen, ?_, ?_⟩
      · intro _
        show (0 : Int) ≤ 0 ∧ (0 : Int) < g.levels.length
        rw [hlv]
        simp
      · intro e he
        simp only [List.mem_cons, List.mem_singleton, List.not_mem_nil, or_false] at he
        rcases he with rfl | rfl
        · exact jumpHeight_freshToken _ _ _
        · exact jumpHeight_freshToken _ _ _
  | false =>
    obtain ⟨h0, h1⟩ := hcur hover
    cases hs : g.started with
    | false =>
      exact ⟨_, _, update_not_started g inp r hover hs, hne, hlen, fun _ => ⟨h0, h1⟩, hj⟩
    | true =>
      have frame : ∀ g1 : Game F, g.advanceLevel = some g1 → g1.gameOver = false →
          g1.levels = g.levels → g1.enemies = g.enemies →
          0 ≤ g1.currentLevel → g1.currentLevel < g1.levels.length →
          ∃ g2 r2, g.Update inp r = some (g2, r2) ∧ g2.Safe := by
        intro g1 hadv hplay hlv hen hc0 hc1
        have hready : g1.Ready := ⟨⟨hc0, hc1, by rw [hlv]; exact hlen⟩, by rw [hen]; exact hj⟩
        obtain ⟨front, r1, hu, _, hfj⟩ := update_frame g g1 inp r hs hover hadv hplay hready
        refine ⟨_, r1, hu, by rw [← hlv] at hne; exact hne, by rw [← hlv] at hlen; exact hlen,
          fun _ => ⟨hc0, hc1⟩, ?_⟩
        intro e he
        rcases List.mem_append.mp he with he | he
        · exact hfj e he
        · exact hj e (by rw [← hen]; exact mem_unvisited g1 g1.enemies e he)
      by_cases hw : 0 ≤ g.waveCount
      · exact frame g (advanceLevel_nonneg g hw) hover rfl rfl h0 h1
      · by_cases hl : g.currentLevel + 1 < g.levels.length
        · obtain ⟨lv, _, hadv⟩ := advanceLevel_next g (by omega) h0 hl hlen
          exact frame _ hadv hover rfl rfl (by show 0 ≤ g.currentLevel + 1; omega) hl
        · have hlast : g.currentLevel = (g.levels.length : Int) - 1 := by omega
          refine ⟨_, _, update_on_last_level g inp r hs hover (by omega) hlast hlen,
            hne, hlen, ?_, hj⟩
          intro hno
          exact Bool.noConfusion hno

theorem length_mainLevels {F : Type} [GoFloat F] :
    (mainLevels : List (Level F)).length = 5 := by
  simp [mainLevels, maxLevels]

/-- The game built by `main`: two fresh tokens of level 0, the second
`AddEnemy` resetting the first token once more. -/
theorem mainGame_eq {F : Type} [GoFloat F] (r : Rand F) :
    mainGame r =
      some ({ (newGame 10 : Game F) with
        enemies := [
          (freshToken (GoFloat.dec 60 0) (mainLevel 0)
            (freshToken (GoFloat.dec 60 0) (mainLevel 0) r).2).1,
          (freshToken (GoFloat.dec 300 0) (mainLevel 0)
            (freshToken (GoFloat.dec 60 0) (mainLevel 0)
              (freshToken (GoFloat.dec 60 0) (mainLevel 0) r).2).2).1] },
        (freshToken (GoFloat.dec 300 0) (mainLevel 0)
          (freshToken (GoFloat.dec 60 0) (mainLevel 0)
            (freshToken (GoFloat.dec 60 0) (mainLevel 0) r).2).2).2) := by
  rfl

/-- The game built by `main` exists and is safe. -/
theorem mainGame_safe {F : Type} [GoFloat F] (r : Rand F) :
    ∃ g r1, mainGame r = some (g, r1) ∧ g.Safe ∧ g.currentLevel = 0 ∧
      g.levels = mainLevels ∧ g.enemies.length = 2 ∧ g.waveCount = 10 := by
  refine ⟨_, _, mainGame_eq r, ⟨?_, ?_, fun _ => ⟨?_, ?_⟩, ?_⟩, rfl, rfl, rfl, rfl⟩
  · show (mainLevels : List (Level F)) ≠ []
    intro h
    have hl := congrArg List.length h
    rw [length_mainLevels] at hl
    simp at hl
  · show (((mainLevels : List (Level F)).length : Int)) < 2 ^ 63
    rw [length_mainLevels]
    norm_num
  · show (0 : Int) ≤ 0
    decide
  · show (0 : Int) < ((mainLevels : List (Level F)).length : Int)
    rw [length_mainLevels]
    norm_num
  · intro e he
    rcases List.mem_cons.mp he with rfl | he
    · exact jumpHeight_freshToken _ _ _
    · rcases List.mem_cons.mp he with rfl | he
      · exact jumpHeight_freshToken _ _ _
      · exact absurd he (List.not_mem_nil _)

theorem runInputs_safe {F : Type} [GoFloat F] (inps : List Input) (g : Game F) (r : Rand F)
    (h : g.Safe) : ∃ g1 r1, runInputs inps (some (g, r)) = some (g1, r1) ∧ g1.Safe := by
  induction inps generalizing g r with
  | nil => exact ⟨g, r, rfl, h⟩
  | cons inp inps ih =>
    obtain ⟨g1, r1, hu, hs1⟩ := safe_step g inp r h
    obtain ⟨g2, r2, hrun, hs2⟩ := ih g1 r1 hs1
    refine ⟨g2, r2, ?_, hs2⟩
    simp only [runInputs, thenUpdate, hu]
    exact hrun

/-- C17: from the game built by `main`, with any random source and after any
sequence of `Game.Update` calls with any inputs, no call fails: an access
`levels[currentLevel]` outside the table (and a division by a zero
`jumpHeight`) would make the call fail. The state reached has the level table
of `main`'s length, and `currentLevel` inside it whenever `gameOver` is clear,
that is whenever the next call can index the table before resetting
`currentLevel` to 0. -/
theorem level_index_never_out_of_range {F : Type} [GoFloat F] (r : Rand F)
    (inps : List Input) :
    ∃ g r1, runInputs inps (mainGame r) = some (g, r1) ∧
      g.levels ≠ [] ∧
      (g.gameOver = false → 0 ≤ g.currentLevel ∧ g.currentLevel < g.levels.length) ∧
      ∀ (inp : Input) (r2 : Rand F), ∃ g2 r3, g.Update inp r2 = some (g2, r3) := by
  obtain ⟨g0, r0, hmain, hsafe, _⟩ := mainGame_safe r
  obtain ⟨g, r1, hrun, hs⟩ := runInputs_safe inps g0 r0 hsafe
  refine ⟨g, r1, by rw [hmain]; exact hrun, hs.1, hs.2.2.1, ?_⟩
  intro inp r2
  obtain ⟨g2, r3, hu, _⟩ := safe_step g inp r2 hs
  exact ⟨g2, r3, hu⟩

/-! ## Falling -/

theorem move_eq_fall {F : Type} [GoFloat F] (e : Enemy F) (hj : e.jumpHeight ≠ 0) :
    e.move = some e.fall := by
  unfold Enemy.move goDiv Enemy.fall
  simp only [if_neg hj]

/-- A call of `Enemy.Update` on a token that the input does not kill: the token
takes the input and falls; the game and the random source are untouched. -/
theorem update_alive {F : Type} [GoFloat F] (e : Enemy F) (g : Game F) (r : Rand F)
    (hk : (e.applyInput g).killed = false) (hj : e.jumpHeight ≠ 0) :
    e.Update g r = some ((e.applyInput g).fall, g, r) := by
  have hj2 : (e.applyInput g).jumpHeight ≠ 0 := by rw [jumpHeight_applyInput]; exact hj
  unfold Enemy.Update Enemy.respawn
  simp only [hk, Bool.false_eq_true, if_false, move_eq_fall _ hj2]

theorem applyInput_no_key {F : Type} (e : Enemy F) (g : Game F) (h : g.keys = []) :
    e.applyInput g = e := by
  unfold Enemy.applyInput
  rw [h]

/-- The token loop of a frame without keys on tokens that are neither killed
nor past the boundary: every token falls. -/
theorem updateEnemies_idle {F : Type} [GoFloat F] (es : List (Enemy F)) (g : Game F)
    (r : Rand F) (hkeys : g.keys = [])
    (h : ∀ e ∈ es, e.killed = false ∧ e.jumpHeight ≠ 0 ∧ e.CheckGameOver g.redlineY = false) :
    Game.updateEnemies g r es = some (es.map Enemy.fall, g, r) := by
  induction es with
  | nil => rfl
  | cons e es ih =>
    obtain ⟨hk, hj, hp⟩ := h e (by simp)
    have hu : e.Update g r = some (e.fall, g, r) := by
      have := update_alive e g r (by rw [applyInput_no_key e g hkeys]; exact hk) hj
      rw [applyInput_no_key e g hkeys] at this
      exact this
    simp only [Game.updateEnemies, hp, Bool.false_eq_true, if_false, hu,
      ih (fun x hx => h x (by simp [hx])), List.map_cons]

/-- A started frame without keys in which no token is killed or past the
boundary and the wave is not exhausted: every token falls and nothing else
changes. -/
theorem update_idle {F : Type} [GoFloat F] (g : Game F) (inp : Input) (r : Rand F)
    (hs : g.started = true) (hno : g.gameOver = false) (hw : 0 ≤ g.waveCount)
    (hkeys : g.keys = []) (hinp : inp.pressed = [])
    (h : ∀ e ∈ g.enemies,
      e.killed = false ∧ e.jumpHeight ≠ 0 ∧ e.CheckGameOver g.redlineY = false) :
    g.Update inp r = some ({ g with enemies := g.enemies.map Enemy.fall }, r) := by
  rw [update_playing_eq g g inp r hs hno (advanceLevel_nonneg g hw)]
  have hrk : g.readKeys inp = g := by
    unfold Game.readKeys
    rw [hinp, ← hkeys]
  rw [hrk, updateEnemies_idle g.enemies g r hkeys h]
  simp [hno]

/-! ## Falling in exact arithmetic -/

theorem dec_rat (m : Int) : (GoFloat.dec m 0 : ℚ) = m := by
  show (m : ℚ) / (10 : ℚ) ^ 0 = m
  simp

theorem dec_half : (GoFloat.dec 5 1 : ℚ) = 1 / 2 := by
  show ((5 : Int) : ℚ) / (10 : ℚ) ^ 1 = 1 / 2
  norm_num

theorem floor_div_int (a : ℚ) (j : Int) (hj : 0 < j) : ⌊a⌋ / j = ⌊a / (j : ℚ)⌋ := by
  have hjq : (0 : ℚ) < (j : ℚ) := by exact_mod_cast hj
  symm
  rw [Int.floor_eq_iff]
  constructor
  · rw [le_div_iff₀ hjq]
    have h1 : ⌊a⌋ / j * j ≤ ⌊a⌋ := Int.ediv_mul_le _ (ne_of_gt hj)
    have h2 : ((⌊a⌋ / j * j : Int) : ℚ) ≤ (⌊a⌋ : ℚ) := by exact_mod_cast h1
    calc ((⌊a⌋ / j : Int) : ℚ) * (j : ℚ) = ((⌊a⌋ / j * j : Int) : ℚ) := by push_cast; ring
      _ ≤ (⌊a⌋ : ℚ) := h2
      _ ≤ a := Int.floor_le a
  · rw [div_lt_iff₀ hjq]
    have h1 : ⌊a⌋ < (⌊a⌋ / j + 1) * j := Int.lt_ediv_add_one_mul_self _ hj
    have h2 : ⌊a⌋ + 1 ≤ (⌊a⌋ / j + 1) * j := by omega
    have h3 : ((⌊a⌋ + 1 : Int) : ℚ) ≤ (((⌊a⌋ / j + 1) * j : Int) : ℚ) := by exact_mod_cast h2
    calc a < (⌊a⌋ : ℚ) + 1 := Int.lt_floor_add_one a
      _ = ((⌊a⌋ + 1 : Int) : ℚ) := by push_cast; ring
      _ ≤ (((⌊a⌋ / j + 1) * j : Int) : ℚ) := h3
      _ = (((⌊a⌋ / j : Int) : ℚ) + 1) * (j : ℚ) := by push_cast; ring

theorem fields_checkDamage {F : Type} (e : Enemy F) (l : String) :
    (e.checkDamage l).yPos = e.yPos ∧ (e.checkDamage l).speed = e.speed ∧
    (e.checkDamage l).discreteY = e.discreteY := by
  unfold Enemy.checkDamage
  split
  · exact ⟨rfl, rfl, rfl⟩
  · split <;> exact ⟨rfl, rfl, rfl⟩

theorem fields_applyInput {F : Type} (e : Enemy F) (g : Game F) :
    (e.applyInput g).yPos = e.yPos ∧ (e.applyInput g).speed = e.speed ∧
    (e.applyInput g).discreteY = e.discreteY := by
  unfold Enemy.applyInput
  split
  · exact ⟨rfl, rfl, rfl⟩
  · split
    · exact fields_checkDamage e _
    · exact ⟨rfl, rfl, rfl⟩

/-! ## Frames without input -/

theorem fields_fallN {F : Type} [GoFloat F] (n : Nat) (e : Enemy F) :
    (e.fallN n).killed = e.killed ∧ (e.fallN n).jumpHeight = e.jumpHeight ∧
    (e.fallN n).speed = e.speed := by
  induction n generalizing e with
  | zero => exact ⟨rfl, rfl, rfl⟩
  | succ n ih =>
    obtain ⟨h1, h2, h3⟩ := ih e.fall
    exact ⟨h1, h2, h3⟩

theorem yPos_fallN_rat (n : Nat) (e : Enemy ℚ) :
    (e.fallN n).yPos = e.yPos + (n : ℚ) * e.speed := by
  induction n generalizing e with
  | zero => simp [Enemy.fallN]
  | succ n ih =>
    show (e.fall.fallN n).yPos = _
    rw [ih e.fall]
    show e.yPos + e.speed + (n : ℚ) * e.speed = _
    push_cast
    ring

/-- Frames without keys while no token is killed or reaches the boundary:
after `n` of them every token has fallen `n` times and nothing else has
changed. -/
theorem run_idle {F : Type} [GoFloat F] (n : Nat) (g : Game F) (r : Rand F)
    (hs : g.started = true) (hno : g.gameOver = false) (hw : 0 ≤ g.waveCount)
    (hkeys : g.keys = [])
    (halive : ∀ e ∈ g.enemies, e.killed = false ∧ e.jumpHeight ≠ 0)
    (hfar : ∀ m, m < n → ∀ e ∈ g.enemies, (e.fallN m).CheckGameOver g.redlineY = false) :
    runInputs (List.replicate n noKey) (some (g, r)) =
      some ({ g with enemies := g.enemies.map (Enemy.fallN n) }, r) := by
  induction n generalizing g with
  | zero =>
    simp only [List.replicate, runInputs]
    have : g.enemies.map (Enemy.fallN 0) = g.enemies := by
      rw [show (Enemy.fallN 0 : Enemy F → Enemy F) = id from rfl, List.map_id]
    rw [this]
  | succ n ih =>
    have hu := update_idle g noKey r hs hno hw hkeys rfl
      (fun e he => ⟨(halive e he).1, (halive e he).2, hfar 0 (Nat.succ_pos n) e he⟩)
    simp only [List.replicate, runInputs, thenUpdate, hu]
    rw [ih { g with enemies := g.enemies.map Enemy.fall } hs hno hw hkeys]
    · simp only [List.map_map]
      rfl
    · intro e he
      obtain ⟨e0, he0, rfl⟩ := List.mem_map.mp he
      exact ⟨(halive e0 he0).1, (halive e0 he0).2⟩
    · intro m hm e he
      obtain ⟨e0, he0, rfl⟩ := List.mem_map.mp he
      exact hfar (m + 1) (by omega) e0 he0

/-- A started frame whose first token is past the boundary, the wave not being
exhausted: `gameOver` is set and only the keys are stored. -/
theorem update_first_past {F : Type} [GoFloat F] (g : Game F) (inp : Input) (r : Rand F)
    (a : Enemy F) (rest : List (Enemy F))
    (hs : g.started = true) (hno : g.gameOver = false) (hw : 0 ≤ g.waveCount)
    (hes : g.enemies = a :: rest) (ha : a.CheckGameOver g.redlineY = true) :
    g.Update inp r = some ({ g with keys := inp.pressed, gameOver := true }, r) := by
  rw [update_playing_eq g g inp r hs hno (advanceLevel_nonneg g hw), hes]
  have hl : Game.updateEnemies (g.readKeys inp) r (a :: rest) =
      some (a :: rest, { g.readKeys inp with gameOver := true }, r) :=
    updateEnemies_first_offender [] rest a (g.readKeys inp) r (by simp) ha
  rw [hl]
  simp only [hno, Bool.false_eq_true, if_false]
  rw [← hes]
  rfl

/-- Frames without Enter after the game is over: the flags and the tokens
stay. -/
theorem run_over_idle {F : Type} [GoFloat F] (n : Nat) (g : Game F) (r : Rand F)
    (hover : g.gameOver = true) (hne : g.levels ≠ []) :
    ∃ g1, runInputs (List.replicate n noKey) (some (g, r)) = some (g1, r) ∧
      g1.gameOver = true ∧ g1.gameWon = g.gameWon ∧ g1.enemies = g.enemies := by
  induction n generalizing g with
  | zero => exact ⟨g, rfl, hover, rfl, rfl⟩
  | succ n ih =>
    obtain ⟨lv, rest, hlv⟩ := List.exists_cons_of_ne_nil hne
    have hu := update_terminal_idle g noKey r lv rest hover rfl hlv
    obtain ⟨g1, hrun, h1, h2, h3⟩ :=
      ih { g with currentLevel := 0, waveCount := lv.waveLength } hover hne
    refine ⟨g1, ?_, h1, h2, h3⟩
    simp only [List.replicate, runInputs, thenUpdate, hu]
    exact hrun

/-! ## The scenario -/

theorem runInputs_append {F : Type} [GoFloat F] (a b : List Input)
    (s : Option (Game F × Rand F)) : runInputs (a ++ b) s = runInputs b (runInputs a s) := by
  induction a generalizing s with
  | nil => rfl
  | cons x a ih => exact ih _

theorem scenario_token (t1 t2 : String) (e : Enemy ℚ) (he : e ∈ (scenario t1 t2).enemies) :
    e.killed = false ∧ e.jumpHeight = 40 ∧ e.yPos = 40 ∧ e.speed = 1 / 2 := by
  rcases List.mem_cons.mp he with rfl | he
  · exact ⟨rfl, rfl, dec_rat 40, dec_half⟩
  · rcases List.mem_cons.mp he with rfl | he
    · exact ⟨rfl, rfl, dec_rat 40, dec_half⟩
    · exact absurd he (List.not_mem_nil _)

theorem scenario_height (t1 t2 : String) (n : Nat) (e : Enemy ℚ)
    (he : e ∈ (scenario t1 t2).enemies) : (e.fallN n).yPos = 40 + (n : ℚ) / 2 := by
  obtain ⟨_, _, hy, hsp⟩ := scenario_token t1 t2 e he
  rw [yPos_fallN_rat, hy, hsp]
  ring

theorem checkGameOver_rat (e : Enemy ℚ) (l : ℚ) : e.CheckGameOver l = decide (l ≤ e.yPos) :=
  rfl

/-- The scenario through frame 1320: the tokens only fall. -/
theorem scenario_playing (t1 t2 : String) (r : Rand ℚ) (n : Nat) (hn : n ≤ 1320) :
    scenarioAfter t1 t2 r n = some (scenarioFallen t1 t2 n, r) := by
  unfold scenarioAfter scenarioFallen
  apply run_idle n (scenario t1 t2) r rfl rfl (by show (0 : Int) ≤ 10; decide) rfl
  · intro e he
    obtain ⟨hk, hj, _, _⟩ := scenario_token t1 t2 e he
    exact ⟨hk, by rw [hj]; decide⟩
  · intro m hm e he
    rw [checkGameOver_rat, scenario_height t1 t2 m e he]
    have hm2 : (m : ℚ) < 1320 := by exact_mod_cast (lt_of_lt_of_le hm hn)
    have h700 : ((scenario t1 t2).redlineY : ℚ) = 700 := dec_rat 700
    rw [h700]
    simp only [decide_eq_false_iff_not, not_le]
    linarith

theorem scenario_past (t1 t2 : String) (n : Nat) (hn : 1320 ≤ n) (e : Enemy ℚ)
    (he : e ∈ (scenario t1 t2).enemies) :
    (e.fallN n).CheckGameOver (scenario t1 t2).redlineY = true := by
  rw [checkGameOver_rat, scenario_height t1 t2 n e he]
  have h700 : ((scenario t1 t2).redlineY : ℚ) = 700 := dec_rat 700
  have hn2 : (1320 : ℚ) ≤ (n : ℚ) := by exact_mod_cast hn
  rw [h700]
  simp only [decide_eq_true_eq]
  linarith

/-- The frame that ends the scenario: the first token is at the boundary. -/
theorem scenario_lost (t1 t2 : String) (r : Rand ℚ) (n : Nat) (hn : 1320 ≤ n) :
    (scenarioFallen t1 t2 n).Update noKey r =
      some ({ scenarioFallen t1 t2 n with keys := [], gameOver := true }, r) :=
  update_first_past (scenarioFallen t1 t2 n) noKey r _ _ rfl rfl
    (by show (0 : Int) ≤ 10; decide) rfl
    (scenario_past t1 t2 n hn _ (List.mem_cons_self _ _))

theorem scenarioFallen_height (t1 t2 : String) (n : Nat) (e : Enemy ℚ)
    (he : e ∈ (scenarioFallen t1 t2 n).enemies) : e.yPos = 40 + (n : ℚ) / 2 := by
  obtain ⟨e0, he0, rfl⟩ := List.mem_map.mp he
  exact scenario_height t1 t2 n e0 he0

/-- The scenario from the frame after the one in which the tokens reach the
boundary: the game is lost and stays so. -/
theorem scenario_over (t1 t2 : String) (r : Rand ℚ) (n k : Nat) (hn : n ≤ 1320)
    (hn2 : 1320 ≤ n) :
    ∃ g, scenarioAfter t1 t2 r (n + (1 + k)) = some (g, r) ∧
      g.gameOver = true ∧ g.gameWon = false ∧ g.enemies = (scenarioFallen t1 t2 n).enemies := by
  have h1 := scenario_playing t1 t2 r n hn
  unfold scenarioAfter at h1 ⊢
  rw [List.replicate_add, runInputs_append, h1, List.replicate_add, runInputs_append]
  have hstep : runInputs (List.replicate 1 noKey) (some (scenarioFallen t1 t2 n, r)) =
      some ({ scenarioFallen t1 t2 n with keys := [], gameOver := true }, r) := by
    show (scenarioFallen t1 t2 n).Update noKey r = _
    exact scenario_lost t1 t2 r n hn2
  rw [hstep]
  exact run_over_idle k _ r rfl (by show scenarioLevels ≠ []; exact List.cons_ne_nil _ _)

/-- C13 (counterexample): in the scenario (tokens "cat" and "dog") the tokens
are at 700 after 1320 frames and the game is still in play; the 1321st frame
already sets `gameOver`, so the game is not in play until frame 1400. -/
theorem scenario_lost_before_1400 :
    (∃ g, scenarioAfter "cat" "dog" demoRandQ 1320 = some (g, demoRandQ) ∧
      g.phase = Phase.playing ∧ ∀ e ∈ g.enemies, e.yPos = 700) ∧
    (∃ g, scenarioAfter "cat" "dog" demoRandQ 1321 = some (g, demoRandQ) ∧
      g.gameOver = true ∧ g.phase = Phase.over) ∧
    1321 < 1400 := by
  refine ⟨⟨_, scenario_playing "cat" "dog" demoRandQ 1320 (le_refl _), rfl, ?_⟩, ?_, by decide⟩
  · intro e he
    rw [scenarioFallen_height "cat" "dog" 1320 e he]
    norm_num
  · obtain ⟨g, hrun, h1, h2, _⟩ :=
      scenario_over "cat" "dog" demoRandQ 1320 0 (le_refl _) (le_refl _)
    exact ⟨g, hrun, h1, by simp [Game.phase, h1, h2]⟩

/-- C13 (amended): in the scenario, with any texts and any random source and
no key pressed, after `n ≤ 1320` frames the game is in play and both tokens
are at `40 + n / 2`, so they reach 700 after 1320 frames; the next frame, the
1321st, sets the phase to Over, and the game stays Over with the tokens at 700
in every later frame (frame 1400 included). -/
theorem scenario_ends_at_1321 (t1 t2 : String) (r : Rand ℚ) :
    (∀ n, n ≤ 1320 → ∃ g, scenarioAfter t1 t2 r n = some (g, r) ∧
      g.phase = Phase.playing ∧ g.enemies.length = 2 ∧
      ∀ e ∈ g.enemies, e.yPos = 40 + (n : ℚ) / 2) ∧
    (∀ n, 1321 ≤ n → ∃ g, scenarioAfter t1 t2 r n = some (g, r) ∧
      g.phase = Phase.over ∧ g.enemies.length = 2 ∧ ∀ e ∈ g.enemies, e.yPos = 700) := by
  constructor
  · intro n hn
    refine ⟨_, scenario_playing t1 t2 r n hn, rfl, ?_, ?_⟩
    · simp [scenarioFallen, scenario]
    · intro e he
      exact scenarioFallen_height t1 t2 n e he
  · intro n hn
    obtain ⟨k, hk⟩ : ∃ k, n = 1320 + (1 + k) := ⟨n - 1321, by omega⟩
    obtain ⟨g, hrun, h1, h2, h3⟩ := scenario_over t1 t2 r 1320 k (le_refl _) (le_refl _)
    refine ⟨g, by rw [hk]; exact hrun, by simp [Game.phase, h1, h2], ?_, ?_⟩
    · rw [h3]
      simp [scenarioFallen, scenario]
    · intro e he
      rw [h3] at he
      rw [scenarioFallen_height t1 t2 1320 e he]
      norm_num

/-! ## The level table -/

theorem getElem?_mainLevels {F : Type} [GoFloat F] (i : Nat) (h : i < 5) :
    (mainLevels : List (Level F))[i]? = some (mainLevel i) := by
  unfold mainLevels maxLevels
  rw [List.getElem?_map, List.getElem?_range h]
  rfl

/-! ## Kill and respawn -/

/-- A call of `Enemy.Update` on a token whose `killed` flag is set after the
input: `waveCount -= 1`, and a respawn with a drawn text and speed if the
counter is still positive; then the token falls. -/
theorem update_killed {F : Type} [GoFloat F] (e : Enemy F) (g : Game F) (r : Rand F)
    (lv : Level F) (hk : (e.applyInput g).killed = true)
    (hlv : levelAt g.levels g.currentLevel = some lv) :
    (0 < wrapInt64 (g.waveCount - 1) →
      e.Update g r = some (
        ((e.applyInput g).Reset (generateText lv.textLength r).1
          (spawnSpeed (generateText lv.textLength r).2.Float64.1 lv) defaultJumpHeight).fall,
        { g with waveCount := wrapInt64 (g.waveCount - 1) },
        (generateText lv.textLength r).2.Float64.2)) ∧
    (¬ 0 < wrapInt64 (g.waveCount - 1) → e.jumpHeight ≠ 0 →
      e.Update g r = some ((e.applyInput g).fall,
        { g with waveCount := wrapInt64 (g.waveCount - 1) }, r)) := by
  constructor
  · intro hpos
    have hmv := move_eq_fall ((e.applyInput g).Reset (generateText lv.textLength r).1
      (spawnSpeed (generateText lv.textLength r).2.Float64.1 lv) defaultJumpHeight)
      (by show defaultJumpHeight ≠ 0; decide)
    unfold Enemy.Update Enemy.respawn
    simp only [hk, if_true, hlv, gt_iff_lt, hpos, hmv]
  · intro hpos hj
    have hj2 : (e.applyInput g).jumpHeight ≠ 0 := by rw [jumpHeight_applyInput]; exact hj
    unfold Enemy.Update Enemy.respawn
    simp only [hk, if_true, hlv, gt_iff_lt, hpos, if_false, move_eq_fall _ hj2]

theorem floats_generateTextLoop {F : Type} (n : Nat) (acc : String) (r : Rand F) :
    (generateTextLoop n acc r).2.floats = r.floats := by
  induction n generalizing acc r with
  | zero => rfl
  | succ n ih =>
    unfold generateTextLoop
    simp only [Rand.Intn]
    rw [ih]

/-- The float drawn after a text is one of the outcomes of the random
source. -/
theorem float_after_text {F : Type} (l : Int) (r : Rand F) :
    (generateText l r).2.Float64.1 = r.floats (generateText l r).2.calls := by
  show (generateText l r).2.floats (generateText l r).2.calls = _
  unfold generateText
  rw [floats_generateTextLoop]

/-! ## Rounding to binary64 -/

theorem bitLenAux_spec (k n : Nat) (h : n < 2 ^ 2 ^ k) :
    n < 2 ^ bitLenAux k n ∧ ∀ m, m < bitLenAux k n → 2 ^ m ≤ n := by
  induction k generalizing n with
  | zero =>
    unfold bitLenAux
    have h2 : n < 2 := by simpa using h
    by_cases h0 : n = 0
    · subst h0
      simp
    · have h1 : n = 1 := by omega
      subst h1
      simp
  | succ k ih =>
    unfold bitLenAux
    simp only [Nat.shiftLeft_eq, one_mul, Nat.shiftRight_eq_div_pow]
    have hB : 0 < 2 ^ 2 ^ k := Nat.two_pow_pos _
    by_cases hc : 2 ^ 2 ^ k ≤ n
    · rw [if_pos hc]
      have hsq : 2 ^ 2 ^ (k + 1) = 2 ^ 2 ^ k * 2 ^ 2 ^ k := by
        rw [← pow_add, pow_succ]
        congr 1
        omega
      have hq : n / 2 ^ 2 ^ k < 2 ^ 2 ^ k := by
        rw [Nat.div_lt_iff_lt_mul hB]
        rw [hsq] at h
        exact h
      obtain ⟨h1, h2⟩ := ih (n / 2 ^ 2 ^ k) hq
      constructor
      · rw [pow_add]
        have : n < 2 ^ 2 ^ k * (n / 2 ^ 2 ^ k + 1) := Nat.lt_mul_div_succ n hB
        calc n < 2 ^ 2 ^ k * (n / 2 ^ 2 ^ k + 1) := this
          _ ≤ 2 ^ 2 ^ k * 2 ^ bitLenAux k (n / 2 ^ 2 ^ k) := Nat.mul_le_mul_left _ h1
      · intro m hm
        by_cases hmk : m < 2 ^ k
        · exact le_trans (Nat.pow_le_pow_right (by decide) (le_of_lt hmk)) hc
        · have hm2 : m - 2 ^ k < bitLenAux k (n / 2 ^ 2 ^ k) := by omega
          have h3 := h2 _ hm2
          have hme : m = 2 ^ k + (m - 2 ^ k) := by omega
          rw [hme, pow_add]
          calc 2 ^ 2 ^ k * 2 ^ (m - 2 ^ k) ≤ 2 ^ 2 ^ k * (n / 2 ^ 2 ^ k) :=
                Nat.mul_le_mul_left _ h3
            _ ≤ n := Nat.mul_div_le n _
    · rw [if_neg hc]
      exact ih n (by omega)

theorem bitLevel_spec (fuel k n : Nat) (h : n < 2 ^ 2 ^ (k + fuel)) :
    n < 2 ^ 2 ^ bitLevel fuel k n := by
  induction fuel generalizing k with
  | zero => simpa [bitLevel] using h
  | succ fuel ih =>
    unfold bitLevel
    simp only [Nat.shiftLeft_eq, one_mul]
    by_cases hc : n < 2 ^ 2 ^ k
    · rw [if_pos hc]
      exact hc
    · rw [if_neg hc]
      apply ih
      have : k + 1 + fuel = k + (fuel + 1) := by omega
      rw [this]
      exact h

/-- The number `n` has exactly `bitLen n` binary digits. -/
theorem bitLen_spec (n : Nat) : n < 2 ^ bitLen n ∧ ∀ m, m < bitLen n → 2 ^ m ≤ n := by
  unfold bitLen
  apply bitLenAux_spec
  apply bitLevel_spec
  have h1 : n < 2 ^ n := Nat.lt_two_pow n
  have h2 : n ≤ 2 ^ n := le_of_lt h1
  calc n < 2 ^ n := h1
    _ ≤ 2 ^ 2 ^ (0 + n) := by
      rw [Nat.zero_add]
      exact Nat.pow_le_pow_right (by decide) h2

theorem bitLen_mono (a b : Nat) (h : a ≤ b) : bitLen a ≤ bitLen b := by
  by_contra hc
  have hlt : bitLen b < bitLen a := by omega
  have h1 := (bitLen_spec a).2 _ hlt
  have h2 := (bitLen_spec b).1
  omega


theorem roundHalfEven_bounds (num d : Nat) :
    num / d ≤ roundHalfEven num d ∧ roundHalfEven num d ≤ num / d + 1 := by
  unfold roundHalfEven
  split <;> constructor <;> omega

theorem roundHalfEven_mono (a b d : Nat) (h : a ≤ b) :
    roundHalfEven a d ≤ roundHalfEven b d := by
  have hq : a / d ≤ b / d := Nat.div_le_div_right h
  have ha := Nat.div_add_mod a d
  have hb := Nat.div_add_mod b d
  by_cases hlt : a / d < b / d
  · exact le_trans (roundHalfEven_bounds a d).2 (le_trans hlt (roundHalfEven_bounds b d).1)
  · have heq : a / d = b / d := by omega
    have hr : a % d ≤ b % d := by
      rw [heq] at ha
      omega
    unfold roundHalfEven
    rw [heq]
    by_cases hup : d < 2 * (a % d) ∨ (2 * (a % d) = d ∧ b / d % 2 = 1)
    · have hupb : d < 2 * (b % d) ∨ (2 * (b % d) = d ∧ b / d % 2 = 1) := by
        rcases hup with h1 | ⟨h1, h2⟩
        · left; omega
        · by_cases h3 : 2 * (b % d) = d
          · right; exact ⟨h3, h2⟩
          · left; omega
      rw [if_pos hup, if_pos hupb]
    · rw [if_neg hup]
      split <;> omega

/-- A fraction below `m` is not rounded above `m`. -/
theorem roundHalfEven_le (num d m : Nat) (hd : 0 < d) (h : num < m * d) :
    roundHalfEven num d ≤ m := by
  have h1 : num / d < m := (Nat.div_lt_iff_lt_mul hd).mpr h
  have := (roundHalfEven_bounds num d).2
  omega

/-- A fraction that is at least `m` is not rounded below `m`. -/
theorem le_roundHalfEven (num d m : Nat) (hd : 0 < d) (h : m * d ≤ num) :
    m ≤ roundHalfEven num d := by
  have h1 : m ≤ num / d := (Nat.le_div_iff_mul_le hd).mpr h
  exact le_trans h1 (roundHalfEven_bounds num d).1

/-- An integer is rounded to itself. -/
theorem roundHalfEven_exact (n d : Nat) (hd : 0 < d) : roundHalfEven (n * d) d = n := by
  unfold roundHalfEven
  have h1 : n * d % d = 0 := Nat.mul_mod_left n d
  have h2 : n * d / d = n := Nat.mul_div_cancel n hd
  rw [h1, h2]
  have : ¬ (d < 2 * 0 ∨ (2 * 0 = d ∧ n % 2 = 1)) := by omega
  rw [if_neg this]

theorem roundNearestEven_eq (num den : Nat) :
    roundNearestEven num den =
      roundHalfEven num (den * 2 ^ (bitLen (num / den) - 53)) *
        2 ^ (bitLen (num / den) - 53) := by
  unfold roundNearestEven
  rw [Nat.shiftLeft_eq, Nat.shiftLeft_eq]

/-- Rounding to binary64 is monotone. -/
theorem roundNearestEven_mono (a b den : Nat) (hden : 0 < den) (h : a ≤ b) :
    roundNearestEven a den ≤ roundNearestEven b den := by
  rw [roundNearestEven_eq, roundNearestEven_eq]
  have hq : a / den ≤ b / den := Nat.div_le_div_right h
  have hbl : bitLen (a / den) ≤ bitLen (b / den) := bitLen_mono _ _ hq
  by_cases hs : bitLen (a / den) - 53 = bitLen (b / den) - 53
  · rw [hs]
    apply Nat.mul_le_mul_right
    exact roundHalfEven_mono a b _ h
  · have hlt : bitLen (a / den) < bitLen (b / den) := by omega
    have h53 : 53 < bitLen (b / den) := by omega
    -- the smaller value rounds to at most `2 ^ bitLen (a / den)`
    have ha1 : a / den < 2 ^ bitLen (a / den) := (bitLen_spec _).1
    have ha2 : a < 2 ^ bitLen (a / den) * den := (Nat.div_lt_iff_lt_mul hden).mp ha1
    have hsa : bitLen (a / den) - 53 ≤ bitLen (a / den) := Nat.sub_le _ _
    have hpa : 2 ^ bitLen (a / den) =
        2 ^ (bitLen (a / den) - (bitLen (a / den) - 53)) * 2 ^ (bitLen (a / den) - 53) := by
      rw [← pow_add]
      congr 1
      omega
    have hra : roundHalfEven a (den * 2 ^ (bitLen (a / den) - 53)) ≤
        2 ^ (bitLen (a / den) - (bitLen (a / den) - 53)) := by
      apply roundHalfEven_le _ _ _ (Nat.mul_pos hden (Nat.two_pow_pos _))
      calc a < 2 ^ bitLen (a / den) * den := ha2
        _ = 2 ^ (bitLen (a / den) - (bitLen (a / den) - 53)) *
              (den * 2 ^ (bitLen (a / den) - 53)) := by
          rw [hpa]
          ring
    have hua : roundHalfEven a (den * 2 ^ (bitLen (a / den) - 53)) *
        2 ^ (bitLen (a / den) - 53) ≤ 2 ^ bitLen (a / den) := by
      rw [hpa]
      exact Nat.mul_le_mul_right _ hra
    -- the larger value rounds to at least `2 ^ (bitLen (b / den) - 1)`
    have hb1 : 2 ^ (bitLen (b / den) - 1) ≤ b / den := (bitLen_spec _).2 _ (by omega)
    have hb2 : 2 ^ (bitLen (b / den) - 1) * den ≤ b := (Nat.le_div_iff_mul_le hden).mp hb1
    have hpb : 2 ^ (bitLen (b / den) - 1) = 2 ^ 52 * 2 ^ (bitLen (b / den) - 53) := by
      rw [← pow_add]
      congr 1
      omega
    have hrb : 2 ^ 52 ≤ roundHalfEven b (den * 2 ^ (bitLen (b / den) - 53)) := by
      apply le_roundHalfEven _ _ _ (Nat.mul_pos hden (Nat.two_pow_pos _))
      calc 2 ^ 52 * (den * 2 ^ (bitLen (b / den) - 53)) =
            2 ^ (bitLen (b / den) - 1) * den := by
            rw [hpb]
            ring
        _ ≤ b := hb2
    have hlb : 2 ^ (bitLen (b / den) - 1) ≤
        roundHalfEven b (den * 2 ^ (bitLen (b / den) - 53)) * 2 ^ (bitLen (b / den) - 53) := by
      rw [hpb]
      exact Nat.mul_le_mul_right _ hrb
    have hmid : 2 ^ bitLen (a / den) ≤ 2 ^ (bitLen (b / den) - 1) :=
      Nat.pow_le_pow_right (by decide) (by omega)
    exact le_trans hua (le_trans hmid hlb)

/-- The result of rounding has at most 53 significant binary digits: it is
`q * 2 ^ s` with `q ≤ 2 ^ 53`. -/
theorem roundNearestEven_digits (num den : Nat) (hden : 0 < den) :
    ∃ q s, roundNearestEven num den = q * 2 ^ s ∧ q ≤ 2 ^ 53 := by
  refine ⟨_, _, roundNearestEven_eq num den, ?_⟩
  apply roundHalfEven_le _ _ _ (Nat.mul_pos hden (Nat.two_pow_pos _))
  have h1 : num / den < 2 ^ bitLen (num / den) := (bitLen_spec _).1
  have h2 : num < 2 ^ bitLen (num / den) * den := (Nat.div_lt_iff_lt_mul hden).mp h1
  have h3 : 2 ^ bitLen (num / den) ≤ 2 ^ 53 * 2 ^ (bitLen (num / den) - 53) := by
    rw [← pow_add]
    exact Nat.pow_le_pow_right (by decide) (by omega)
  calc num < 2 ^ bitLen (num / den) * den := h2
    _ ≤ 2 ^ 53 * 2 ^ (bitLen (num / den) - 53) * den := Nat.mul_le_mul_right _ h3
    _ = 2 ^ 53 * (den * 2 ^ (bitLen (num / den) - 53)) := by ring

/-- A number with at most 53 significant binary digits is rounded to itself. -/
theorem roundNearestEven_fixed (q s : Nat) (hq : q ≤ 2 ^ 53) :
    roundNearestEven (q * 2 ^ s) 1 = q * 2 ^ s := by
  rw [roundNearestEven_eq, Nat.div_one, Nat.one_mul]
  have hdvd : 2 ^ (bitLen (q * 2 ^ s) - 53) ∣ q * 2 ^ s := by
    by_cases hle : bitLen (q * 2 ^ s) - 53 ≤ s
    · exact Dvd.dvd.mul_left (pow_dvd_pow 2 hle) q
    · have h1 : 53 + s < bitLen (q * 2 ^ s) := by omega
      have h2 : 2 ^ (53 + s) ≤ q * 2 ^ s := (bitLen_spec _).2 _ h1
      have h3 : q * 2 ^ s ≤ 2 ^ 53 * 2 ^ s := Nat.mul_le_mul_right _ hq
      have h4 : q * 2 ^ s = 2 ^ (53 + s) := by
        rw [pow_add] at h2 ⊢
        omega
      have h5 : bitLen (q * 2 ^ s) ≤ 53 + s + 1 := by
        by_contra hc
        have h6 : 2 ^ (53 + s + 1) ≤ q * 2 ^ s := (bitLen_spec _).2 _ (by omega)
        rw [h4, pow_succ] at h6
        have := Nat.two_pow_pos (53 + s)
        omega
      rw [h4] at h5 ⊢
      exact pow_dvd_pow 2 (by omega)
  obtain ⟨c, hc⟩ := hdvd
  have hc2 : q * 2 ^ s = c * 2 ^ (bitLen (q * 2 ^ s) - 53) := hc.trans (Nat.mul_comm _ _)
  have hpos : 0 < 2 ^ (bitLen (q * 2 ^ s) - 53) := Nat.two_pow_pos _
  generalize bitLen (q * 2 ^ s) - 53 = t at hc2 hpos ⊢
  rw [hc2, roundHalfEven_exact c _ hpos]

/-! ## Binary64 values as numbers -/

theorem one_pos : 0 < F64.one := by decide

theorem toRat_eq (x : F64) : x.toRat = (x.units : ℚ) / ((F64.one : Nat) : ℚ) := rfl

theorem one_pos_rat : (0 : ℚ) < ((F64.one : Nat) : ℚ) := by
  exact_mod_cast one_pos

theorem toRat_le_iff (x y : F64) : x.toRat ≤ y.toRat ↔ x.units ≤ y.units := by
  rw [toRat_eq, toRat_eq, div_le_div_iff_of_pos_right one_pos_rat]
  exact Int.cast_le

theorem toRat_lt_iff (x y : F64) : x.toRat < y.toRat ↔ x.units < y.units := by
  rw [toRat_eq, toRat_eq, div_lt_div_iff_of_pos_right one_pos_rat]
  exact Int.cast_lt

theorem toRat_nonneg_iff (x : F64) : 0 ≤ x.toRat ↔ 0 ≤ x.units := by
  rw [toRat_eq, le_div_iff₀ one_pos_rat, zero_mul]
  exact Int.cast_nonneg

/-- Comparison of a binary64 value with a fraction `a / b`. -/
theorem div_le_toRat (x : F64) (a : Int) (b : Nat) (hb : 0 < b)
    (h : a * (F64.one : Int) ≤ x.units * b) : (a : ℚ) / (b : ℚ) ≤ x.toRat := by
  have hbq : (0 : ℚ) < (b : ℚ) := by exact_mod_cast hb
  rw [toRat_eq, div_le_div_iff₀ hbq one_pos_rat]
  exact_mod_cast h

theorem toRat_lt_div (x : F64) (a : Int) (b : Nat) (hb : 0 < b)
    (h : x.units * b < a * (F64.one : Int)) : x.toRat < (a : ℚ) / (b : ℚ) := by
  have hbq : (0 : ℚ) < (b : ℚ) := by exact_mod_cast hb
  rw [toRat_eq, div_lt_div_iff₀ one_pos_rat hbq]
  exact_mod_cast h

theorem toRat_le_div (x : F64) (a : Int) (b : Nat) (hb : 0 < b)
    (h : x.units * b ≤ a * (F64.one : Int)) : x.toRat ≤ (a : ℚ) / (b : ℚ) := by
  have hbq : (0 : ℚ) < (b : ℚ) := by exact_mod_cast hb
  rw [toRat_eq, div_le_div_iff₀ one_pos_rat hbq]
  exact_mod_cast h

/-- The conversion `int(x)` of a non-negative binary64 value is the floor of
the number. -/
theorem toInt_eq_floor (x : F64) (h : 0 ≤ x.units) : GoFloat.toInt x = ⌊x.toRat⌋ := by
  show Int.tdiv x.units (F64.one : Int) = _
  rw [Int.tdiv_eq_ediv h (Int.ofNat_nonneg _), toRat_eq, Rat.floor_intCast_div_natCast]

theorem round_units (num : Int) (den : Nat) (h : 0 ≤ num) :
    (F64.round num den).units = (roundNearestEven num.toNat den : Nat) := by
  unfold F64.round
  rw [if_pos h]

theorem round_nonneg (num : Int) (den : Nat) (h : 0 ≤ num) : 0 ≤ (F64.round num den).units := by
  rw [round_units num den h]
  exact Int.ofNat_nonneg _

/-- Rounding to binary64 is monotone on the non-negative numbers. -/
theorem round_mono (a b : Int) (den : Nat) (hden : 0 < den) (ha : 0 ≤ a) (h : a ≤ b) :
    (F64.round a den).units ≤ (F64.round b den).units := by
  rw [round_units a den ha, round_units b den (le_trans ha h)]
  exact Int.ofNat_le.mpr (roundNearestEven_mono _ _ den hden (Int.toNat_le_toNat h))

/-- A rounded value is a binary64 number: rounding leaves it as it is. -/
theorem round_round (num : Int) (den : Nat) (hden : 0 < den) (h : 0 ≤ num) :
    F64.round (F64.round num den).units 1 = F64.round num den := by
  have h1 := round_units num den h
  have h2 := round_units (F64.round num den).units 1 (round_nonneg num den h)
  obtain ⟨q, s, hqs, hq⟩ := roundNearestEven_digits num.toNat den hden
  have h3 : (F64.round num den).units.toNat = q * 2 ^ s := by
    rw [h1, Int.toNat_ofNat, hqs]
  rw [h3, roundNearestEven_fixed q s hq, ← h3, Int.toNat_of_nonneg (round_nonneg num den h)] at h2
  cases hx : F64.round (F64.round num den).units 1 with
  | mk u =>
    cases hy : F64.round num den with
    | mk v =>
      rw [hx, hy] at h2
      simp only at h2
      rw [h2]

/-! ## The level table in binary64 -/

set_option maxRecDepth 100000

/-- C19 (counterexample): in binary64 the maximum speed of level 4, the value
of `0.8 + float64(4)*0.1`, is not the constant `1.2`: it is the next binary64
number above it, `1.2000000000000002` (the two differ by `2 ^ (-52)`, which is
`2 ^ 1022` units), and so it exceeds `0.8 + 0.1 * 4 = 6/5`. -/
theorem level_four_max_speed_above_1_2 :
    (mainLevel 4 : Level F64).maxSpeed ≠ GoFloat.dec 12 1 ∧
    (mainLevel 4 : Level F64).maxSpeed.units =
      (GoFloat.dec 12 1 : F64).units + ((1 <<< 1022 : Nat) : Int) ∧
    (GoFloat.dec 12 1 : F64).units * 5 < 6 * (F64.one : Int) ∧
    6 * (F64.one : Int) < (mainLevel 4 : Level F64).maxSpeed.units * 5 := by
  decide

theorem mainLevel_speeds (i : Nat) (hi : i < 5) :
    (mainLevel i : Level F64).minSpeed.units * 2 = (F64.one : Int) ∧
    (mainLevel i : Level F64).minSpeed.units < (mainLevel i : Level F64).maxSpeed.units ∧
    (i < 4 → (mainLevel i : Level F64).maxSpeed = GoFloat.dec (8 + i) 1) ∧
    (i = 4 → (mainLevel i : Level F64).maxSpeed.units =
      (GoFloat.dec 12 1 : F64).units + ((1 <<< 1022 : Nat) : Int)) ∧
    (i < 4 → (mainLevel i : Level F64).maxSpeed.units <
      (mainLevel (i + 1) : Level F64).maxSpeed.units) := by
  interval_cases i <;> decide

/-- C19 (amended): the level table built by `main` has exactly 5 levels; level
`i` has `textLength = 3 + i`, `waveLength = 10 + 5 i`, `minSpeed = 0.5`
exactly, and `maxSpeed` is the binary64 value of `0.8 + float64(i)*0.1`: the
constant `0.8`, `0.9`, `1.0`, `1.1` for `i = 0, 1, 2, 3`, and for `i = 4` the
binary64 number next above the constant `1.2`. In binary64 `minSpeed <
maxSpeed` at every level and `textLength`, `waveLength` and `maxSpeed` are
strictly increasing in `i`; the game built by `main` starts on level 0 with
`waveCount = 10`, the quota of level 0. -/
theorem level_table_binary64 :
    (mainLevels : List (Level F64)).length = 5 ∧
    (∀ i : Nat, i < 5 →
      (mainLevels : List (Level F64))[i]? = some (mainLevel i) ∧
      (mainLevel i : Level F64).textLength = 3 + i ∧
      (mainLevel i : Level F64).waveLength = 10 + 5 * i ∧
      (mainLevel i : Level F64).minSpeed.toRat = 1 / 2 ∧
      (mainLevel i : Level F64).maxSpeed =
        GoFloat.add (GoFloat.dec 8 1) (GoFloat.mul (GoFloat.dec i 0) (GoFloat.dec 1 1)) ∧
      (i < 4 → (mainLevel i : Level F64).maxSpeed = GoFloat.dec (8 + i) 1) ∧
      (i = 4 → (mainLevel i : Level F64).maxSpeed.units =
        (GoFloat.dec 12 1 : F64).units + ((1 <<< 1022 : Nat) : Int)) ∧
      (mainLevel i : Level F64).minSpeed.toRat < (mainLevel i : Level F64).maxSpeed.toRat) ∧
    (∀ i j : Nat, i < j → j < 5 →
      (mainLevel i : Level F64).textLength < (mainLevel j : Level F64).textLength ∧
      (mainLevel i : Level F64).waveLength < (mainLevel j : Level F64).waveLength ∧
      (mainLevel i : Level F64).maxSpeed.toRat < (mainLevel j : Level F64).maxSpeed.toRat) ∧
    (∀ r : Rand F64, ∃ g r1, mainGame r = some (g, r1) ∧ g.levels = mainLevels ∧
      g.currentLevel = 0 ∧ g.waveCount = 10 ∧
      levelAt g.levels g.currentLevel = some (mainLevel 0) ∧
      g.waveCount = (mainLevel 0 : Level F64).waveLength) := by
  refine ⟨length_mainLevels, ?_, ?_, ?_⟩
  · intro i hi
    obtain ⟨h1, h2, h3, h4, _⟩ := mainLevel_speeds i hi
    refine ⟨getElem?_mainLevels i hi, rfl, ?_, ?_, rfl, h3, h4, ?_⟩
    · show (10 : Int) + (i : Int) * 5 = 10 + 5 * (i : Int)
      ring
    · rw [toRat_eq, div_eq_iff (ne_of_gt one_pos_rat)]
      have : (((mainLevel i : Level F64).minSpeed.units * 2 : Int) : ℚ) =
          (((F64.one : Nat) : Int) : ℚ) := by rw [h1]
      push_cast at this
      linarith
    · exact (toRat_lt_iff _ _).mpr h2
  · intro i j hij hj
    refine ⟨?_, ?_, ?_⟩
    · show (3 : Int) + (i : Int) < 3 + (j : Int)
      omega
    · show (10 : Int) + (i : Int) * 5 < 10 + (j : Int) * 5
      omega
    · rw [toRat_lt_iff]
      have step : ∀ n : Nat, n < 4 → (mainLevel n : Level F64).maxSpeed.units <
          (mainLevel (n + 1) : Level F64).maxSpeed.units :=
        fun n hn => (mainLevel_speeds n (by omega)).2.2.2.2 hn
      have chain : ∀ d : Nat, i + d + 1 < 5 → (mainLevel i : Level F64).maxSpeed.units <
          (mainLevel (i + d + 1) : Level F64).maxSpeed.units := by
        intro d
        induction d with
        | zero => intro h; exact step i (by omega)
        | succ d ih =>
          intro h
          exact lt_trans (ih (by omega)) (step (i + d + 1) (by omega))
      have hj2 : j = i + (j - i - 1) + 1 := by omega
      rw [hj2]
      exact chain (j - i - 1) (by omega)
  · intro r
    obtain ⟨g, r1, hmain, _, hcur, hlv, _, hw⟩ := mainGame_safe r
    refine ⟨g, r1, hmain, hlv, hcur, hw, ?_, ?_⟩
    · rw [hlv, hcur]
      rfl
    · rw [hw]
      rfl

/-! ## Kill and respawn in binary64 -/

/-- The speed drawn at a spawn in binary64, for a draw `u` of `[0, 1)` and a
level whose speed span `maxSpeed - minSpeed` is not negative: the rounded
product lies between 0 and the span, so the speed lies between
`0 + minSpeed` and `(maxSpeed - minSpeed) + minSpeed`. -/
theorem spawnSpeed_bounds (u : F64) (lv : Level F64) (h0 : 0 ≤ u.units)
    (h1 : u.units < (F64.one : Int))
    (hd : 0 ≤ (GoFloat.sub lv.maxSpeed lv.minSpeed : F64).units)
    (hfix : F64.round ((F64.one : Int) * (GoFloat.sub lv.maxSpeed lv.minSpeed : F64).units)
      F64.one = GoFloat.sub lv.maxSpeed lv.minSpeed)
    (hmin : 0 ≤ lv.minSpeed.units) :
    (GoFloat.add (⟨0⟩ : F64) lv.minSpeed : F64).units ≤ (spawnSpeed u lv).units ∧
    (spawnSpeed u lv).units ≤
      (GoFloat.add (GoFloat.sub lv.maxSpeed lv.minSpeed) lv.minSpeed : F64).units := by
  have hprod0 : 0 ≤ u.units * (GoFloat.sub lv.maxSpeed lv.minSpeed : F64).units :=
    Int.mul_nonneg h0 hd
  have ht0 : 0 ≤ (GoFloat.mul u (GoFloat.sub lv.maxSpeed lv.minSpeed) : F64).units :=
    round_nonneg _ _ hprod0
  have ht1 : (GoFloat.mul u (GoFloat.sub lv.maxSpeed lv.minSpeed) : F64).units ≤
      (GoFloat.sub lv.maxSpeed lv.minSpeed : F64).units := by
    have hle : u.units * (GoFloat.sub lv.maxSpeed lv.minSpeed : F64).units ≤
        (F64.one : Int) * (GoFloat.sub lv.maxSpeed lv.minSpeed : F64).units :=
      Int.mul_le_mul_of_nonneg_right (le_of_lt h1) hd
    have := round_mono _ _ F64.one one_pos hprod0 hle
    rw [hfix] at this
    exact this
  constructor
  · exact round_mono _ _ 1 (by decide) (by show (0 : Int) ≤ 0 + lv.minSpeed.units; omega)
      (by show (0 : Int) + lv.minSpeed.units ≤ _ + lv.minSpeed.units; omega)
  · exact round_mono _ _ 1 (by decide) (by omega)
      (by show _ + lv.minSpeed.units ≤ _ + lv.minSpeed.units; omega)

theorem mainLevel_span (i : Nat) (hi : i < 5) :
    0 ≤ (GoFloat.sub (mainLevel i : Level F64).maxSpeed (mainLevel i : Level F64).minSpeed :
      F64).units ∧
    F64.round ((F64.one : Int) *
      (GoFloat.sub (mainLevel i : Level F64).maxSpeed (mainLevel i : Level F64).minSpeed :
        F64).units) F64.one =
      GoFloat.sub (mainLevel i : Level F64).maxSpeed (mainLevel i : Level F64).minSpeed ∧
    0 ≤ (mainLevel i : Level F64).minSpeed.units ∧
    GoFloat.add (⟨0⟩ : F64) (mainLevel i : Level F64).minSpeed =
      (mainLevel i : Level F64).minSpeed ∧
    GoFloat.add (GoFloat.sub (mainLevel i : Level F64).maxSpeed
      (mainLevel i : Level F64).minSpeed) (mainLevel i : Level F64).minSpeed =
      (mainLevel i : Level F64).maxSpeed := by
  interval_cases i <;> decide

/-- The speed drawn at a spawn on a level of `main`, for a draw of `[0, 1)`,
lies in the closed speed range of the level. -/
theorem spawnSpeed_mainLevel (u : F64) (i : Nat) (hi : i < 5) (h0 : 0 ≤ u.toRat)
    (h1 : u.toRat < 1) :
    (mainLevel i : Level F64).minSpeed.toRat ≤ (spawnSpeed u (mainLevel i)).toRat ∧
    (spawnSpeed u (mainLevel i)).toRat ≤ (mainLevel i : Level F64).maxSpeed.toRat := by
  have h0u : 0 ≤ u.units := (toRat_nonneg_iff u).mp h0
  have h1u : u.units < (F64.one : Int) := by
    rw [toRat_eq, div_lt_one one_pos_rat] at h1
    exact_mod_cast h1
  obtain ⟨hd, hfix, hmin, hlo, hhi⟩ := mainLevel_span i hi
  obtain ⟨hb1, hb2⟩ := spawnSpeed_bounds u (mainLevel i) h0u h1u hd hfix hmin
  rw [hlo] at hb1
  rw [hhi] at hb2
  exact ⟨(toRat_le_iff _ _).mpr hb1, (toRat_le_iff _ _).mpr hb2⟩

/-- C16 (counterexample): the typed-out token "cat", the key 'a' pressed, ten
strings left on level 0 of `main`, and `rand.Float64` yields its largest
outcome `(2 ^ 53 - 1) / 2 ^ 53`. The token is respawned with a speed that is
equal to `maxSpeed` of the level, not below it: binary64 rounds
`u * (0.8 - 0.5) + 0.5` to `0.8`. -/
theorem top_draw_spawns_at_max_speed :
    0 ≤ topDraw.units ∧ topDraw.units < (F64.one : Int) ∧
    topDraw.units * ((1 <<< 53 : Nat) : Int) = ((1 <<< 53 : Nat) - 1 : Int) * (F64.one : Int) ∧
    (typedOutF.applyInput killFrameF).killed = true ∧
    levelAt killFrameF.levels killFrameF.currentLevel = some (mainLevel 0) ∧
    (typedOutF.Update killFrameF (randF topDraw)).map
      (fun p => (p.1.killed, p.1.speed, p.2.1.waveCount)) =
      some (false, (mainLevel 0 : Level F64).maxSpeed, 9) ∧
    spawnSpeed topDraw (mainLevel 0) = (mainLevel 0 : Level F64).maxSpeed ∧
    GoFloat.ge (spawnSpeed topDraw (mainLevel 0)) (mainLevel 0 : Level F64).maxSpeed = true :=
  ⟨by decide, by decide, by decide, by decide, rfl, by decide, by decide, by decide⟩

/-- C16 (amended): in binary64, an `Enemy.Update` call on a token whose
`killed` flag is set after the input is applied (the current level is level
`i` of the table of `main`, `waveCount` a Go `int` above the least one) lowers
`waveCount` by exactly 1. If the lowered `waveCount` is positive the token is
respawned for the current level: it ends the call with `killed = false`, a new
untyped text of length `textLength`, the speed
`s = rand.Float64()*(maxSpeed-minSpeed)+minSpeed`, which satisfies
`minSpeed ≤ s ≤ maxSpeed` when `rand.Float64` yields values of `[0, 1)`, and
the position `40 + s` (the binary64 sum). Otherwise the token is not
respawned: it keeps its text and `killed = true`, and the random source is not
used. -/
theorem kill_respawn_binary64 (e : Enemy F64) (g : Game F64) (r : Rand F64) (i : Nat)
    (hk : (e.applyInput g).killed = true)
    (hi : i < 5) (hlv : levelAt g.levels g.currentLevel = some (mainLevel i))
    (hw1 : -2 ^ 63 < g.waveCount) (hw2 : g.waveCount < 2 ^ 63)
    (hj : g.waveCount - 1 ≤ 0 → e.jumpHeight ≠ 0)
    (hu : ∀ n, 0 ≤ (r.floats n).toRat ∧ (r.floats n).toRat < 1) :
    ∃ e1 g1 r1, e.Update g r = some (e1, g1, r1) ∧
      g1.waveCount = g.waveCount - 1 ∧
      (0 < g.waveCount - 1 →
        e1.killed = false ∧
        e1.text = (generateText (mainLevel i : Level F64).textLength r).1 ∧
        e1.text.length = (mainLevel i : Level F64).textLength.toNat ∧
        e1.textArray = reverseTyping e1.text ∧
        e1.speed = spawnSpeed
          (generateText (mainLevel i : Level F64).textLength r).2.Float64.1 (mainLevel i) ∧
        (mainLevel i : Level F64).minSpeed.toRat ≤ e1.speed.toRat ∧
        e1.speed.toRat ≤ (mainLevel i : Level F64).maxSpeed.toRat ∧
        e1.yPos = GoFloat.add (GoFloat.dec 40 0) e1.speed ∧
        e1.jumpHeight = defaultJumpHeight) ∧
      (g.waveCount - 1 ≤ 0 →
        e1.killed = true ∧ e1.text = e.text ∧ e1.yPos = GoFloat.add e.yPos e.speed ∧
        r1 = r) := by
  have hwrap : wrapInt64 (g.waveCount - 1) = g.waveCount - 1 :=
    wrapInt64_eq _ (by omega) (by omega)
  obtain ⟨hres, hkeep⟩ := update_killed e g r (mainLevel i) hk hlv
  rw [hwrap] at hres hkeep
  by_cases hpos : 0 < g.waveCount - 1
  · refine ⟨_, _, _, hres hpos, rfl, fun _ => ?_, fun h => absurd hpos (by omega)⟩
    obtain ⟨hs1, hs2⟩ := spawnSpeed_mainLevel
      (generateText (mainLevel i : Level F64).textLength r).2.Float64.1 i hi
      (by rw [float_after_text]; exact (hu _).1) (by rw [float_after_text]; exact (hu _).2)
    exact ⟨rfl, rfl, length_generateText _ _,
      textArray_reset (e.applyInput g) (generateText (mainLevel i : Level F64).textLength r).1
        (spawnSpeed (generateText (mainLevel i : Level F64).textLength r).2.Float64.1
          (mainLevel i)) defaultJumpHeight,
      rfl, hs1, hs2, rfl, rfl⟩
  · have hle : g.waveCount - 1 ≤ 0 := by omega
    refine ⟨_, _, _, hkeep hpos (hj hle), rfl, fun h => absurd h hpos, fun _ => ?_⟩
    obtain ⟨h1, h2, _⟩ := fields_applyInput e g
    refine ⟨hk, (suffix_applyInput e g).1, ?_, rfl⟩
    show GoFloat.add (e.applyInput g).yPos (e.applyInput g).speed = _
    rw [h1, h2]

theorem randF_unit (n : Nat) :
    0 ≤ ((randF (GoFloat.dec 5 1)).floats n).toRat ∧
    ((randF (GoFloat.dec 5 1)).floats n).toRat < 1 := by
  have h0 : (0 : Int) ≤ (GoFloat.dec 5 1 : F64).units := by decide
  have h1 : (GoFloat.dec 5 1 : F64).units < (F64.one : Int) := by decide
  refine ⟨(toRat_nonneg_iff _).mpr h0, ?_⟩
  show (GoFloat.dec 5 1 : F64).toRat < 1
  rw [toRat_eq, div_lt_one one_pos_rat]
  exact_mod_cast h1

/-- C16 (witness): the typed-out token "cat", the key 'a' pressed, ten strings
left on level 0 of `main`, and `rand.Float64` yields 0.5. -/
theorem kill_respawn_binary64_witness :
    (typedOutF.applyInput killFrameF).killed = true ∧ 0 < 5 ∧
    levelAt killFrameF.levels killFrameF.currentLevel = some (mainLevel 0) ∧
    -2 ^ 63 < killFrameF.waveCount ∧ killFrameF.waveCount < 2 ^ 63 ∧
    (killFrameF.waveCount - 1 ≤ 0 → typedOutF.jumpHeight ≠ 0) ∧
    (∀ n, 0 ≤ ((randF (GoFloat.dec 5 1)).floats n).toRat ∧
      ((randF (GoFloat.dec 5 1)).floats n).toRat < 1) ∧
    ∃ e1 g1 r1, typedOutF.Update killFrameF (randF (GoFloat.dec 5 1)) = some (e1, g1, r1) ∧
      g1.waveCount = killFrameF.waveCount - 1 ∧
      (0 < killFrameF.waveCount - 1 →
        e1.killed = false ∧
        e1.text =
          (generateText (mainLevel 0 : Level F64).textLength (randF (GoFloat.dec 5 1))).1 ∧
        e1.text.length = (mainLevel 0 : Level F64).textLength.toNat ∧
        e1.textArray = reverseTyping e1.text ∧
        e1.speed = spawnSpeed
          (generateText (mainLevel 0 : Level F64).textLength
            (randF (GoFloat.dec 5 1))).2.Float64.1 (mainLevel 0) ∧
        (mainLevel 0 : Level F64).minSpeed.toRat ≤ e1.speed.toRat ∧
        e1.speed.toRat ≤ (mainLevel 0 : Level F64).maxSpeed.toRat ∧
        e1.yPos = GoFloat.add (GoFloat.dec 40 0) e1.speed ∧
        e1.jumpHeight = defaultJumpHeight) ∧
      (killFrameF.waveCount - 1 ≤ 0 →
        e1.killed = true ∧ e1.text = typedOutF.text ∧
        e1.yPos = GoFloat.add typedOutF.yPos typedOutF.speed ∧
        r1 = randF (GoFloat.dec 5 1)) :=
  ⟨by decide, by decide, rfl, by decide, by decide, fun _ => by decide, randF_unit,
    kill_respawn_binary64 typedOutF killFrameF (randF (GoFloat.dec 5 1)) 0 (by decide)
      (by decide) rfl (by decide) (by decide) (fun _ => by decide) randF_unit⟩

/-! ## Falling in binary64 -/

theorem fallN_succ {F : Type} [GoFloat F] (n : Nat) (e : Enemy F) :
    e.fallN (n + 1) = (e.fallN n).fall := by
  induction n generalizing e with
  | zero => rfl
  | succ n ih =>
    show e.fall.fallN (n + 1) = (e.fall.fallN n).fall
    exact ih e.fall

/-- Frames without keys: `n` calls of `Enemy.Update` on a token that is not
killed make it fall `n` times. -/
theorem falls_fallN {F : Type} [GoFloat F] (n : Nat) (e : Enemy F) (hk : e.killed = false)
    (hj : e.jumpHeight ≠ 0) : Falls n e (e.fallN n) := by
  induction n with
  | zero => exact Falls.zero e
  | succ n ih =>
    obtain ⟨h1, h2, _⟩ := fields_fallN n e
    have hkeys : (newGame 0 : Game F).keys = [] := rfl
    have hin := applyInput_no_key (e.fallN n) (newGame 0 : Game F) hkeys
    have hkill : ((e.fallN n).applyInput (newGame 0 : Game F)).killed = false := by
      rw [hin, h1, hk]
    have hu := update_alive (e.fallN n) (newGame 0 : Game F)
      { ints := fun _ => 0, floats := fun _ => GoFloat.dec 0 0, calls := 0 } hkill
      (by rw [h2]; exact hj)
    rw [hin] at hu
    rw [fallN_succ]
    exact Falls.step n e _ _ _ _ _ _ ih hkill hu

/-- After `k` calls of `Enemy.Update` without a kill: the speed and the jump
height are those of the start, the position is the start with the speed added
`k` times, and from the first call on the quantised position is computed from
the position. -/
theorem falls_fields {F : Type} [GoFloat F] (k : Nat) (e0 e : Enemy F) (h : Falls k e0 e)
    (hj : e0.jumpHeight ≠ 0) :
    e.speed = e0.speed ∧ e.jumpHeight = e0.jumpHeight ∧
    e.yPos = sumSteps k e0.speed e0.yPos ∧
    (k = 0 → e.discreteY = e0.discreteY) ∧
    (1 ≤ k → e.discreteY =
      wrapInt64 (wrapInt64 (Int.tdiv (GoFloat.toInt e.yPos) e0.jumpHeight) * e0.jumpHeight)) := by
  induction h with
  | zero e => exact ⟨rfl, rfl, rfl, fun _ => rfl, fun h => absurd h (by decide)⟩
  | step k e e1 e2 g g1 r r1 _ hk hu ih =>
    obtain ⟨h1, h2, h3, _, _⟩ := ih hj
    have hj1 : e1.jumpHeight ≠ 0 := by rw [h2]; exact hj
    rw [update_alive e1 g r hk hj1] at hu
    simp only [Option.some.injEq, Prod.mk.injEq] at hu
    obtain ⟨ha1, ha2, _⟩ := fields_applyInput e1 g
    have hja : (e1.applyInput g).jumpHeight = e.jumpHeight := by
      rw [jumpHeight_applyInput, h2]
    rw [← hu.1]
    refine ⟨?_, hja, ?_, fun h => absurd h (by omega), fun _ => ?_⟩
    · show (e1.applyInput g).speed = e.speed
      rw [ha2, h1]
    · show GoFloat.add (e1.applyInput g).yPos (e1.applyInput g).speed = _
      rw [ha1, ha2, h3, h1]
      rfl
    · show wrapInt64 (wrapInt64 (Int.tdiv (GoFloat.toInt
        (GoFloat.add (e1.applyInput g).yPos (e1.applyInput g).speed))
        (e1.applyInput g).jumpHeight) * (e1.applyInput g).jumpHeight) = _
      rw [hja]
      rfl

/-- The Go expression `f / j * j` on a non-negative `int` `f` and a positive
`j` does not overflow. -/
theorem quantize_eq (f j : Int) (hf0 : 0 ≤ f) (hfb : f < 2 ^ 63) (hj : 0 < j) :
    wrapInt64 (wrapInt64 (Int.tdiv f j) * j) = f / j * j := by
  have hq0 : 0 ≤ f / j := Int.ediv_nonneg hf0 (le_of_lt hj)
  have hqm : f / j * j ≤ f := Int.ediv_mul_le _ (ne_of_gt hj)
  have hqle : f / j ≤ f / j * j := by nlinarith
  have hm0 : 0 ≤ f / j * j := Int.mul_nonneg hq0 (le_of_lt hj)
  have hin : wrapInt64 (f / j) = f / j := wrapInt64_eq _ (by omega) (by omega)
  rw [Int.tdiv_eq_ediv hf0 (le_of_lt hj), hin, wrapInt64_eq _ (by omega) (by omega)]

theorem dec_40 : (GoFloat.dec 40 0 : F64) = ⟨40 * (F64.one : Int)⟩ := by decide

theorem toRat_dec_40 : (GoFloat.dec 40 0 : F64).toRat = 40 := by
  rw [dec_40, toRat_eq, div_eq_iff (ne_of_gt one_pos_rat)]
  push_cast
  ring

/-- The positions of a falling token in binary64: each is a non-negative
binary64 number, and with a non-negative speed the next one is not smaller. -/
theorem sumSteps_spec (k : Nat) (s : F64) (hs : 0 ≤ s.units) :
    0 ≤ (sumSteps k s (GoFloat.dec 40 0)).units ∧
    F64.round (sumSteps k s (GoFloat.dec 40 0)).units 1 = sumSteps k s (GoFloat.dec 40 0) ∧
    (sumSteps k s (GoFloat.dec 40 0)).units ≤ (sumSteps (k + 1) s (GoFloat.dec 40 0)).units := by
  have key : 0 ≤ (sumSteps k s (GoFloat.dec 40 0)).units ∧
      F64.round (sumSteps k s (GoFloat.dec 40 0)).units 1 = sumSteps k s (GoFloat.dec 40 0) := by
    induction k with
    | zero =>
      show 0 ≤ (GoFloat.dec 40 0 : F64).units ∧
        F64.round (GoFloat.dec 40 0 : F64).units 1 = GoFloat.dec 40 0
      constructor <;> decide
    | succ k ih =>
      have hsum : 0 ≤ (sumSteps k s (GoFloat.dec 40 0)).units + s.units := by omega
      exact ⟨round_nonneg _ 1 hsum, round_round _ 1 (by decide) hsum⟩
  refine ⟨key.1, key.2, ?_⟩
  have hm := round_mono (sumSteps k s (GoFloat.dec 40 0)).units
    ((sumSteps k s (GoFloat.dec 40 0)).units + s.units) 1 (by decide) key.1 (by omega)
  rw [key.2] at hm
  exact hm

theorem sumSteps_mono (k k2 : Nat) (s : F64) (hs : 0 ≤ s.units) (h : k ≤ k2) :
    (sumSteps k s (GoFloat.dec 40 0)).units ≤ (sumSteps k2 s (GoFloat.dec 40 0)).units := by
  induction k2 with
  | zero =>
    have : k = 0 := by omega
    rw [this]
  | succ n ih =>
    by_cases hk : k = n + 1
    · rw [hk]
    · exact le_trans (ih (by omega)) (sumSteps_spec n s hs).2.2

/-- C12 (counterexample): two tokens of binary64 arithmetic. The first is reset
with jump height 30 and has not been updated: its `discreteY` is 40, which is
not a multiple of 30 and is not `floor(40 / 30) * 30 = 30`. The second is reset
with speed 0.8 and jump height 40 and updated 50 times without being killed:
the 50 rounded additions leave its position below 80 (at
79.99999999999986), so its `discreteY` is 40, whereas `40 + 50 * 0.8` is 80
(and at least 80 with the binary64 value of 0.8) and
`floor((40 + 50 * 0.8) / 40) * 40 = 80`. -/
theorem float_sum_misses_row :
    Falls 0 (catF (GoFloat.dec 5 1) 30) (catF (GoFloat.dec 5 1) 30) ∧
    (catF (GoFloat.dec 5 1) 30).jumpHeight = 30 ∧
    (catF (GoFloat.dec 5 1) 30).yPos.toRat = 40 ∧
    (catF (GoFloat.dec 5 1) 30).discreteY = 40 ∧
    ⌊((40 : ℚ) + ((0 : Nat) : ℚ) * (GoFloat.dec 5 1 : F64).toRat) / ((30 : Int) : ℚ)⌋ *
      (30 : Int) = 30 ∧
    ¬ ((30 : Int) ∣ (catF (GoFloat.dec 5 1) 30).discreteY) ∧
    Falls 50 (catF (GoFloat.dec 8 1) 40) ((catF (GoFloat.dec 8 1) 40).fallN 50) ∧
    ((catF (GoFloat.dec 8 1) 40).fallN 50).yPos.toRat < 80 ∧
    ((catF (GoFloat.dec 8 1) 40).fallN 50).discreteY = 40 ∧
    ⌊((40 : ℚ) + ((50 : Nat) : ℚ) * (GoFloat.dec 8 1 : F64).toRat) / ((40 : Int) : ℚ)⌋ *
      (40 : Int) = 80 ∧
    ⌊((40 : ℚ) + ((50 : Nat) : ℚ) * (4 / 5 : ℚ)) / ((40 : Int) : ℚ)⌋ * (40 : Int) = 80 := by
  have hs1 : (4 : ℚ) / 5 ≤ (GoFloat.dec 8 1 : F64).toRat := by
    have h := div_le_toRat (GoFloat.dec 8 1 : F64) 4 5 (by decide) (by decide)
    push_cast at h
    exact h
  have hs2 : (GoFloat.dec 8 1 : F64).toRat < 1 := by
    have := toRat_lt_div (GoFloat.dec 8 1 : F64) 1 1 (by decide) (by decide)
    simpa using this
  have hy : ((catF (GoFloat.dec 8 1) 40).fallN 50).yPos.toRat < 80 := by
    have := toRat_lt_div ((catF (GoFloat.dec 8 1) 40).fallN 50).yPos 80 1 (by decide) (by decide)
    simpa using this
  refine ⟨Falls.zero _, rfl, toRat_dec_40, rfl, ?_, by decide,
    falls_fallN 50 _ rfl (by decide), hy, by decide, ?_, ?_⟩
  · have h : ⌊((40 : ℚ) + ((0 : Nat) : ℚ) * (GoFloat.dec 5 1 : F64).toRat) /
        ((30 : Int) : ℚ)⌋ = 1 := by
      rw [Int.floor_eq_iff]
      norm_num
    rw [h]
    rfl
  · have h : ⌊((40 : ℚ) + ((50 : Nat) : ℚ) * (GoFloat.dec 8 1 : F64).toRat) /
        ((40 : Int) : ℚ)⌋ = 2 := by
      rw [Int.floor_eq_iff]
      push_cast
      constructor
      · rw [le_div_iff₀ (by norm_num)]
        linarith
      · rw [div_lt_iff₀ (by norm_num)]
        linarith
    rw [h]
    rfl
  · have h : ⌊((40 : ℚ) + ((50 : Nat) : ℚ) * (4 / 5 : ℚ)) / ((40 : Int) : ℚ)⌋ = 2 := by
      rw [Int.floor_eq_iff]
      norm_num
    rw [h]
    rfl

/-- C12 (amended): in binary64, a token reset with speed `s ≥ 0` and jump
height `j > 0` has after `k` calls of `Enemy.Update` in which it is not killed
the position `40 + s + ... + s`, the result of `k` rounded additions of `s` to
40; if `k ≥ 1` or `j` divides 40, and the position is below `2^63`, its
`discreteY` is `floor(position / j) * j`, so it is a multiple of `j` and does
not exceed the position; positions and `discreteY` do not decrease with `k`.
A further call in which the token is not killed does not fail. -/
theorem quantized_fall_binary64 (e0 e : Enemy F64) (text : String) (s : F64) (j : Int)
    (k : Nat) (hs : 0 ≤ s.toRat) (hj : 0 < j) (hk : 1 ≤ k ∨ j ∣ 40)
    (hf : Falls k (e0.Reset text s j) e) (hb : e.yPos.toRat < 2 ^ 63) :
    e.yPos = sumSteps k s (GoFloat.dec 40 0) ∧
    e.discreteY = ⌊e.yPos.toRat / (j : ℚ)⌋ * j ∧
    j ∣ e.discreteY ∧ (e.discreteY : ℚ) ≤ e.yPos.toRat ∧
    (∀ (k2 : Nat) (e2 : Enemy F64), k ≤ k2 → e2.yPos.toRat < 2 ^ 63 →
      Falls k2 (e0.Reset text s j) e2 →
      e.yPos.toRat ≤ e2.yPos.toRat ∧ e.discreteY ≤ e2.discreteY) ∧
    ∀ (g : Game F64) (r : Rand F64), (e.applyInput g).killed = false →
      ∃ e2, e.Update g r = some (e2, g, r) ∧ Falls (k + 1) (e0.Reset text s j) e2 := by
  have hjq : (0 : ℚ) < (j : ℚ) := by exact_mod_cast hj
  have hsu : 0 ≤ s.units := (toRat_nonneg_iff s).mp hs
  have formula : ∀ (k2 : Nat) (e2 : Enemy F64), (1 ≤ k2 ∨ j ∣ 40) →
      e2.yPos.toRat < 2 ^ 63 → Falls k2 (e0.Reset text s j) e2 →
      e2.jumpHeight = j ∧ e2.yPos = sumSteps k2 s (GoFloat.dec 40 0) ∧
      e2.discreteY = ⌊e2.yPos.toRat / (j : ℚ)⌋ * j := by
    intro k2 e2 hk2 hb2 hf2
    obtain ⟨_, h2, h3, h4, h5⟩ := falls_fields k2 _ e2 hf2 (ne_of_gt hj)
    have h3' : e2.yPos = sumSteps k2 s (GoFloat.dec 40 0) := h3
    refine ⟨h2, h3', ?_⟩
    by_cases hk0 : 1 ≤ k2
    · have hd := h5 hk0
      have hy0 : 0 ≤ e2.yPos.units := by rw [h3']; exact (sumSteps_spec k2 s hsu).1
      have hfl0 : 0 ≤ ⌊e2.yPos.toRat⌋ := Int.floor_nonneg.mpr ((toRat_nonneg_iff _).mpr hy0)
      have hflb : ⌊e2.yPos.toRat⌋ < 2 ^ 63 := by
        rw [Int.floor_lt]
        exact_mod_cast hb2
      rw [hd, toInt_eq_floor _ hy0]
      show wrapInt64 (wrapInt64 (Int.tdiv ⌊e2.yPos.toRat⌋ j) * j) = _
      rw [quantize_eq _ _ hfl0 hflb hj, floor_div_int _ _ hj]
    · have hz : k2 = 0 := by omega
      have hdvd : j ∣ 40 := by
        rcases hk2 with h | h
        · exact absurd h hk0
        · exact h
      rw [h4 hz, h3', hz]
      show (40 : Int) = ⌊(GoFloat.dec 40 0 : F64).toRat / (j : ℚ)⌋ * j
      rw [toRat_dec_40]
      obtain ⟨c, hc⟩ := hdvd
      have hfl : ⌊(40 : ℚ) / (j : ℚ)⌋ = c := by
        rw [Int.floor_eq_iff]
        have h40q : (40 : ℚ) = (j : ℚ) * (c : ℚ) := by exact_mod_cast hc
        constructor
        · rw [le_div_iff₀ hjq, h40q]
          linarith [mul_comm (j : ℚ) (c : ℚ)]
        · rw [div_lt_iff₀ hjq, h40q]
          nlinarith
      rw [hfl, hc]
      ring
  obtain ⟨hjh, hy, hd⟩ := formula k e hk hb hf
  refine ⟨hy, hd, ⟨_, by rw [hd]; ring⟩, ?_, ?_, ?_⟩
  · rw [hd]
    push_cast
    have := Int.floor_le (e.yPos.toRat / (j : ℚ))
    rw [le_div_iff₀ hjq] at this
    exact this
  · intro k2 e2 hle hb2 hf2
    have hk2 : 1 ≤ k2 ∨ j ∣ 40 := by
      rcases hk with h | h
      · exact Or.inl (le_trans h hle)
      · exact Or.inr h
    obtain ⟨_, hy2, hd2⟩ := formula k2 e2 hk2 hb2 hf2
    have hpos : e.yPos.toRat ≤ e2.yPos.toRat := by
      rw [toRat_le_iff, hy, hy2]
      exact sumSteps_mono k k2 s hsu hle
    refine ⟨hpos, ?_⟩
    rw [hd, hd2]
    have hmono : e.yPos.toRat / (j : ℚ) ≤ e2.yPos.toRat / (j : ℚ) :=
      div_le_div_of_nonneg_right hpos (le_of_lt hjq)
    exact Int.mul_le_mul_of_nonneg_right (Int.floor_mono hmono) (le_of_lt hj)
  · intro g r hkill
    have hj1 : e.jumpHeight ≠ 0 := by rw [hjh]; exact ne_of_gt hj
    have hu := update_alive e g r hkill hj1
    exact ⟨_, hu, Falls.step k _ e _ g g r r hf hkill hu⟩

theorem toRat_half_nonneg : 0 ≤ (GoFloat.dec 5 1 : F64).toRat :=
  (toRat_nonneg_iff _).mpr (by decide)

theorem catF_fallen_fits : ((catF (GoFloat.dec 5 1) defaultJumpHeight).fallN 1).yPos.toRat <
    2 ^ 63 := by
  have h := toRat_lt_div ((catF (GoFloat.dec 5 1) defaultJumpHeight).fallN 1).yPos 41 1
    (by decide) (by decide)
  have h2 : ((41 : Int) : ℚ) / ((1 : Nat) : ℚ) < 2 ^ 63 := by norm_num
  exact lt_trans h h2

/-- C12 (witness): the token "cat" with speed 0.5 and jump height 40 after one
frame without keys. -/
theorem quantized_fall_binary64_witness :
    0 ≤ (GoFloat.dec 5 1 : F64).toRat ∧ 0 < defaultJumpHeight ∧
    (1 ≤ 1 ∨ defaultJumpHeight ∣ 40) ∧
    Falls 1 ((newEnemy (GoFloat.dec 60 0)).Reset "cat" (GoFloat.dec 5 1 : F64)
      defaultJumpHeight) ((catF (GoFloat.dec 5 1) defaultJumpHeight).fallN 1) ∧
    ((catF (GoFloat.dec 5 1) defaultJumpHeight).fallN 1).yPos.toRat < 2 ^ 63 ∧
    ((catF (GoFloat.dec 5 1) defaultJumpHeight).fallN 1).discreteY = 40 ∧
    (((catF (GoFloat.dec 5 1) defaultJumpHeight).fallN 1).yPos =
        sumSteps 1 (GoFloat.dec 5 1) (GoFloat.dec 40 0) ∧
      ((catF (GoFloat.dec 5 1) defaultJumpHeight).fallN 1).discreteY =
        ⌊((catF (GoFloat.dec 5 1) defaultJumpHeight).fallN 1).yPos.toRat /
          (defaultJumpHeight : ℚ)⌋ * defaultJumpHeight ∧
      defaultJumpHeight ∣ ((catF (GoFloat.dec 5 1) defaultJumpHeight).fallN 1).discreteY ∧
      (((catF (GoFloat.dec 5 1) defaultJumpHeight).fallN 1).discreteY : ℚ) ≤
        ((catF (GoFloat.dec 5 1) defaultJumpHeight).fallN 1).yPos.toRat ∧
      (∀ (k2 : Nat) (e2 : Enemy F64), 1 ≤ k2 → e2.yPos.toRat < 2 ^ 63 →
        Falls k2 ((newEnemy (GoFloat.dec 60 0)).Reset "cat" (GoFloat.dec 5 1 : F64)
          defaultJumpHeight) e2 →
        ((catF (GoFloat.dec 5 1) defaultJumpHeight).fallN 1).yPos.toRat ≤ e2.yPos.toRat ∧
        ((catF (GoFloat.dec 5 1) defaultJumpHeight).fallN 1).discreteY ≤ e2.discreteY) ∧
      ∀ (g : Game F64) (r : Rand F64),
        (((catF (GoFloat.dec 5 1) defaultJumpHeight).fallN 1).applyInput g).killed = false →
        ∃ e2, ((catF (GoFloat.dec 5 1) defaultJumpHeight).fallN 1).Update g r =
            some (e2, g, r) ∧
          Falls (1 + 1) ((newEnemy (GoFloat.dec 60 0)).Reset "cat" (GoFloat.dec 5 1 : F64)
            defaultJumpHeight) e2) :=
  ⟨toRat_half_nonneg, by decide, Or.inl (le_refl 1),
    falls_fallN 1 (catF (GoFloat.dec 5 1) defaultJumpHeight) rfl (by decide),
    catF_fallen_fits, by decide,
    quantized_fall_binary64 (newEnemy (GoFloat.dec 60 0))
      ((catF (GoFloat.dec 5 1) defaultJumpHeight).fallN 1) "cat" (GoFloat.dec 5 1)
      defaultJumpHeight 1 toRat_half_nonneg (by decide) (Or.inl (le_refl 1))
      (falls_fallN 1 (catF (GoFloat.dec 5 1) defaultJumpHeight) rfl (by decide))
      catF_fallen_fits⟩

end ReverseTypist
